import Mathlib

/-!
# bounce: the run-time convex hull (`b3QHull::Set`)

A shallow embedding of `src/bounce/collision/shapes/qhull.cpp` and of the parts of
`include/bounce/quickhull/qh_hull.inl` it relies on.

* `float32` is replaced by exact rational arithmetic (`ℚ`). The coincident-point filter is
  embedded a second time with the `float32` operations as a parameter (`Float32`,
  `removeCoincidentF`); `Float32.exact` gives the first embedding back and `Float32.ieee` is
  IEEE 754 binary32, round to nearest, ties to even.
* Pointers into the construction mesh (`qhVertex*`, `qhHalfEdge*`) are natural numbers,
  dereferenced through the total maps `qhHull.vertex` and `qhHull.halfEdge`.
* The fixed arrays of the run-time hull are total maps `Nat → _`; a write is `upd`.
  Entries at or above the matching count are stale storage.
* `u8` values are naturals reduced `% 256` where the source narrows a `u32`.
  The `u32` counters never wrap: each one is bounded by its capacity constant.
* `B3_ASSERT` is modelled as an exit of its own (`Exit.assertion`).
* The header constants (`B3_MAX_HULL_*`, `B3_LINEAR_SLOP`, `B3_EPSILON`), `qhHull::Construct`
  and `b3Hull::Validate` are defined in other files of the repository (qhull.h, settings.h,
  qh_hull.cpp, hull.cpp); here they are fields of `Env`.
-/

namespace Bounce

/-! ## Vectors and planes -/

/-- The vector type `b3Vec3`, over the rationals. -/
structure b3Vec3 where
  x : ℚ
  y : ℚ
  z : ℚ
deriving DecidableEq

/-- The plane type `b3Plane`: a normal and an offset. -/
structure b3Plane where
  normal : b3Vec3
  offset : ℚ
deriving DecidableEq

/-- The zero vector (`b3Vec3::SetZero`). -/
def b3Vec3.zero : b3Vec3 := ⟨0, 0, 0⟩

/-- Componentwise sum (`operator+`). -/
def b3Vec3.add (a b : b3Vec3) : b3Vec3 := ⟨a.x + b.x, a.y + b.y, a.z + b.z⟩

/-- Componentwise difference (`operator-`). -/
def b3Vec3.sub (a b : b3Vec3) : b3Vec3 := ⟨a.x - b.x, a.y - b.y, a.z - b.z⟩

/-- Division by a scalar (`operator/=`). -/
def b3Vec3.divScalar (a : b3Vec3) (s : ℚ) : b3Vec3 := ⟨a.x / s, a.y / s, a.z / s⟩

/-- The dot product `b3Dot`. -/
def b3Dot (a b : b3Vec3) : ℚ := a.x * b.x + a.y * b.y + a.z * b.z

/-- The cross product `b3Cross`. -/
def b3Cross (a b : b3Vec3) : b3Vec3 :=
  ⟨a.y * b.z - a.z * b.y, a.z * b.x - a.x * b.z, a.x * b.y - a.y * b.x⟩

/-- The squared distance `b3DistanceSquared`. -/
def b3DistanceSquared (a b : b3Vec3) : ℚ := b3Dot (a.sub b) (a.sub b)

/-- The signed distance of a point to a plane (`b3Distance`). -/
def b3Distance (p : b3Vec3) (plane : b3Plane) : ℚ := b3Dot plane.normal p - plane.offset

/-! ## The run-time hull -/

/-- The sentinel `B3_NULL_HULL_FEATURE` (qhull.cpp, line 22). -/
def B3_NULL_HULL_FEATURE : Nat := 0xFF

/-- A run-time half-edge `b3HalfEdge`; its four fields are `u8`. -/
structure b3HalfEdge where
  origin : Nat
  twin : Nat
  face : Nat
  next : Nat
deriving DecidableEq

/-- A run-time face `b3Face`; `edge` is a `u8`. -/
structure b3Face where
  edge : Nat
deriving DecidableEq

/-- The run-time hull `b3QHull` (the counts and the arrays they govern). -/
structure b3QHull where
  centroid : b3Vec3
  vertexCount : Nat
  vertices : Nat → b3Vec3
  edgeCount : Nat
  edges : Nat → b3HalfEdge
  faceCount : Nat
  faces : Nat → b3Face
  planes : Nat → b3Plane

/-- An array write `a[i] = v`. -/
def upd {α : Type} (a : Nat → α) (i : Nat) (v : α) : Nat → α :=
  fun j => if j = i then v else a j

/-! ## The construction mesh -/

/-- A construction vertex `qhVertex`. -/
structure qhVertex where
  position : b3Vec3

/-- A construction half-edge `qhHalfEdge`; `tail` points to a vertex, `twin` and `next`
to half-edges. -/
structure qhHalfEdge where
  tail : Nat
  twin : Nat
  next : Nat

/-- A construction face `qhFace`: its representative half-edge, centre and plane. -/
structure qhFace where
  edge : Nat
  center : b3Vec3
  plane : b3Plane

/-- The face list `qhList<qhFace>`: the nodes reached from `head` through `next`, in that
order, and the `count` field. -/
structure qhFaceList where
  faces : List qhFace
  count : Nat

/-- The construction hull `qhHull`, as far as `b3QHull::Set` reads it: the memory holding
vertices and half-edges, and the list of live faces. -/
structure qhHull where
  vertex : Nat → qhVertex
  halfEdge : Nat → qhHalfEdge
  faceList : qhFaceList

/-- The accessor `qhHull::GetFaceList` (qh_hull.inl, lines 169-172). -/
def qhHull.GetFaceList (m : qhHull) : qhFaceList := m.faceList

/-! ## Constants and collaborators defined in other files -/

/-- What `b3QHull::Set` takes from other files: the constants of the headers, the hull
builder and the validation pass. -/
structure Env where
  B3_MAX_HULL_VERTICES : Nat
  B3_MAX_HULL_EDGES : Nat
  B3_MAX_HULL_FACES : Nat
  B3_LINEAR_SLOP : ℚ
  B3_EPSILON : ℚ
  Construct : List b3Vec3 → qhHull
  Validate : b3QHull → Bool

/-- Modelled from the spec: the capacity constants are defined in qhull.h, which is not among the
source files at hand; by section 3 of the specification they are "chosen so indices fit a
single byte". Vertex and half-edge indices are narrowed to `u8`, so both capacities are at
most 256. -/
def Env.ByteSized (env : Env) : Prop :=
  env.B3_MAX_HULL_VERTICES ≤ 256 ∧ env.B3_MAX_HULL_EDGES ≤ 256

/-! ## How a piece of code ends -/

/-- The ways a piece of the source can end. -/
inductive Exit (σ : Type) where
  | done (s : σ)
  | returned (s : σ)
  | assertion
  | fuel

/-! ## `b3PIMap` (qhull.cpp, lines 25-61) -/

/-- A pointer with its run-time index, `b3PointerIndex`. -/
structure b3PointerIndex where
  pointer : Nat
  index : Nat
deriving DecidableEq

/-- The map `b3PIMap<N>`: the first `count` entries of `pis`, so `count` is the length. -/
structure b3PIMap where
  pis : List b3PointerIndex

/-- The field `count`. -/
def b3PIMap.count (m : b3PIMap) : Nat := m.pis.length

/-- The constructor: `count = 0`. -/
def b3PIMap.empty : b3PIMap := ⟨[]⟩

/-- The method `b3PIMap<N>::Add`; `none` when `B3_ASSERT(count < N)` fails. -/
def b3PIMap.Add (N : Nat) (m : b3PIMap) (pi : b3PointerIndex) : Option b3PIMap :=
  if m.count < N then some ⟨m.pis ++ [pi]⟩ else none

/-- The method `b3PIMap<N>::Find`: the first entry with that pointer. -/
def b3PIMap.Find (m : b3PIMap) (pointer : Nat) : Option b3PointerIndex :=
  m.pis.find? (fun pi => decide (pi.pointer = pointer))

/-! ## Removal of coincident points (qhull.cpp, lines 144-167) -/

/-- The inner loop (lines 151-161): is `p` at least `kTol` away from every accepted point? -/
def isUnique (env : Env) (ps : List b3Vec3) (p : b3Vec3) : Bool :=
  let kTol := (1 / 2 : ℚ) * env.B3_LINEAR_SLOP
  !(ps.any (fun q => decide (b3DistanceSquared p q < kTol * kTol)))

/-- The outer loop (lines 147-167) from the accepted list `ps` over the remaining input. -/
def removeCoincident (env : Env) : List b3Vec3 → List b3Vec3 → List b3Vec3
  | [], ps => ps
  | p :: rest, ps =>
    if isUnique env ps p then removeCoincident env rest (ps ++ [p])
    else removeCoincident env rest ps

/-- The local buffer `ps` after the loop, for the input array `points`. -/
def uniquePoints (env : Env) (points : List b3Vec3) : List b3Vec3 :=
  removeCoincident env (points.take (min points.length env.B3_MAX_HULL_VERTICES)) []

/-- Whether the input point of index `i` is accepted: it is unique among the points
accepted before it. -/
def acceptedAt (env : Env) (points : List b3Vec3) (i : Nat) : Bool :=
  isUnique env (removeCoincident env (points.take i) []) (points.getD i b3Vec3.zero)

/-! ## Flattening (qhull.cpp, lines 192-340) -/

/-- The state of the conversion: the hull being written, the two pointer maps and the
half-edges of the face being walked (`fhs[0..nfh)`, so `nfh` is the length). -/
structure FlatState where
  hull : b3QHull
  vs : b3PIMap
  es : b3PIMap
  fhs : List Nat

/-- The field `nfh`. -/
def FlatState.nfh (s : FlatState) : Nat := s.fhs.length

/-- The three assignments `vertexCount = 0; edgeCount = 0; faceCount = 0;`. -/
def b3QHull.resetCounts (h : b3QHull) : b3QHull :=
  { h with vertexCount := 0, edgeCount := 0, faceCount := 0 }

/-- Lines 216-242 (for `v1`) and 244-267 (for `v2`): look the vertex up, and add it to the
hull and to the map when it is new. Gives the state and the index `iv`. -/
def resolveVertex (env : Env) (m : qhHull) (s : FlatState) (v : Nat) : Exit (FlatState × Nat) :=
  match s.vs.Find v with
  | some mv => Exit.done (s, mv.index)
  | none =>
    if s.hull.vertexCount = env.B3_MAX_HULL_VERTICES then
      Exit.returned ({ s with hull := s.hull.resetCounts }, 0)
    else
      let iv := s.hull.vertexCount % 256
      let hull := { s.hull with
        vertices := upd s.hull.vertices s.hull.vertexCount (m.vertex v).position,
        vertexCount := s.hull.vertexCount + 1 }
      match s.vs.Add env.B3_MAX_HULL_VERTICES ⟨v, iv⟩ with
      | none => Exit.assertion
      | some vs => Exit.done ({ s with hull := hull, vs := vs }, iv)

/-- Lines 269-313: resolve the half-edge `edge` given the indices of its end points. -/
def resolveEdge (env : Env) (m : qhHull) (s : FlatState) (edge iv1 iv2 : Nat) : Exit FlatState :=
  let twin := (m.halfEdge edge).twin
  match s.es.Find edge with
  | some mte =>
    let ie2 := mte.index
    if (s.hull.edges ie2).face = B3_NULL_HULL_FEATURE then
      let edges := upd s.hull.edges ie2 { s.hull.edges ie2 with face := s.hull.faceCount % 256 }
      if s.nfh < env.B3_MAX_HULL_EDGES then
        Exit.done { s with hull := { s.hull with edges := edges }, fhs := s.fhs ++ [ie2] }
      else Exit.assertion
    else Exit.assertion
  | none =>
    if s.hull.edgeCount + 2 ≥ env.B3_MAX_HULL_EDGES then
      Exit.returned { s with hull := s.hull.resetCounts }
    else
      let i1 := s.hull.edgeCount
      let ie1 := i1 % 256
      let i2 := s.hull.edgeCount + 1
      let ie2 := i2 % 256
      let edges1 := upd s.hull.edges i1
        { s.hull.edges i1 with face := s.hull.faceCount % 256, origin := iv1, twin := ie2 }
      let edges2 := upd edges1 i2
        { edges1 i2 with face := B3_NULL_HULL_FEATURE, origin := iv2, twin := ie1 }
      let hull := { s.hull with edges := edges2, edgeCount := s.hull.edgeCount + 2 }
      match s.es.Add env.B3_MAX_HULL_EDGES ⟨edge, ie1⟩ with
      | none => Exit.assertion
      | some es1 =>
        match es1.Add env.B3_MAX_HULL_EDGES ⟨twin, ie2⟩ with
        | none => Exit.assertion
        | some es2 =>
          if s.nfh < env.B3_MAX_HULL_EDGES then
            Exit.done { s with hull := hull, es := es2, fhs := s.fhs ++ [ie1] }
          else Exit.assertion

/-- The body of the `do ... while` loop (lines 211-313) for the half-edge `edge`. -/
def edgeStep (env : Env) (m : qhHull) (s : FlatState) (edge : Nat) : Exit FlatState :=
  let twin := (m.halfEdge edge).twin
  let v1 := (m.halfEdge edge).tail
  let v2 := (m.halfEdge twin).tail
  match resolveVertex env m s v1 with
  | Exit.done (s1, iv1) =>
    match resolveVertex env m s1 v2 with
    | Exit.done (s2, iv2) => resolveEdge env m s2 edge iv1 iv2
    | Exit.returned (s2, _) => Exit.returned s2
    | Exit.assertion => Exit.assertion
    | Exit.fuel => Exit.fuel
  | Exit.returned (s1, _) => Exit.returned s1
  | Exit.assertion => Exit.assertion
  | Exit.fuel => Exit.fuel

/-- The loop `do { ... edge = edge->next; } while (edge != face->edge)` (lines 209-316),
entered at `edge` for the face whose representative half-edge is `first`. -/
def faceLoop (env : Env) (m : qhHull) (first : Nat) : Nat → Nat → FlatState → Exit FlatState
  | 0, _, _ => Exit.fuel
  | fuel + 1, edge, s =>
    match edgeStep env m s edge with
    | Exit.done s1 =>
      if (m.halfEdge edge).next = first then Exit.done s1
      else faceLoop env m first fuel (m.halfEdge edge).next s1
    | Exit.returned s1 => Exit.returned s1
    | Exit.assertion => Exit.assertion
    | Exit.fuel => Exit.fuel

/-- The loop of lines 329-335: `edges[fhs[i]].next = fhs[j]`, `j` the cyclic successor
of `i`. -/
def linkFace (fhs : List Nat) (edges : Nat → b3HalfEdge) : Nat → b3HalfEdge :=
  (List.range fhs.length).foldl
    (fun es i =>
      let edge := fhs.getD i 0
      let j := if i < fhs.length - 1 then i + 1 else 0
      upd es edge { es edge with next := fhs.getD j 0 })
    edges

/-- Lines 318-337: emit the face just walked. -/
def emitFace (env : Env) (face : qhFace) (s : FlatState) : Exit FlatState :=
  if s.hull.faceCount < env.B3_MAX_HULL_FACES then
    if 0 < s.nfh then
      Exit.done { s with
        hull := { s.hull with
          planes := upd s.hull.planes s.hull.faceCount face.plane,
          faces := upd s.hull.faces s.hull.faceCount ⟨s.fhs.getD 0 0⟩,
          faceCount := s.hull.faceCount + 1,
          edges := linkFace s.fhs s.hull.edges },
        fhs := [] }
    else Exit.assertion
  else Exit.assertion

/-- The loop `while (face) { ... face = face->next; }` (lines 205-340). -/
def flattenFaces (env : Env) (m : qhHull) (fuel : Nat) : List qhFace → FlatState → Exit FlatState
  | [], s => Exit.done s
  | face :: rest, s =>
    match faceLoop env m face.edge fuel face.edge s with
    | Exit.done s1 =>
      match emitFace env face s1 with
      | Exit.done s2 => flattenFaces env m fuel rest s2
      | Exit.returned s2 => Exit.returned s2
      | Exit.assertion => Exit.assertion
      | Exit.fuel => Exit.fuel
    | Exit.returned s1 => Exit.returned s1
    | Exit.assertion => Exit.assertion
    | Exit.fuel => Exit.fuel

/-- The state at line 205: counts reset (lines 193-195), maps empty, `nfh = 0`. -/
def flattenInit (hull : b3QHull) : FlatState :=
  { hull := hull.resetCounts, vs := b3PIMap.empty, es := b3PIMap.empty, fhs := [] }

/-- The flattening pass (lines 192-340) of the construction hull `m` into `hull`. -/
def flatten (env : Env) (m : qhHull) (fuel : Nat) (hull : b3QHull) : Exit FlatState :=
  flattenFaces env m fuel m.GetFaceList.faces (flattenInit hull)

/-! ## The centroid (qhull.cpp, lines 64-135) -/

/-- The accumulators `volume` and `centroid`. -/
structure CentroidAcc where
  volume : ℚ
  centroid : b3Vec3

/-- The reference point `s` (lines 77-82): the mean of the vertices. -/
def centroidReference (hull : b3QHull) : b3Vec3 :=
  ((List.range hull.vertexCount).foldl (fun s i => s.add (hull.vertices i)) b3Vec3.zero).divScalar
    (hull.vertexCount : ℚ)

/-- Lines 97-124: the contribution of the triangle `(begin, edge, next)`. -/
def centroidTriangle (hull : b3QHull) (s : b3Vec3) (i1 i2 i3 : Nat) (acc : CentroidAcc) :
    CentroidAcc :=
  let inv6 : ℚ := 1 / 6
  let inv12 : ℚ := 1 / 12
  let p1 := (hull.vertices i1).sub s
  let p2 := (hull.vertices i2).sub s
  let p3 := (hull.vertices i3).sub s
  let D := b3Cross (p2.sub p1) (p3.sub p1)
  let intx := p1.x + p2.x + p3.x
  let intx2 := p1.x * p1.x + p1.x * p2.x + p1.x * p3.x + p2.x * p2.x + p2.x * p3.x + p3.x * p3.x
  let inty2 := p1.y * p1.y + p1.y * p2.y + p1.y * p3.y + p2.y * p2.y + p2.y * p3.y + p3.y * p3.y
  let intz2 := p1.z * p1.z + p1.z * p2.z + p1.z * p3.z + p2.z * p2.z + p2.z * p3.z + p3.z * p3.z
  { volume := acc.volume + (inv6 * D.x) * intx,
    centroid := ⟨acc.centroid.x + ((1 / 2 : ℚ) * inv12 * D.x) * intx2,
                 acc.centroid.y + ((1 / 2 : ℚ) * inv12 * D.y) * inty2,
                 acc.centroid.z + ((1 / 2 : ℚ) * inv12 * D.z) * intz2⟩ }

/-- The loop `do { ... edge = next; } while (GetEdge(edge->next) != begin)` (lines 93-127);
half-edges are named by their index. -/
def centroidFan (hull : b3QHull) (s : b3Vec3) (bgn : Nat) : Nat → Nat → CentroidAcc →
    Option CentroidAcc
  | 0, _, _ => none
  | fuel + 1, edge, acc =>
    let next := (hull.edges edge).next
    let acc1 := centroidTriangle hull s (hull.edges bgn).origin (hull.edges edge).origin
      (hull.edges next).origin acc
    if (hull.edges next).next ≠ bgn then centroidFan hull s bgn fuel next acc1 else some acc1

/-- The loop over the faces (lines 87-128), from face index `i` for `n` more faces. -/
def centroidFaces (hull : b3QHull) (s : b3Vec3) (fuel : Nat) : List Nat → CentroidAcc →
    Option CentroidAcc
  | [], acc => some acc
  | i :: rest, acc =>
    let bgn := (hull.faces i).edge
    match centroidFan hull s bgn fuel (hull.edges bgn).next acc with
    | some acc1 => centroidFaces hull s fuel rest acc1
    | none => none

/-- The function `b3ComputeCentroid`. -/
def b3ComputeCentroid (env : Env) (fuel : Nat) (hull : b3QHull) : Exit b3Vec3 :=
  if hull.vertexCount ≥ 4 then
    match centroidFaces hull (centroidReference hull) fuel (List.range hull.faceCount)
        ⟨0, b3Vec3.zero⟩ with
    | some acc =>
      if acc.volume > env.B3_EPSILON then
        Exit.done ((acc.centroid.divScalar acc.volume).add (centroidReference hull))
      else Exit.assertion
    | none => Exit.fuel
  else Exit.assertion

/-! ## `b3QHull::Set` (qhull.cpp, lines 137-347) -/

/-- The method `b3QHull::Set(points, count)`, `count` being the length of `points`. -/
def b3QHull.Set (env : Env) (fuel : Nat) (points : List b3Vec3) (hull : b3QHull) : Exit b3QHull :=
  if points.length ≥ 4 ∧ points.length ≤ env.B3_MAX_HULL_VERTICES then
    let ps := uniquePoints env points
    if ps.length < 4 then Exit.returned hull
    else
      let qh := env.Construct ps
      if qh.GetFaceList.count > env.B3_MAX_HULL_FACES then Exit.returned hull
      else
        match flatten env qh fuel hull with
        | Exit.done s =>
          if env.Validate s.hull then
            match b3ComputeCentroid env fuel s.hull with
            | Exit.done c => Exit.done { s.hull with centroid := c }
            | Exit.returned _ => Exit.assertion
            | Exit.assertion => Exit.assertion
            | Exit.fuel => Exit.fuel
          else Exit.assertion
        | Exit.returned s => Exit.returned s.hull
        | Exit.assertion => Exit.assertion
        | Exit.fuel => Exit.fuel
  else Exit.assertion

/-! ## Derived quantities used in the statements -/

/-- The squared tolerance `kTol * kTol` of line 156. -/
def kTolSq (env : Env) : ℚ :=
  ((1 / 2 : ℚ) * env.B3_LINEAR_SLOP) * ((1 / 2 : ℚ) * env.B3_LINEAR_SLOP)

/-! ## A concrete mesh: a tetrahedron -/

/-- The twelve half-edges of a tetrahedron `(tail, twin, next)`; face `i` owns `3i..3i+2`. -/
def tetraEdges : List qhHalfEdge :=
  [⟨0, 8, 1⟩, ⟨2, 9, 2⟩, ⟨1, 3, 0⟩,
   ⟨0, 2, 4⟩, ⟨1, 11, 5⟩, ⟨3, 6, 3⟩,
   ⟨0, 5, 7⟩, ⟨3, 10, 8⟩, ⟨2, 0, 6⟩,
   ⟨1, 1, 10⟩, ⟨2, 7, 11⟩, ⟨3, 4, 9⟩]

/-- The four corners of the tetrahedron. -/
def tetraPoints : List b3Vec3 := [⟨0, 0, 0⟩, ⟨2, 0, 0⟩, ⟨0, 1, 0⟩, ⟨0, 0, 1⟩]

/-- The four faces of the tetrahedron, with outward unit normals. -/
def tetraFaces : List qhFace :=
  [⟨0, ⟨2 / 3, 1 / 3, 0⟩, ⟨⟨0, 0, -1⟩, 0⟩⟩,
   ⟨3, ⟨2 / 3, 0, 1 / 3⟩, ⟨⟨0, -1, 0⟩, 0⟩⟩,
   ⟨6, ⟨0, 1 / 3, 1 / 3⟩, ⟨⟨-1, 0, 0⟩, 0⟩⟩,
   ⟨9, ⟨2 / 3, 1 / 3, 1 / 3⟩, ⟨⟨1 / 3, 2 / 3, 2 / 3⟩, 2 / 3⟩⟩]

/-- The tetrahedron as a construction hull. -/
def tetra : qhHull :=
  { vertex := fun v => ⟨tetraPoints.getD v b3Vec3.zero⟩,
    halfEdge := fun e => tetraEdges.getD e ⟨0, 0, 0⟩,
    faceList := ⟨tetraFaces, 4⟩ }

/-- An environment with byte-sized capacities whose `Construct` yields the tetrahedron. -/
def tetraEnv : Env :=
  { B3_MAX_HULL_VERTICES := 256, B3_MAX_HULL_EDGES := 256, B3_MAX_HULL_FACES := 256,
    B3_LINEAR_SLOP := 1 / 200, B3_EPSILON := 1 / 1000000,
    Construct := fun _ => tetra, Validate := fun _ => true }

/-- A hull with all counts zero. -/
def emptyHull : b3QHull :=
  { centroid := b3Vec3.zero, vertexCount := 0, vertices := fun _ => b3Vec3.zero,
    edgeCount := 0, edges := fun _ => ⟨0, 0, 0, 0⟩, faceCount := 0, faces := fun _ => ⟨0⟩,
    planes := fun _ => ⟨b3Vec3.zero, 0⟩ }

/-- A hull that already holds a shape: eight vertices, twenty-four half-edges, six faces. -/
def usedHull : b3QHull :=
  { emptyHull with vertexCount := 8, edgeCount := 24, faceCount := 6 }

/-- The state after a new vertex `v` has been added (lines 236-241). -/
def addVertex (m : qhHull) (s : FlatState) (v : Nat) : FlatState :=
  { s with
    hull := { s.hull with
      vertices := upd s.hull.vertices s.hull.vertexCount (m.vertex v).position,
      vertexCount := s.hull.vertexCount + 1 },
    vs := ⟨s.vs.pis ++ [⟨v, s.hull.vertexCount % 256⟩]⟩ }

/-- The state after the half-edge of index `ie2`, created earlier as a twin, has been given
its face and pushed on `fhs` (lines 273-279). -/
def markEdge (s : FlatState) (ie2 : Nat) : FlatState :=
  { s with
    hull := { s.hull with
      edges := upd s.hull.edges ie2 { s.hull.edges ie2 with face := s.hull.faceCount % 256 } },
    fhs := s.fhs ++ [ie2] }

/-- The edge array after a new pair has been written (lines 292-306). -/
def addEdgePairEdges (s : FlatState) (iv1 iv2 : Nat) : Nat → b3HalfEdge :=
  upd
    (upd s.hull.edges s.hull.edgeCount
      { s.hull.edges s.hull.edgeCount with
        face := s.hull.faceCount % 256, origin := iv1, twin := (s.hull.edgeCount + 1) % 256 })
    (s.hull.edgeCount + 1)
    { upd s.hull.edges s.hull.edgeCount
        { s.hull.edges s.hull.edgeCount with
          face := s.hull.faceCount % 256, origin := iv1, twin := (s.hull.edgeCount + 1) % 256 }
        (s.hull.edgeCount + 1) with
      face := B3_NULL_HULL_FEATURE, origin := iv2, twin := s.hull.edgeCount % 256 }

/-- The state after a new pair of half-edges has been added for `edge` and its twin
(lines 292-312). -/
def addEdgePair (m : qhHull) (s : FlatState) (edge iv1 iv2 : Nat) : FlatState :=
  { s with
    hull := { s.hull with
      edges := addEdgePairEdges s iv1 iv2,
      edgeCount := s.hull.edgeCount + 2 },
    es := ⟨s.es.pis ++ [⟨edge, s.hull.edgeCount % 256⟩] ++
      [⟨(m.halfEdge edge).twin, (s.hull.edgeCount + 1) % 256⟩]⟩,
    fhs := s.fhs ++ [s.hull.edgeCount % 256] }

/-- The state after a face has been emitted (lines 320-337). -/
def emitted (face : qhFace) (s : FlatState) : FlatState :=
  { s with
    hull := { s.hull with
      planes := upd s.hull.planes s.hull.faceCount face.plane,
      faces := upd s.hull.faces s.hull.faceCount ⟨s.fhs.getD 0 0⟩,
      faceCount := s.hull.faceCount + 1,
      edges := linkFace s.fhs s.hull.edges },
    fhs := [] }

/-- All three counts are zero. -/
def b3QHull.countsZero (h : b3QHull) : Prop :=
  h.vertexCount = 0 ∧ h.edgeCount = 0 ∧ h.faceCount = 0

/-- The state held by an exit that ran to its end, `d` otherwise. -/
def getDone {σ : Type} (e : Exit σ) (d : σ) : σ :=
  match e with
  | Exit.done s => s
  | _ => d

/-- The state held by an exit through `return`, `d` otherwise. -/
def getReturned {σ : Type} (e : Exit σ) (d : σ) : σ :=
  match e with
  | Exit.returned s => s
  | _ => d

/-- Did the code run to its end? -/
def Exit.isDone {σ : Type} (e : Exit σ) : Bool :=
  match e with
  | Exit.done _ => true
  | _ => false

/-- Did the code leave through `return`? -/
def Exit.isReturned {σ : Type} (e : Exit σ) : Bool :=
  match e with
  | Exit.returned _ => true
  | _ => false

/-- The tetrahedron's environment with room for twelve half-edges only. -/
def tightEnv : Env := { tetraEnv with B3_MAX_HULL_EDGES := 12 }

/-- The tetrahedron's environment with room for three faces only. -/
def threeFaceEnv : Env := { tetraEnv with B3_MAX_HULL_FACES := 3 }

/-- Four coincident points. -/
def coincidentPoints : List b3Vec3 := [⟨0, 0, 0⟩, ⟨0, 0, 0⟩, ⟨0, 0, 0⟩, ⟨0, 0, 0⟩]

/-- The twin fields of the half-edges below `edgeCount` pair them up as `(2k, 2k+1)`,
the indices being stored as bytes. -/
def TwinPaired (h : b3QHull) : Prop :=
  h.edgeCount % 2 = 0 ∧
  ∀ k, 2 * k + 1 < h.edgeCount →
    (h.edges (2 * k)).twin = (2 * k + 1) % 256 ∧ (h.edges (2 * k + 1)).twin = (2 * k) % 256

/-- Map entries for the pointers of a list, with consecutive indices from `n`. -/
def indexed (n : Nat) : List Nat → List b3PointerIndex
  | [] => []
  | p :: ps => ⟨p, n⟩ :: indexed (n + 1) ps

/-- The pointers held by a map, in the order they were added. -/
def b3PIMap.pointers (m : b3PIMap) : List Nat := m.pis.map (fun pi => pi.pointer)

/-- The pointers of a list in the order of their first occurrence. -/
def firstSeen (l : List Nat) : List Nat :=
  l.foldl (fun acc v => if v ∈ acc then acc else acc ++ [v]) []

/-- The end points `[tail, head]` of each half-edge of a list, in order. -/
def qhHull.endPoints (m : qhHull) (l : List Nat) : List Nat :=
  l.flatMap (fun e => [(m.halfEdge e).tail, (m.halfEdge (m.halfEdge e).twin).tail])

/-- The vertex part of the conversion's invariant: the map `vs` holds distinct pointers numbered
`0, 1, ...`, as many as `vertexCount`, and `vertices[k]` is the position of the `k`-th. -/
structure VInv (m : qhHull) (s : FlatState) : Prop where
  vs_indexed : s.vs.pis = indexed 0 s.vs.pointers
  vs_count : s.hull.vertexCount = s.vs.pointers.length
  vs_nodup : s.vs.pointers.Nodup
  vs_pos : ∀ v ∈ s.vs.pointers,
    s.hull.vertices (s.vs.pointers.indexOf v) = (m.vertex v).position

/-- The index that the conversion gave to the construction half-edge `e`: its position
in the map `es`. -/
abbrev FlatState.edgeIndex (s : FlatState) (e : Nat) : Nat := s.es.pointers.indexOf e

/-- The index that the conversion gave to the construction vertex `v`: its position
in the map `vs`. -/
abbrev FlatState.vertexIndex (s : FlatState) (v : Nat) : Nat := s.vs.pointers.indexOf v

/-- The edge part of the conversion's invariant, after the faces with boundary loops `done`
have been emitted and the half-edges `cur` of the current face have been resolved. -/
structure EInv (m : qhHull) (done : List (List Nat)) (cur : List Nat) (s : FlatState) :
    Prop where
  es_indexed : s.es.pis = indexed 0 s.es.pointers
  es_count : s.hull.edgeCount = s.es.pointers.length
  es_bound : s.hull.edgeCount ≤ 255
  es_nodup : s.es.pointers.Nodup
  es_closed : ∀ p ∈ s.es.pointers,
    (m.halfEdge p).twin ∈ s.es.pointers ∧ (m.halfEdge (m.halfEdge p).twin).twin = p
  visited_mem : ∀ e ∈ done.flatten ++ cur, e ∈ s.es.pointers
  es_source : ∀ p ∈ s.es.pointers,
    p ∈ done.flatten ++ cur ∨ (m.halfEdge p).twin ∈ done.flatten ++ cur
  edge_twin : ∀ p ∈ s.es.pointers,
    (s.hull.edges (s.edgeIndex p)).twin = s.edgeIndex (m.halfEdge p).twin
  edge_origin : ∀ p ∈ s.es.pointers,
    (m.halfEdge p).tail ∈ s.vs.pointers ∧
    (s.hull.edges (s.edgeIndex p)).origin = s.vertexIndex (m.halfEdge p).tail
  face_done : ∀ (i : Nat) (L : List Nat), done[i]? = some L → ∀ e ∈ L, (s.hull.edges (s.edgeIndex e)).face = i
  face_cur : ∀ e ∈ cur, (s.hull.edges (s.edgeIndex e)).face = done.length
  face_null : ∀ p ∈ s.es.pointers, p ∉ done.flatten ++ cur →
    (s.hull.edges (s.edgeIndex p)).face = B3_NULL_HULL_FEATURE
  face_count : s.hull.faceCount = done.length
  fhs_eq : s.fhs = cur.map (fun e => s.edgeIndex e)
  face_edge : ∀ (i : Nat) (L : List Nat), done[i]? = some L → (s.hull.faces i).edge = s.edgeIndex (L.getD 0 0)
  edge_next : ∀ (i : Nat) (L : List Nat), done[i]? = some L → ∀ j, j < L.length →
    (s.hull.edges (s.edgeIndex (L.getD j 0))).next = s.edgeIndex (L.getD ((j + 1) % L.length) 0)
  done_nonempty : ∀ L ∈ done, L ≠ []

/-! ## Boundary loops of the construction mesh (qh_hull.inl, lines 45-67) -/

/-- The loop `do { ++count; e = e->next; } while (e != edge)` shared by
`qhFace::GetVertexCount` and `qhFace::GetEdgeCount`, entered at `e` with `count`. -/
def qhHull.countLoop (m : qhHull) (first : Nat) : Nat → Nat → Nat → Option Nat
  | 0, _, _ => none
  | fuel + 1, e, count =>
    if (m.halfEdge e).next ≠ first then m.countLoop first fuel (m.halfEdge e).next (count + 1)
    else some (count + 1)

/-- The method `qhFace::GetVertexCount`; `none` when the loop does not close within `fuel`. -/
def qhFace.GetVertexCount (m : qhHull) (fuel : Nat) (face : qhFace) : Option Nat :=
  m.countLoop face.edge fuel face.edge 0

/-- The method `qhFace::GetEdgeCount`; `none` when the loop does not close within `fuel`. -/
def qhFace.GetEdgeCount (m : qhHull) (fuel : Nat) (face : qhFace) : Option Nat :=
  m.countLoop face.edge fuel face.edge 0

/-- The half-edges met by a `do ... while (e != first)` walk along `next` entered at `e`,
in order; `none` when the walk does not come back to `first` within `fuel` steps. -/
def qhHull.walkLoop (m : qhHull) (first : Nat) : Nat → Nat → Option (List Nat)
  | 0, _ => none
  | fuel + 1, e =>
    if (m.halfEdge e).next = first then some [e]
    else (m.walkLoop first fuel (m.halfEdge e).next).map (fun l => e :: l)

/-- The boundary loops of a list of faces, each walked from `face->edge`. -/
def qhHull.boundariesOf (m : qhHull) (fuel : Nat) : List qhFace → Option (List (List Nat))
  | [] => some []
  | face :: rest =>
    match m.walkLoop face.edge fuel face.edge, m.boundariesOf fuel rest with
    | some l, some ls => some (l :: ls)
    | _, _ => none

/-- The boundary loops of the live faces, in face-list order. -/
def qhHull.boundaries (m : qhHull) (fuel : Nat) : Option (List (List Nat)) :=
  m.boundariesOf fuel m.GetFaceList.faces

/-- Well-formedness of the mesh whose live faces have the boundary loops `loops`: no half-edge
lies on two loops or twice on one, and on these half-edges `twin` is an involution without
fixed point. -/
def qhHull.WellFormed (m : qhHull) (loops : List (List Nat)) : Prop :=
  loops.flatten.Nodup ∧
  ∀ e ∈ loops.flatten, (m.halfEdge (m.halfEdge e).twin).twin = e ∧ (m.halfEdge e).twin ≠ e

/-- Closedness: the twin of a half-edge of a live face lies on a live face. -/
def qhHull.Closed (m : qhHull) (loops : List (List Nat)) : Prop :=
  ∀ e ∈ loops.flatten, (m.halfEdge e).twin ∈ loops.flatten

/-- The steps of the flattening pass for the half-edges of a list, in order. -/
def stepEdges (env : Env) (m : qhHull) : List Nat → FlatState → Exit FlatState
  | [], s => Exit.done s
  | e :: rest, s =>
    match edgeStep env m s e with
    | Exit.done s1 => stepEdges env m rest s1
    | Exit.returned s1 => Exit.returned s1
    | Exit.assertion => Exit.assertion
    | Exit.fuel => Exit.fuel

/-- The invariant of the flattening pass, after the faces with boundary loops `done` have
been emitted and the half-edges `cur` of the current face have been resolved. -/
structure FlatInv (m : qhHull) (done : List (List Nat)) (cur : List Nat) (s : FlatState) :
    Prop where
  vert : VInv m s
  edge : EInv m done cur s
  seen : s.vs.pointers = firstSeen (m.endPoints (done.flatten ++ cur))

/-- The boundary loops of the tetrahedron's faces. -/
def tetraLoops : List (List Nat) := [[0, 1, 2], [3, 4, 5], [6, 7, 8], [9, 10, 11]]

/-- The state in which the flattening pass ends on the tetrahedron. -/
def tetraFlat : FlatState :=
  getDone (flatten tetraEnv tetra 10 usedHull) (flattenInit usedHull)

/-- The half-edges reached from the live faces: the representative half-edge of a live face,
and the `next` and the `twin` of a half-edge reached. -/
inductive qhHull.Reachable (m : qhHull) : Nat → Prop where
  | face (f : qhFace) (hf : f ∈ m.GetFaceList.faces) : m.Reachable f.edge
  | next (e : Nat) (he : m.Reachable e) : m.Reachable (m.halfEdge e).next
  | twin (e : Nat) (he : m.Reachable e) : m.Reachable (m.halfEdge e).twin

/-- Modelled from the spec: the outcome of `qhHull::Construct`, whose code (qh_hull.cpp) is not
among the source files at hand. By section 4.3, step 4, "on termination, every remaining face's plane must
have all original points on or behind it within tolerance"; by steps 1 and 3 the vertices of the
mesh are input points (the first tetrahedron is made of four of them, and every later face
joins an input point to a horizon edge). `tol` is the tolerance and `ps` the input points. -/
def ConstructSpec (tol : ℚ) (ps : List b3Vec3) (qh : qhHull) : Prop :=
  (∀ face ∈ qh.GetFaceList.faces, ∀ p ∈ ps, b3Distance p face.plane ≤ tol) ∧
  (∀ e, qh.Reachable e → (qh.vertex (qh.halfEdge e).tail).position ∈ ps)

/-- Convexity of a run-time hull within `tol`: every vertex lies on or behind every face
plane. -/
def b3QHull.Convex (tol : ℚ) (h : b3QHull) : Prop :=
  ∀ i, i < h.vertexCount → ∀ f, f < h.faceCount → b3Distance (h.vertices i) (h.planes f) ≤ tol

/-! ## The size of the construction buffer (qh_hull.inl, lines 125-162) -/

/-- Modelled from the spec: the operand sizes that `qhGetBufferSize` reads through `sizeof`.
The types are declared in qh_hull.h, which is not among the source files at hand, and the sizes
depend on the platform. `sizeT` is the width of `size_t` in bits; the other fields are
`sizeof(qhVertex)`, `sizeof(qhHalfEdge)`, `sizeof(qhFace)`, `sizeof(qhHalfEdge*)` and
`sizeof(qhFace*)`. -/
structure Sizes where
  sizeT : Nat
  qhVertex : Nat
  qhHalfEdge : Nat
  qhFace : Nat
  qhHalfEdgePtr : Nat
  qhFacePtr : Nat

/-- The statement `size += n * sizeof(T)` for the `u32` values `size` and `n`: the product and
the sum are computed in `size_t`, the result is narrowed to `u32`. -/
def addSize (sz : Sizes) (size n bytes : Nat) : Nat :=
  ((size + (n * bytes) % 2 ^ sz.sizeT) % 2 ^ sz.sizeT) % 2 ^ 32

/-- The function `qhGetBufferSize`, for a `u32` argument. -/
def qhGetBufferSize (sz : Sizes) (pointCount : Nat) : Nat :=
  let size := 0
  let V := pointCount
  let E := ((3 * V) % 2 ^ 32 + (2 ^ 32 - 6)) % 2 ^ 32
  let HE := (2 * E) % 2 ^ 32
  let F := ((2 * V) % 2 ^ 32 + (2 ^ 32 - 4)) % 2 ^ 32
  let size := addSize sz size V sz.qhVertex
  let size := addSize sz size HE sz.qhHalfEdge
  let size := addSize sz size F sz.qhFace
  let size := addSize sz size HE sz.qhHalfEdge
  let size := addSize sz size F sz.qhFace
  let size := addSize sz size HE sz.qhHalfEdgePtr
  let size := addSize sz size HE sz.qhFacePtr
  size

/-- The size formula of the specification over the integers, `E = 3V - 6`, `F = 2V - 4`. -/
def bufferSizeFormula (sz : Sizes) (V : ℤ) : ℤ :=
  V * sz.qhVertex + 2 * (2 * (3 * V - 6)) * sz.qhHalfEdge + 2 * (2 * V - 4) * sz.qhFace +
    (2 * (3 * V - 6)) * sz.qhHalfEdgePtr + (2 * (3 * V - 6)) * sz.qhFacePtr

/-- Sizes of an LP64 platform, for the examples. -/
def lp64Sizes : Sizes :=
  { sizeT := 64, qhVertex := 48, qhHalfEdge := 40, qhFace := 80, qhHalfEdgePtr := 8,
    qhFacePtr := 8 }

/-! ## Face centre and plane (qh_hull.inl, lines 88-121) -/

/-- The function `b3Newell`. -/
def b3Newell (a b : b3Vec3) : b3Vec3 :=
  ⟨(a.y - b.y) * (a.z + b.z), (a.z - b.z) * (a.x + b.x), (a.x - b.x) * (a.y + b.y)⟩

/-- The accumulators `c`, `n` and `count` of `qhFace::ComputeCenterAndPlane`. -/
structure NewellAcc where
  c : b3Vec3
  n : b3Vec3
  count : Nat

/-- The loop of `qhFace::ComputeCenterAndPlane` (lines 103-113), entered at `e`. -/
def qhHull.newellLoop (m : qhHull) (first : Nat) : Nat → Nat → NewellAcc → Option NewellAcc
  | 0, _, _ => none
  | fuel + 1, e, acc =>
    let v1 := (m.vertex (m.halfEdge e).tail).position
    let v2 := (m.vertex (m.halfEdge (m.halfEdge e).next).tail).position
    let acc1 : NewellAcc := ⟨acc.c.add v1, acc.n.add (b3Newell v1 v2), acc.count + 1⟩
    if (m.halfEdge e).next ≠ first then m.newellLoop first fuel (m.halfEdge e).next acc1
    else some acc1

/-- The method `qhFace::ComputeCenterAndPlane`. `normalize` stands for `b3Vec3::Normalize`,
which takes a square root and is defined in another file. -/
def qhFace.ComputeCenterAndPlane (normalize : b3Vec3 → b3Vec3) (m : qhHull) (fuel : Nat)
    (face : qhFace) : Exit qhFace :=
  match m.newellLoop face.edge fuel face.edge ⟨b3Vec3.zero, b3Vec3.zero, 0⟩ with
  | none => Exit.fuel
  | some acc =>
    if acc.count > 0 then
      let c := acc.c.divScalar (acc.count : ℚ)
      let n := normalize acc.n
      Exit.done { face with plane := ⟨n, b3Dot n c⟩, center := c }
    else Exit.assertion

/-! ## A concrete mesh: the unit cube -/

/-- The corners of the unit cube; corner `x + 2y + 4z` is `(x, y, z)`. -/
def cubePoints : List b3Vec3 :=
  [⟨0, 0, 0⟩, ⟨1, 0, 0⟩, ⟨0, 1, 0⟩, ⟨1, 1, 0⟩, ⟨0, 0, 1⟩, ⟨1, 0, 1⟩, ⟨0, 1, 1⟩, ⟨1, 1, 1⟩]

/-- The twenty-four half-edges of the cube `(tail, twin, next)`; face `i` owns `4i..4i+3`. The
faces are `z = 0`, `z = 1`, `y = 0`, `y = 1`, `x = 0`, `x = 1`, wound counter-clockwise seen
from outside. -/
def cubeEdges : List qhHalfEdge :=
  [⟨0, 19, 1⟩, ⟨2, 15, 2⟩, ⟨3, 20, 3⟩, ⟨1, 8, 0⟩,
   ⟨4, 10, 5⟩, ⟨5, 22, 6⟩, ⟨7, 13, 7⟩, ⟨6, 17, 4⟩,
   ⟨0, 3, 9⟩, ⟨1, 23, 10⟩, ⟨5, 4, 11⟩, ⟨4, 16, 8⟩,
   ⟨2, 18, 13⟩, ⟨6, 6, 14⟩, ⟨7, 21, 15⟩, ⟨3, 1, 12⟩,
   ⟨0, 11, 17⟩, ⟨4, 7, 18⟩, ⟨6, 12, 19⟩, ⟨2, 0, 16⟩,
   ⟨1, 2, 21⟩, ⟨3, 14, 22⟩, ⟨7, 5, 23⟩, ⟨5, 9, 20⟩]

/-- The six faces of the cube, with outward unit normals. -/
def cubeFaces : List qhFace :=
  [⟨0, ⟨1 / 2, 1 / 2, 0⟩, ⟨⟨0, 0, -1⟩, 0⟩⟩,
   ⟨4, ⟨1 / 2, 1 / 2, 1⟩, ⟨⟨0, 0, 1⟩, 1⟩⟩,
   ⟨8, ⟨1 / 2, 0, 1 / 2⟩, ⟨⟨0, -1, 0⟩, 0⟩⟩,
   ⟨12, ⟨1 / 2, 1, 1 / 2⟩, ⟨⟨0, 1, 0⟩, 1⟩⟩,
   ⟨16, ⟨0, 1 / 2, 1 / 2⟩, ⟨⟨-1, 0, 0⟩, 0⟩⟩,
   ⟨20, ⟨1, 1 / 2, 1 / 2⟩, ⟨⟨1, 0, 0⟩, 1⟩⟩]

/-- The cube as a construction hull. -/
def cube : qhHull :=
  { vertex := fun v => ⟨cubePoints.getD v b3Vec3.zero⟩,
    halfEdge := fun e => cubeEdges.getD e ⟨0, 0, 0⟩,
    faceList := ⟨cubeFaces, 6⟩ }

/-- An environment with byte-sized capacities whose `Construct` yields the cube. -/
def cubeEnv : Env := { tetraEnv with Construct := fun _ => cube }

/-- The run-time hull of the unit cube: what the flattening pass makes of the cube. -/
def cubeHull : b3QHull := (getDone (flatten cubeEnv cube 4 emptyHull) (flattenInit emptyHull)).hull

/-! ## The pools of the construction hull (qh_hull.inl, lines 174-212) -/

/-- The links `prev` and `next` of a node of an intrusive list `qhList<T>`; `none` is `NULL`. -/
structure qhLinks where
  prev : Option Nat
  next : Option Nat
deriving DecidableEq

/-- Modelled from the spec: the lifecycle tag of a face, "active vs. deleted" (section 3). The
enumeration is declared in qh_hull.h; the code at hand names `e_deleted` only. -/
inductive qhFaceState where
  | e_active
  | e_deleted
deriving DecidableEq

/-- The memory of the construction hull that the allocation functions work on. For each kind of
element: its mesh fields, its list links where it has some, its `freeNext` field, and the head
of the free-list (`m_freeVertices`, `m_freeEdges`, `m_freeFaces`). -/
structure qhArena where
  vertices : Nat → qhVertex
  vertexLinks : Nat → qhLinks
  vertexFreeNext : Nat → Option Nat
  m_freeVertices : Option Nat
  edges : Nat → qhHalfEdge
  edgeFreeNext : Nat → Option Nat
  m_freeEdges : Option Nat
  faces : Nat → qhFace
  faceLinks : Nat → qhLinks
  faceState : Nat → qhFaceState
  faceFreeNext : Nat → Option Nat
  m_freeFaces : Option Nat

/-- The method `qhHull::AllocateVertex`; `none` when `m_freeVertices` is `NULL`. -/
def qhArena.AllocateVertex (a : qhArena) : Option (Nat × qhArena) :=
  match a.m_freeVertices with
  | none => none
  | some v => some (v, { a with m_freeVertices := a.vertexFreeNext v })

/-- The method `qhHull::FreeVertex`. -/
def qhArena.FreeVertex (a : qhArena) (v : Nat) : qhArena :=
  { a with vertexFreeNext := upd a.vertexFreeNext v a.m_freeVertices, m_freeVertices := some v }

/-- The method `qhHull::AllocateEdge`; `none` when `m_freeEdges` is `NULL`. -/
def qhArena.AllocateEdge (a : qhArena) : Option (Nat × qhArena) :=
  match a.m_freeEdges with
  | none => none
  | some e => some (e, { a with m_freeEdges := a.edgeFreeNext e })

/-- The method `qhHull::FreeEdge`. -/
def qhArena.FreeEdge (a : qhArena) (e : Nat) : qhArena :=
  { a with edgeFreeNext := upd a.edgeFreeNext e a.m_freeEdges, m_freeEdges := some e }

/-- The method `qhHull::AllocateFace`; `none` when `m_freeFaces` is `NULL`. -/
def qhArena.AllocateFace (a : qhArena) : Option (Nat × qhArena) :=
  match a.m_freeFaces with
  | none => none
  | some f => some (f, { a with m_freeFaces := a.faceFreeNext f })

/-- The method `qhHull::FreeFace`. -/
def qhArena.FreeFace (a : qhArena) (f : Nat) : qhArena :=
  { a with
    faceState := upd a.faceState f qhFaceState.e_deleted,
    faceFreeNext := upd a.faceFreeNext f a.m_freeFaces,
    m_freeFaces := some f }

/-- The elements of a free-list in order: `l` is what is reached from `head` through
`freeNext` up to `NULL`. -/
def FreeChain (freeNext : Nat → Option Nat) : Option Nat → List Nat → Prop
  | head, [] => head = none
  | head, n :: rest => head = some n ∧ FreeChain freeNext (freeNext n) rest

/-- An arena for the examples: vertices, half-edges and faces `1, 2` are free, in this order. -/
def smallArena : qhArena :=
  { vertices := fun _ => ⟨b3Vec3.zero⟩, vertexLinks := fun _ => ⟨none, none⟩,
    vertexFreeNext := fun v => if v = 1 then some 2 else none, m_freeVertices := some 1,
    edges := fun _ => ⟨0, 0, 0⟩,
    edgeFreeNext := fun e => if e = 1 then some 2 else none, m_freeEdges := some 1,
    faces := fun _ => ⟨0, b3Vec3.zero, ⟨b3Vec3.zero, 0⟩⟩, faceLinks := fun _ => ⟨none, none⟩,
    faceState := fun _ => qhFaceState.e_active,
    faceFreeNext := fun f => if f = 1 then some 2 else none, m_freeFaces := some 1 }

/-! ## The intrusive list `qhList<T>` (qh_hull.inl, lines 5-41) -/

/-- A list `qhList<T>` together with the memory holding the `prev` and `next` fields of the
nodes: `links` maps a node pointer to its links, `head` and `count` are the two members of the
list (`count` is a `u32`). -/
structure qhList where
  links : Nat → qhLinks
  head : Option Nat
  count : Nat

/-- The method `qhList<T>::PushFront`. -/
def qhList.PushFront (L : qhList) (link : Nat) : qhList :=
  let links1 := upd L.links link { L.links link with prev := none }
  let links2 := upd links1 link { links1 link with next := L.head }
  let links3 :=
    match L.head with
    | some h => upd links2 h { links2 h with prev := some link }
    | none => links2
  { links := links3, head := some link, count := (L.count + 1) % 2 ^ 32 }

/-- The method `qhList<T>::Remove`: the list after the call and the pointer returned. -/
def qhList.Remove (L : qhList) (link : Nat) : qhList × Option Nat :=
  let next := (L.links link).next
  let links1 :=
    match (L.links link).prev with
    | some p => upd L.links p { L.links p with next := (L.links link).next }
    | none => L.links
  let links2 :=
    match (links1 link).next with
    | some n => upd links1 n { links1 n with prev := (links1 link).prev }
    | none => links1
  let head := if some link = L.head then (links2 link).next else L.head
  let links3 := upd links2 link { links2 link with prev := none }
  let links4 := upd links3 link { links3 link with next := none }
  ({ links := links4, head := head, count := (L.count + (2 ^ 32 - 1)) % 2 ^ 32 }, next)

/-- The list `L` is well formed and holds the nodes `s`, in order: `head` is the first node (or
`NULL`), `next` leads from each node to the following one and from the last to `NULL`, `prev`
leads back and is `NULL` at the head, no node occurs twice, and `count` is the number of
nodes. -/
structure qhList.Repr (L : qhList) (s : List Nat) : Prop where
  nodup : s.Nodup
  head : L.head = s.head?
  count : L.count = s.length
  count_lt : s.length < 2 ^ 32
  next : ∀ (i n : Nat), s[i]? = some n → (L.links n).next = s[i + 1]?
  prev : ∀ (i n : Nat), s[i]? = some n →
    (L.links n).prev = if i = 0 then none else s[i - 1]?

/-- A list for the examples: the nodes `7, 8` in this order. -/
def smallList : qhList :=
  { links := fun n => if n = 7 then ⟨none, some 8⟩ else if n = 8 then ⟨some 7, none⟩
      else ⟨none, none⟩,
    head := some 7, count := 2 }

/-! ## `FindTwin` (qh_hull.inl, lines 69-86 and 214-227) -/

/-- The test of `qhFace::FindTwin` on the half-edge `e`: `e->tail == tail` and
`e->next->tail == head`. -/
def qhHull.isTwinOf (m : qhHull) (tail head : Nat) (e : Nat) : Bool :=
  decide ((m.halfEdge e).tail = tail) && decide ((m.halfEdge (m.halfEdge e).next).tail = head)

/-- The `do ... while (e != edge)` loop of `qhFace::FindTwin`, entered at `e` on the face with
representative half-edge `first`: `some (some e)` is the half-edge returned, `some none` is
`NULL`, and `none` means that the loop has not ended within `fuel` rounds. -/
def qhHull.findTwinLoop (m : qhHull) (first tail head : Nat) : Nat → Nat → Option (Option Nat)
  | 0, _ => none
  | fuel + 1, e =>
    if m.isTwinOf tail head e then some (some e)
    else if (m.halfEdge e).next ≠ first then
      m.findTwinLoop first tail head fuel (m.halfEdge e).next
    else some none

/-- The method `qhFace::FindTwin`. -/
def qhFace.FindTwin (m : qhHull) (fuel : Nat) (face : qhFace) (tail head : Nat) :
    Option (Option Nat) :=
  m.findTwinLoop face.edge tail head fuel face.edge

/-- The `while (face)` loop of `qhHull::FindTwin` over the faces from `face` on. -/
def qhHull.findTwinFaces (m : qhHull) (fuel : Nat) (tail head : Nat) :
    List qhFace → Option (Option Nat)
  | [] => some none
  | face :: rest =>
    match face.FindTwin m fuel tail head with
    | none => none
    | some (some e) => some (some e)
    | some none => m.findTwinFaces fuel tail head rest

/-- The method `qhHull::FindTwin`. -/
def qhHull.FindTwin (m : qhHull) (fuel : Nat) (tail head : Nat) : Option (Option Nat) :=
  m.findTwinFaces fuel tail head m.faceList.faces

/-- The counts stay within the capacities during the flattening pass: `vertexCount` is at most
`B3_MAX_HULL_VERTICES`, and `edgeCount` is zero or below `B3_MAX_HULL_EDGES`. -/
structure CapInv (env : Env) (s : FlatState) : Prop where
  vertex : s.hull.vertexCount ≤ env.B3_MAX_HULL_VERTICES
  edge : s.hull.edgeCount = 0 ∨ s.hull.edgeCount < env.B3_MAX_HULL_EDGES

/-! ## A pyramid over a polygon -/

/-- What lines 155-156 take from headers that are not among the source files (types.h,
b3_vec3.h): the product of two `float32` values and `b3DistanceSquared` on `float32` vectors.
A finite `float32` value is the rational number it stands for. -/
structure Float32 where
  mul : ℚ → ℚ → ℚ
  b3DistanceSquared : b3Vec3 → b3Vec3 → ℚ

/-- Exact arithmetic: no rounding. -/
def Float32.exact : Float32 :=
  { mul := fun a b => a * b, b3DistanceSquared := Bounce.b3DistanceSquared }

/-- The tolerance `kTol * kTol` of line 156 as the code computes it, with
`kTol = 0.5f * B3_LINEAR_SLOP` (line 155). -/
def kTolSqF (fp : Float32) (env : Env) : ℚ :=
  fp.mul (fp.mul (1 / 2) env.B3_LINEAR_SLOP) (fp.mul (1 / 2) env.B3_LINEAR_SLOP)

/-- The inner loop (lines 151-161) with the arithmetic `fp`: does no accepted point `ps[j]`
have `b3DistanceSquared(p, ps[j]) < kTol * kTol`? -/
def isUniqueF (fp : Float32) (env : Env) (ps : List b3Vec3) (p : b3Vec3) : Bool :=
  let kTol := fp.mul (1 / 2) env.B3_LINEAR_SLOP
  !(ps.any (fun q => decide (fp.b3DistanceSquared p q < fp.mul kTol kTol)))

/-- The outer loop (lines 147-167) with the arithmetic `fp`, from the accepted list `ps` over
the remaining input. -/
def removeCoincidentF (fp : Float32) (env : Env) : List b3Vec3 → List b3Vec3 → List b3Vec3
  | [], ps => ps
  | p :: rest, ps =>
    if isUniqueF fp env ps p then removeCoincidentF fp env rest (ps ++ [p])
    else removeCoincidentF fp env rest ps

/-- The local buffer `ps` after the loop with the arithmetic `fp`, for the input array
`points`. -/
def uniquePointsF (fp : Float32) (env : Env) (points : List b3Vec3) : List b3Vec3 :=
  removeCoincidentF fp env (points.take (min points.length env.B3_MAX_HULL_VERTICES)) []

/-- Whether the input point of index `i` is accepted with the arithmetic `fp`. -/
def acceptedAtF (fp : Float32) (env : Env) (points : List b3Vec3) (i : Nat) : Bool :=
  isUniqueF fp env (removeCoincidentF fp env (points.take i) []) (points.getD i b3Vec3.zero)

/-- Rounding of a rational to the nearest integer, ties to the even one. -/
def roundHalfEven (r : ℚ) : ℤ :=
  let f := Rat.floor r
  if r - f < 1 / 2 then f
  else if 1 / 2 < r - f then f + 1
  else if f % 2 = 0 then f else f + 1

/-- The spacing of the binary32 values around the magnitude `a`: `p / 2^23` for the largest
power of two `p <= a` among `2^127, ..., 2^-126` (searched downwards from `p`), and `2^-149`
below `2^-126`. -/
def binary32Quantum : Nat → ℚ → ℚ → ℚ
  | 0, p, _ => p / 2 ^ 23
  | fuel + 1, p, a => if p ≤ a then p / 2 ^ 23 else binary32Quantum fuel (p / 2) a

/-- Rounding to IEEE 754 binary32, to nearest, ties to even. Overflow to infinity is left
out: the model is for magnitudes below `2^128`. -/
def roundF32 (q : ℚ) : ℚ :=
  if q = 0 then 0
  else
    let u := binary32Quantum 253 (2 ^ 127) (if q < 0 then -q else q)
    (roundHalfEven (q / u) : ℚ) * u

/-- Modelled from the spec: `b3DistanceSquared` on `float32` vectors (b3_vec3.h is not among
the source files), the squared distance of the spec's deduplication step ("squared-distance
test"): the difference of the two vectors, then the sum of the squares of its components, each
operation rounded to binary32. -/
def f32DistanceSquared (a b : b3Vec3) : ℚ :=
  let vx := roundF32 (a.x - b.x)
  let vy := roundF32 (a.y - b.y)
  let vz := roundF32 (a.z - b.z)
  roundF32 (roundF32 (roundF32 (vx * vx) + roundF32 (vy * vy)) + roundF32 (vz * vz))

/-- IEEE 754 binary32 arithmetic. -/
def Float32.ieee : Float32 :=
  { mul := fun a b => roundF32 (a * b), b3DistanceSquared := f32DistanceSquared }

/-- The tetrahedron's environment with `B3_LINEAR_SLOP` the binary32 value of `0.005f`. -/
def f32Env : Env := { tetraEnv with B3_LINEAR_SLOP := 5368709 / 1073741824 }

/-- Four points with binary32 coordinates; the second is a little less than `kTol` away from
the first. -/
def f32Points : List b3Vec3 :=
  [⟨0, 0, 0⟩, ⟨7 / 16384, 20663 / 8388608, 0⟩, ⟨1, 0, 0⟩, ⟨0, 1, 0⟩]

/-! # Theorems -/

/-! ## Removal of coincident points -/

theorem b3DistanceSquared_comm (a b : b3Vec3) : b3DistanceSquared a b = b3DistanceSquared b a := by
  simp only [b3DistanceSquared, b3Dot, b3Vec3.sub]
  ring

theorem b3DistanceSquared_self (a : b3Vec3) : b3DistanceSquared a a = 0 := by
  simp [b3DistanceSquared, b3Dot, b3Vec3.sub]

theorem kTolSq_pos (env : Env) (h : 0 < env.B3_LINEAR_SLOP) : 0 < kTolSq env := by
  unfold kTolSq
  positivity

theorem isUnique_eq_true (env : Env) (ps : List b3Vec3) (p : b3Vec3) :
    isUnique env ps p = true ↔ ∀ q ∈ ps, kTolSq env ≤ b3DistanceSquared p q := by
  simp [isUnique, kTolSq]

theorem isUnique_eq_false (env : Env) (ps : List b3Vec3) (p : b3Vec3) :
    isUnique env ps p = false ↔ ∃ q ∈ ps, b3DistanceSquared p q < kTolSq env := by
  simp [isUnique, kTolSq]

theorem removeCoincident_append (env : Env) (a b ps : List b3Vec3) :
    removeCoincident env (a ++ b) ps = removeCoincident env b (removeCoincident env a ps) := by
  induction a generalizing ps with
  | nil => rfl
  | cons p a ih =>
    simp only [List.cons_append, removeCoincident]
    split <;> exact ih _

theorem removeCoincident_snoc (env : Env) (a : List b3Vec3) (p : b3Vec3) :
    removeCoincident env (a ++ [p]) [] =
      if isUnique env (removeCoincident env a []) p then removeCoincident env a [] ++ [p]
      else removeCoincident env a [] := by
  rw [removeCoincident_append]
  simp only [removeCoincident]

theorem removeCoincident_take_succ (env : Env) (points : List b3Vec3) (i : Nat)
    (hi : i < points.length) :
    removeCoincident env (points.take (i + 1)) [] =
      if acceptedAt env points i then
        removeCoincident env (points.take i) [] ++ [points.getD i b3Vec3.zero]
      else removeCoincident env (points.take i) [] := by
  have h : points.take (i + 1) = points.take i ++ [points.getD i b3Vec3.zero] := by
    rw [List.take_succ, List.getD_eq_getElem?_getD, List.getElem?_eq_getElem hi]
    rfl
  rw [h, removeCoincident_snoc]
  rfl

theorem removeCoincident_take_eq (env : Env) (points : List b3Vec3) (i : Nat)
    (hi : i ≤ points.length) :
    removeCoincident env (points.take i) [] =
      ((List.range i).filter (acceptedAt env points)).map (fun j => points.getD j b3Vec3.zero) := by
  induction i with
  | zero => rfl
  | succ i ih =>
    rw [removeCoincident_take_succ env points i (by omega), ih (by omega), List.range_succ,
      List.filter_append]
    cases h : acceptedAt env points i <;> simp [h]

theorem removeCoincident_pairwise (env : Env) (input ps : List b3Vec3)
    (h : ps.Pairwise (fun a b => kTolSq env ≤ b3DistanceSquared a b)) :
    (removeCoincident env input ps).Pairwise (fun a b => kTolSq env ≤ b3DistanceSquared a b) := by
  induction input generalizing ps with
  | nil => exact h
  | cons p rest ih =>
    simp only [removeCoincident]
    split
    · rename_i hu
      apply ih
      rw [List.pairwise_append]
      refine ⟨h, List.pairwise_singleton _ _, ?_⟩
      intro a ha b hb
      rw [List.mem_singleton] at hb
      subst hb
      rw [b3DistanceSquared_comm]
      exact (isUnique_eq_true env ps b).1 hu a ha
    · exact ih ps h

theorem removeCoincident_sublist (env : Env) (input ps : List b3Vec3) :
    ∃ t, removeCoincident env input ps = ps ++ t ∧ t.Sublist input := by
  induction input generalizing ps with
  | nil => exact ⟨[], by simp [removeCoincident]⟩
  | cons p rest ih =>
    simp only [removeCoincident]
    split
    · obtain ⟨t, ht, hs⟩ := ih (ps ++ [p])
      exact ⟨p :: t, by simp [ht], hs.cons₂ p⟩
    · obtain ⟨t, ht, hs⟩ := ih ps
      exact ⟨t, ht, hs.cons p⟩

theorem removeCoincident_near (env : Env) (hpos : 0 < env.B3_LINEAR_SLOP) (input ps : List b3Vec3) :
    ∀ p, p ∈ ps ∨ p ∈ input →
      ∃ q ∈ removeCoincident env input ps, b3DistanceSquared p q < kTolSq env := by
  induction input generalizing ps with
  | nil =>
    intro p hp
    simp only [List.not_mem_nil, or_false] at hp
    exact ⟨p, hp, by rw [b3DistanceSquared_self]; exact kTolSq_pos env hpos⟩
  | cons a rest ih =>
    intro p hp
    simp only [removeCoincident]
    split
    · apply ih
      rcases hp with hp | hp
      · exact Or.inl (List.mem_append_left _ hp)
      · rcases List.mem_cons.1 hp with rfl | hp
        · exact Or.inl (by simp)
        · exact Or.inr hp
    · rename_i hu
      rcases hp with hp | hp
      · exact ih ps p (Or.inl hp)
      · rcases List.mem_cons.1 hp with rfl | hp
        · obtain ⟨q, hq, hd⟩ := (isUnique_eq_false env ps p).1 (by simpa using hu)
          obtain ⟨t, ht, -⟩ := removeCoincident_sublist env rest ps
          exact ⟨q, by rw [ht]; exact List.mem_append_left _ hq, hd⟩
        · exact ih ps p (Or.inr hp)

theorem removeCoincident_rejects (env : Env) (D ps : List b3Vec3)
    (h : ∀ d ∈ D, ∃ q ∈ ps, b3DistanceSquared d q < kTolSq env) :
    removeCoincident env D ps = ps := by
  induction D with
  | nil => rfl
  | cons d D ih =>
    simp only [removeCoincident]
    have hd : isUnique env ps d = false := (isUnique_eq_false env ps d).2 (h d (by simp))
    simp only [hd, Bool.false_eq_true, if_false]
    exact ih (fun d hd => h d (List.mem_cons_of_mem _ hd))

theorem uniquePoints_eq (env : Env) (points : List b3Vec3)
    (hmax : points.length ≤ env.B3_MAX_HULL_VERTICES) :
    uniquePoints env points = removeCoincident env points [] := by
  unfold uniquePoints
  rw [Nat.min_eq_left hmax, List.take_length]

/-! ## The coincident-point filter in exact arithmetic, and C7 -/

/-- The filter in exact arithmetic: for an input of `n` points, `4 ≤ n ≤ B3_MAX_HULL_VERTICES`,
the accepted list is a subsequence of the input (the input points of accepted index, in input
order) that starts with the first input point; its members are pairwise at squared distance at
least `kTol * kTol`; every rejected input point is at squared distance below `kTol * kTol` from
an accepted point of smaller index; and at most `n` points are accepted. -/
theorem uniquePoints_exact_postcondition (env : Env) (points : List b3Vec3)
    (h4 : 4 ≤ points.length) (hmax : points.length ≤ env.B3_MAX_HULL_VERTICES) :
    (uniquePoints env points).Sublist points ∧
    uniquePoints env points =
      ((List.range points.length).filter (acceptedAt env points)).map
        (fun i => points.getD i b3Vec3.zero) ∧
    (uniquePoints env points).head? = points.head? ∧
    (uniquePoints env points).Pairwise
      (fun a b => kTolSq env ≤ b3DistanceSquared a b ∧ kTolSq env ≤ b3DistanceSquared b a) ∧
    (∀ i, i < points.length → acceptedAt env points i = false →
      ∃ j, j < i ∧ acceptedAt env points j = true ∧
        b3DistanceSquared (points.getD i b3Vec3.zero) (points.getD j b3Vec3.zero) < kTolSq env) ∧
    (uniquePoints env points).length ≤ points.length := by
  rw [uniquePoints_eq env points hmax]
  obtain ⟨t, ht, hs⟩ := removeCoincident_sublist env points []
  have hsub : (removeCoincident env points []).Sublist points := by
    rw [ht]; simpa using hs
  refine ⟨hsub, ?_, ?_, ?_, ?_, hsub.length_le⟩
  · have := removeCoincident_take_eq env points points.length le_rfl
    rwa [List.take_length] at this
  · cases points with
    | nil => simp at h4
    | cons p rest =>
      have hu : isUnique env [] p = true := by simp [isUnique]
      obtain ⟨t, ht, -⟩ := removeCoincident_sublist env rest ([] ++ [p])
      simp only [removeCoincident, hu, if_true, ht]
      rfl
  · refine (removeCoincident_pairwise env points [] List.Pairwise.nil).imp ?_
    intro a b hab
    exact ⟨hab, by rw [b3DistanceSquared_comm]; exact hab⟩
  · intro i hi hrej
    obtain ⟨q, hq, hd⟩ := (isUnique_eq_false env _ _).1 hrej
    rw [removeCoincident_take_eq env points i hi.le] at hq
    obtain ⟨j, hj, rfl⟩ := List.mem_map.1 hq
    obtain ⟨hj1, hj2⟩ := List.mem_filter.1 hj
    exact ⟨j, List.mem_range.1 hj1, hj2, hd⟩

/-- C7: with a positive tolerance, appending to `P` (`4 ≤ |P|`) an array `D` of points that each
equal a point of `P`, with `|P| + |D| ≤ B3_MAX_HULL_VERTICES`, leaves the list of unique points
unchanged, and `Set` gives the same outcome on `P ++ D` as on `P` from any hull state. -/
theorem C7_dedup_appended_duplicates (env : Env) (P D : List b3Vec3)
    (hpos : 0 < env.B3_LINEAR_SLOP) (h4 : 4 ≤ P.length)
    (hD : ∀ d ∈ D, d ∈ P) (hmax : P.length + D.length ≤ env.B3_MAX_HULL_VERTICES) :
    uniquePoints env (P ++ D) = uniquePoints env P ∧
    ∀ (fuel : Nat) (hull : b3QHull),
      b3QHull.Set env fuel (P ++ D) hull = b3QHull.Set env fuel P hull := by
  have hps : uniquePoints env (P ++ D) = uniquePoints env P := by
    rw [uniquePoints_eq env (P ++ D) (by simpa using hmax), uniquePoints_eq env P (by omega),
      removeCoincident_append]
    apply removeCoincident_rejects
    intro d hd
    exact removeCoincident_near env hpos P [] d (Or.inr (hD d hd))
  refine ⟨hps, ?_⟩
  intro fuel hull
  have h1 : (P ++ D).length ≥ 4 ∧ (P ++ D).length ≤ env.B3_MAX_HULL_VERTICES := by
    rw [List.length_append]; omega
  have h2 : P.length ≥ 4 ∧ P.length ≤ env.B3_MAX_HULL_VERTICES := by omega
  simp only [b3QHull.Set, h1, h2, if_true, hps, and_self]

/-- C7 at the tetrahedron's corners followed by two repeated corners. -/
theorem C7_dedup_appended_duplicates_witness :
    uniquePoints tetraEnv (tetraPoints ++ [⟨0, 1, 0⟩, ⟨0, 0, 0⟩]) = uniquePoints tetraEnv tetraPoints ∧
    ∀ (fuel : Nat) (hull : b3QHull),
      b3QHull.Set tetraEnv fuel (tetraPoints ++ [⟨0, 1, 0⟩, ⟨0, 0, 0⟩]) hull =
        b3QHull.Set tetraEnv fuel tetraPoints hull :=
  C7_dedup_appended_duplicates tetraEnv tetraPoints [⟨0, 1, 0⟩, ⟨0, 0, 0⟩]
    (by norm_num [tetraEnv]) (by decide) (by decide) (by decide)

/-! ## The shape of one step of the flattening pass -/

theorem upd_same {α : Type} (a : Nat → α) (i : Nat) (v : α) : upd a i v i = v := by
  simp [upd]

theorem upd_other {α : Type} (a : Nat → α) (i j : Nat) (v : α) (h : j ≠ i) :
    upd a i v j = a j := by
  simp [upd, h]



theorem resolveVertex_done {env : Env} {m : qhHull} {s s1 : FlatState} {v iv : Nat}
    (h : resolveVertex env m s v = Exit.done (s1, iv)) :
    (∃ mv, s.vs.Find v = some mv ∧ s1 = s ∧ iv = mv.index) ∨
    (s.vs.Find v = none ∧ s.hull.vertexCount ≠ env.B3_MAX_HULL_VERTICES ∧
      s.vs.count < env.B3_MAX_HULL_VERTICES ∧ iv = s.hull.vertexCount % 256 ∧
      s1 = addVertex m s v) := by
  unfold resolveVertex at h
  cases hf : s.vs.Find v with
  | some mv =>
    simp only [hf] at h
    injection h with h
    injection h with h1 h2
    exact Or.inl ⟨mv, rfl, h1.symm, h2.symm⟩
  | none =>
    simp only [hf] at h
    by_cases hne : s.hull.vertexCount = env.B3_MAX_HULL_VERTICES
    · simp [hne] at h
    · by_cases hc : s.vs.count < env.B3_MAX_HULL_VERTICES
      · simp only [hne, if_false, b3PIMap.Add, hc, if_true] at h
        injection h with h
        injection h with h1 h2
        exact Or.inr ⟨rfl, hne, hc, h2.symm, h1.symm⟩
      · simp [hne, b3PIMap.Add, hc] at h

theorem resolveEdge_done {env : Env} {m : qhHull} {s s1 : FlatState} {edge iv1 iv2 : Nat}
    (h : resolveEdge env m s edge iv1 iv2 = Exit.done s1) :
    (∃ mte, s.es.Find edge = some mte ∧
      (s.hull.edges mte.index).face = B3_NULL_HULL_FEATURE ∧
      s.nfh < env.B3_MAX_HULL_EDGES ∧ s1 = markEdge s mte.index) ∨
    (s.es.Find edge = none ∧ s.hull.edgeCount + 2 < env.B3_MAX_HULL_EDGES ∧
      s.es.count + 1 < env.B3_MAX_HULL_EDGES ∧ s.nfh < env.B3_MAX_HULL_EDGES ∧
      s1 = addEdgePair m s edge iv1 iv2) := by
  unfold resolveEdge at h
  cases hf : s.es.Find edge with
  | some mte =>
    simp only [hf] at h
    by_cases hn : (s.hull.edges mte.index).face = B3_NULL_HULL_FEATURE
    · by_cases hc : s.nfh < env.B3_MAX_HULL_EDGES
      · simp only [hn, hc, if_true] at h
        injection h with h
        exact Or.inl ⟨mte, rfl, hn, hc, by rw [← h]; simp [markEdge, hn]⟩
      · simp [hn, hc] at h
    · simp [hn] at h
  | none =>
    simp only [hf] at h
    by_cases hx : s.hull.edgeCount + 2 ≥ env.B3_MAX_HULL_EDGES
    · simp [hx] at h
    · simp only [hx, if_false, b3PIMap.Add, b3PIMap.count] at h
      by_cases hc1 : s.es.pis.length < env.B3_MAX_HULL_EDGES
      · simp only [hc1, if_true, List.length_append, List.length_singleton] at h
        by_cases hc2 : s.es.pis.length + 1 < env.B3_MAX_HULL_EDGES
        · simp only [hc2, if_true] at h
          by_cases hc : s.nfh < env.B3_MAX_HULL_EDGES
          · simp only [hc, if_true] at h
            injection h with h
            exact Or.inr ⟨rfl, by omega, hc2, hc, by rw [← h]; rfl⟩
          · simp [hc] at h
        · simp [hc2] at h
      · simp [hc1] at h

theorem edgeStep_done {env : Env} {m : qhHull} {s s3 : FlatState} {edge : Nat}
    (h : edgeStep env m s edge = Exit.done s3) :
    ∃ s1 iv1 s2 iv2,
      resolveVertex env m s (m.halfEdge edge).tail = Exit.done (s1, iv1) ∧
      resolveVertex env m s1 (m.halfEdge (m.halfEdge edge).twin).tail = Exit.done (s2, iv2) ∧
      resolveEdge env m s2 edge iv1 iv2 = Exit.done s3 := by
  unfold edgeStep at h
  cases h1 : resolveVertex env m s (m.halfEdge edge).tail with
  | done r1 =>
    obtain ⟨s1, iv1⟩ := r1
    simp only [h1] at h
    cases h2 : resolveVertex env m s1 (m.halfEdge (m.halfEdge edge).twin).tail with
    | done r2 =>
      obtain ⟨s2, iv2⟩ := r2
      simp only [h2] at h
      exact ⟨s1, iv1, s2, iv2, rfl, h2, h⟩
    | returned r2 => simp [h2] at h
    | assertion => simp [h2] at h
    | fuel => simp [h2] at h
  | returned r1 => simp [h1] at h
  | assertion => simp [h1] at h
  | fuel => simp [h1] at h

theorem emitFace_done {env : Env} {face : qhFace} {s s1 : FlatState}
    (h : emitFace env face s = Exit.done s1) :
    s.hull.faceCount < env.B3_MAX_HULL_FACES ∧ 0 < s.nfh ∧ s1 = emitted face s := by
  unfold emitFace at h
  by_cases h1 : s.hull.faceCount < env.B3_MAX_HULL_FACES
  · by_cases h2 : 0 < s.nfh
    · simp only [h1, h2, if_true] at h
      injection h with h
      exact ⟨h1, h2, h.symm⟩
    · simp [h1, h2] at h
  · simp [h1] at h

/-! ## Early returns inside the flattening pass -/

theorem resolveVertex_returned {env : Env} {m : qhHull} {s s1 : FlatState} {v iv : Nat}
    (h : resolveVertex env m s v = Exit.returned (s1, iv)) :
    s.vs.Find v = none ∧ s.hull.vertexCount = env.B3_MAX_HULL_VERTICES ∧
      s1 = { s with hull := s.hull.resetCounts } := by
  unfold resolveVertex at h
  cases hf : s.vs.Find v with
  | some mv => simp [hf] at h
  | none =>
    simp only [hf] at h
    by_cases hne : s.hull.vertexCount = env.B3_MAX_HULL_VERTICES
    · simp only [hne, if_true] at h
      injection h with h
      injection h with h1 h2
      exact ⟨rfl, hne, h1.symm⟩
    · by_cases hc : s.vs.count < env.B3_MAX_HULL_VERTICES
      · simp [hne, b3PIMap.Add, hc] at h
      · simp [hne, b3PIMap.Add, hc] at h

theorem resolveEdge_returned {env : Env} {m : qhHull} {s s1 : FlatState} {edge iv1 iv2 : Nat}
    (h : resolveEdge env m s edge iv1 iv2 = Exit.returned s1) :
    s.es.Find edge = none ∧ s.hull.edgeCount + 2 ≥ env.B3_MAX_HULL_EDGES ∧
      s1 = { s with hull := s.hull.resetCounts } := by
  unfold resolveEdge at h
  cases hf : s.es.Find edge with
  | some mte =>
    simp only [hf] at h
    by_cases hn : (s.hull.edges mte.index).face = B3_NULL_HULL_FEATURE
    · by_cases hc : s.nfh < env.B3_MAX_HULL_EDGES
      · simp [hn, hc] at h
      · simp [hn, hc] at h
    · simp [hn] at h
  | none =>
    simp only [hf] at h
    by_cases hx : s.hull.edgeCount + 2 ≥ env.B3_MAX_HULL_EDGES
    · simp only [hx, if_true] at h
      injection h with h
      exact ⟨rfl, hx, h.symm⟩
    · simp only [hx, if_false, b3PIMap.Add, b3PIMap.count] at h
      by_cases hc1 : s.es.pis.length < env.B3_MAX_HULL_EDGES
      · simp only [hc1, if_true, List.length_append, List.length_singleton] at h
        by_cases hc2 : s.es.pis.length + 1 < env.B3_MAX_HULL_EDGES
        · simp only [hc2, if_true] at h
          by_cases hc : s.nfh < env.B3_MAX_HULL_EDGES
          · simp [hc] at h
          · simp [hc] at h
        · simp [hc2] at h
      · simp [hc1] at h

theorem Exit.eq_done_of_isDone {σ : Type} {e : Exit σ} (d : σ) (h : e.isDone = true) :
    e = Exit.done (getDone e d) := by
  cases e <;> simp_all [Exit.isDone, getDone]

theorem Exit.eq_returned_of_isReturned {σ : Type} {e : Exit σ} (d : σ)
    (h : e.isReturned = true) : e = Exit.returned (getReturned e d) := by
  cases e <;> simp_all [Exit.isReturned, getReturned]

theorem edgeStep_returned {env : Env} {m : qhHull} {s s1 : FlatState} {edge : Nat}
    (h : edgeStep env m s edge = Exit.returned s1) : s1.hull.countsZero := by
  unfold edgeStep at h
  cases h1 : resolveVertex env m s (m.halfEdge edge).tail with
  | done r1 =>
    obtain ⟨t1, iv1⟩ := r1
    simp only [h1] at h
    cases h2 : resolveVertex env m t1 (m.halfEdge (m.halfEdge edge).twin).tail with
    | done r2 =>
      obtain ⟨t2, iv2⟩ := r2
      simp only [h2] at h
      obtain ⟨-, -, rfl⟩ := resolveEdge_returned h
      exact ⟨rfl, rfl, rfl⟩
    | returned r2 =>
      obtain ⟨t2, iv2⟩ := r2
      simp only [h2] at h
      injection h with h
      obtain ⟨-, -, rfl⟩ := resolveVertex_returned h2
      rw [← h]
      exact ⟨rfl, rfl, rfl⟩
    | assertion => simp [h2] at h
    | fuel => simp [h2] at h
  | returned r1 =>
    obtain ⟨t1, iv1⟩ := r1
    simp only [h1] at h
    injection h with h
    obtain ⟨-, -, rfl⟩ := resolveVertex_returned h1
    rw [← h]
    exact ⟨rfl, rfl, rfl⟩
  | assertion => simp [h1] at h
  | fuel => simp [h1] at h

theorem faceLoop_cases {env : Env} {m : qhHull} {first fuel edge : Nat} {s : FlatState}
    {r : Exit FlatState} (h : faceLoop env m first (fuel + 1) edge s = r) :
    (∃ s1, edgeStep env m s edge = Exit.done s1 ∧ (m.halfEdge edge).next = first ∧
      r = Exit.done s1) ∨
    (∃ s1, edgeStep env m s edge = Exit.done s1 ∧ (m.halfEdge edge).next ≠ first ∧
      r = faceLoop env m first fuel (m.halfEdge edge).next s1) ∨
    (∃ s1, edgeStep env m s edge = Exit.returned s1 ∧ r = Exit.returned s1) ∨
    (edgeStep env m s edge = Exit.assertion ∧ r = Exit.assertion) ∨
    (edgeStep env m s edge = Exit.fuel ∧ r = Exit.fuel) := by
  rw [faceLoop] at h
  cases h1 : edgeStep env m s edge with
  | done s1 =>
    simp only [h1] at h
    by_cases hn : (m.halfEdge edge).next = first
    · simp only [hn, if_true] at h
      exact Or.inl ⟨s1, rfl, hn, h.symm⟩
    · simp only [hn, if_false] at h
      exact Or.inr (Or.inl ⟨s1, rfl, hn, h.symm⟩)
  | returned s1 =>
    simp only [h1] at h
    exact Or.inr (Or.inr (Or.inl ⟨s1, rfl, h.symm⟩))
  | assertion =>
    simp only [h1] at h
    exact Or.inr (Or.inr (Or.inr (Or.inl ⟨rfl, h.symm⟩)))
  | fuel =>
    simp only [h1] at h
    exact Or.inr (Or.inr (Or.inr (Or.inr ⟨rfl, h.symm⟩)))

theorem faceLoop_returned {env : Env} {m : qhHull} {first : Nat} :
    ∀ (fuel edge : Nat) (s s1 : FlatState),
      faceLoop env m first fuel edge s = Exit.returned s1 → s1.hull.countsZero := by
  intro fuel
  induction fuel with
  | zero => intro edge s s1 h; simp [faceLoop] at h
  | succ fuel ih =>
    intro edge s s1 h
    rcases faceLoop_cases h with ⟨t, _, _, ht⟩ | ⟨t, _, _, ht⟩ | ⟨t, h1, ht⟩ | ⟨_, ht⟩ | ⟨_, ht⟩
    · simp at ht
    · exact ih _ _ _ ht.symm
    · injection ht with ht
      rw [ht]
      exact edgeStep_returned h1
    · simp at ht
    · simp at ht

/-- A property kept by every step of a face walk holds when the walk ends. -/
theorem faceLoop_induct {env : Env} {m : qhHull} {first : Nat} (P : FlatState → Prop)
    (hstep : ∀ s edge s1, P s → edgeStep env m s edge = Exit.done s1 → P s1) :
    ∀ (fuel edge : Nat) (s s1 : FlatState),
      P s → faceLoop env m first fuel edge s = Exit.done s1 → P s1 := by
  intro fuel
  induction fuel with
  | zero => intro edge s s1 _ h; simp [faceLoop] at h
  | succ fuel ih =>
    intro edge s s1 hP h
    rcases faceLoop_cases h with ⟨t, h1, _, ht⟩ | ⟨t, h1, _, ht⟩ | ⟨t, _, ht⟩ | ⟨_, ht⟩ | ⟨_, ht⟩
    · injection ht with ht
      rw [ht]
      exact hstep _ _ _ hP h1
    · exact ih _ _ _ (hstep _ _ _ hP h1) ht.symm
    · simp at ht
    · simp at ht
    · simp at ht

theorem flattenFaces_cons_done {env : Env} {m : qhHull} {fuel : Nat} {face : qhFace}
    {rest : List qhFace} {s s3 : FlatState}
    (h : flattenFaces env m fuel (face :: rest) s = Exit.done s3) :
    ∃ s1, faceLoop env m face.edge fuel face.edge s = Exit.done s1 ∧
      emitFace env face s1 = Exit.done (emitted face s1) ∧
      flattenFaces env m fuel rest (emitted face s1) = Exit.done s3 := by
  rw [flattenFaces] at h
  cases h1 : faceLoop env m face.edge fuel face.edge s with
  | done s1 =>
    simp only [h1] at h
    cases h2 : emitFace env face s1 with
    | done s2 =>
      simp only [h2] at h
      obtain ⟨-, -, rfl⟩ := emitFace_done h2
      exact ⟨s1, rfl, h2, h⟩
    | returned s2 => simp [h2] at h
    | assertion => simp [h2] at h
    | fuel => simp [h2] at h
  | returned s1 => simp [h1] at h
  | assertion => simp [h1] at h
  | fuel => simp [h1] at h

theorem emitFace_not_returned {env : Env} {face : qhFace} {s s1 : FlatState} :
    emitFace env face s ≠ Exit.returned s1 := by
  unfold emitFace
  split
  · split <;> simp
  · simp

theorem flattenFaces_returned {env : Env} {m : qhHull} {fuel : Nat} :
    ∀ (faces : List qhFace) (s s1 : FlatState),
      flattenFaces env m fuel faces s = Exit.returned s1 → s1.hull.countsZero := by
  intro faces
  induction faces with
  | nil => intro s s1 h; simp [flattenFaces] at h
  | cons face rest ih =>
    intro s s1 h
    rw [flattenFaces] at h
    cases h1 : faceLoop env m face.edge fuel face.edge s with
    | done t1 =>
      simp only [h1] at h
      cases h2 : emitFace env face t1 with
      | done t2 =>
        simp only [h2] at h
        exact ih _ _ h
      | returned t2 => exact absurd h2 emitFace_not_returned
      | assertion => simp [h2] at h
      | fuel => simp [h2] at h
    | returned t1 =>
      simp only [h1] at h
      injection h with h
      rw [← h]
      exact faceLoop_returned _ _ _ _ h1
    | assertion => simp [h1] at h
    | fuel => simp [h1] at h

/-- A property kept by every step and by every face emission holds when the pass ends. -/
theorem flattenFaces_induct {env : Env} {m : qhHull} {fuel : Nat} (P : FlatState → Prop)
    (hstep : ∀ s edge s1, P s → edgeStep env m s edge = Exit.done s1 → P s1)
    (hemit : ∀ face s, P s → emitFace env face s = Exit.done (emitted face s) →
      P (emitted face s)) :
    ∀ (faces : List qhFace) (s s1 : FlatState),
      P s → flattenFaces env m fuel faces s = Exit.done s1 → P s1 := by
  intro faces
  induction faces with
  | nil =>
    intro s s1 hP h
    simp only [flattenFaces] at h
    injection h with h
    rw [← h]
    exact hP
  | cons face rest ih =>
    intro s s1 hP h
    obtain ⟨t1, h1, h2, h3⟩ := flattenFaces_cons_done h
    exact ih _ _ (hemit _ _ (faceLoop_induct P hstep _ _ _ _ hP h1) h2) h3

theorem Set_done {env : Env} {fuel : Nat} {points : List b3Vec3} {hull h : b3QHull}
    (hs : b3QHull.Set env fuel points hull = Exit.done h) :
    ∃ s c, flatten env (env.Construct (uniquePoints env points)) fuel hull = Exit.done s ∧
      b3ComputeCentroid env fuel s.hull = Exit.done c ∧
      4 ≤ (uniquePoints env points).length ∧
      h = { s.hull with centroid := c } := by
  unfold b3QHull.Set at hs
  split at hs
  · simp only at hs
    split at hs
    · simp at hs
    · rename_i h4
      split at hs
      · simp at hs
      · split at hs
        · rename_i s hfl
          split at hs
          · split at hs
            · rename_i c hc
              injection hs with hs
              exact ⟨s, c, hfl, hc, by omega, hs.symm⟩
            · simp at hs
            · simp at hs
            · simp at hs
          · simp at hs
        · simp at hs
        · simp at hs
        · simp at hs
  · simp at hs

/-! ## C2 and C3: the exits of `Set` through `return` -/

theorem Set_returned_of_flatten {env : Env} {fuel : Nat} {points : List b3Vec3}
    {hull : b3QHull} {s : FlatState}
    (hn : 4 ≤ points.length ∧ points.length ≤ env.B3_MAX_HULL_VERTICES)
    (h4 : 4 ≤ (uniquePoints env points).length)
    (hf : (env.Construct (uniquePoints env points)).GetFaceList.count ≤ env.B3_MAX_HULL_FACES)
    (h : flatten env (env.Construct (uniquePoints env points)) fuel hull = Exit.returned s) :
    b3QHull.Set env fuel points hull = Exit.returned s.hull := by
  unfold b3QHull.Set
  have h1 : points.length ≥ 4 ∧ points.length ≤ env.B3_MAX_HULL_VERTICES := hn
  have h2 : ¬ (uniquePoints env points).length < 4 := by omega
  have h3 : ¬ (env.Construct (uniquePoints env points)).GetFaceList.count >
      env.B3_MAX_HULL_FACES := by omega
  simp only [h1, and_self, if_true, h2, if_false, h3, h]

theorem Set_returned_past_guards {env : Env} {fuel : Nat} {points : List b3Vec3}
    {hull h : b3QHull}
    (h4 : 4 ≤ (uniquePoints env points).length)
    (hf : (env.Construct (uniquePoints env points)).GetFaceList.count ≤ env.B3_MAX_HULL_FACES)
    (hs : b3QHull.Set env fuel points hull = Exit.returned h) :
    ∃ s, flatten env (env.Construct (uniquePoints env points)) fuel hull = Exit.returned s ∧
      h = s.hull := by
  unfold b3QHull.Set at hs
  have h2 : ¬ (uniquePoints env points).length < 4 := by omega
  have h3 : ¬ (env.Construct (uniquePoints env points)).GetFaceList.count >
      env.B3_MAX_HULL_FACES := by omega
  split at hs
  · simp only [h2, if_false, h3] at hs
    split at hs
    · split at hs
      · split at hs <;> simp at hs
      · simp at hs
    · rename_i s hfl
      injection hs with hs
      exact ⟨s, hfl, hs.symm⟩
    · simp at hs
    · simp at hs
  · simp at hs

theorem Set_early_exit {env : Env} {fuel : Nat} {points : List b3Vec3} {hull : b3QHull}
    (hn : 4 ≤ points.length ∧ points.length ≤ env.B3_MAX_HULL_VERTICES)
    (h : (uniquePoints env points).length < 4 ∨
      (env.Construct (uniquePoints env points)).GetFaceList.count > env.B3_MAX_HULL_FACES) :
    b3QHull.Set env fuel points hull = Exit.returned hull := by
  unfold b3QHull.Set
  have h1 : points.length ≥ 4 ∧ points.length ≤ env.B3_MAX_HULL_VERTICES := hn
  simp only [h1, and_self, if_true]
  by_cases h4 : (uniquePoints env points).length < 4
  · simp only [h4, if_true]
  · simp only [h4, if_false]
    rcases h with h | h
    · exact absurd h h4
    · simp only [h, if_true]

/-- C2: a capacity excess met during the flattening pass makes `Set` return with all three
counts zero. In one step of the pass for the half-edge `edge`: if the tail vertex is new while
`vertexCount == B3_MAX_HULL_VERTICES`, or the head vertex is new then, or the half-edge is new
while `edgeCount + 2 >= B3_MAX_HULL_EDGES`, the step returns with the counts zero. A return of a
step is the outcome of the face walk, of the pass and of `Set`, whatever the hull held before;
and every return of the pass leaves the counts zero. -/
theorem C2_all_or_nothing (env : Env) (m : qhHull) :
    (∀ (s : FlatState) (edge : Nat),
      s.vs.Find (m.halfEdge edge).tail = none →
      s.hull.vertexCount = env.B3_MAX_HULL_VERTICES →
      ∃ s1, edgeStep env m s edge = Exit.returned s1 ∧ s1.hull.countsZero) ∧
    (∀ (s s1 : FlatState) (edge iv1 : Nat),
      resolveVertex env m s (m.halfEdge edge).tail = Exit.done (s1, iv1) →
      s1.vs.Find (m.halfEdge (m.halfEdge edge).twin).tail = none →
      s1.hull.vertexCount = env.B3_MAX_HULL_VERTICES →
      ∃ s2, edgeStep env m s edge = Exit.returned s2 ∧ s2.hull.countsZero) ∧
    (∀ (s s1 s2 : FlatState) (edge iv1 iv2 : Nat),
      resolveVertex env m s (m.halfEdge edge).tail = Exit.done (s1, iv1) →
      resolveVertex env m s1 (m.halfEdge (m.halfEdge edge).twin).tail = Exit.done (s2, iv2) →
      s2.es.Find edge = none →
      s2.hull.edgeCount + 2 ≥ env.B3_MAX_HULL_EDGES →
      ∃ s3, edgeStep env m s edge = Exit.returned s3 ∧ s3.hull.countsZero) ∧
    (∀ (first fuel edge : Nat) (s s1 : FlatState),
      edgeStep env m s edge = Exit.returned s1 →
      faceLoop env m first (fuel + 1) edge s = Exit.returned s1) ∧
    (∀ (fuel : Nat) (face : qhFace) (rest : List qhFace) (s s1 : FlatState),
      faceLoop env m face.edge fuel face.edge s = Exit.returned s1 →
      flattenFaces env m fuel (face :: rest) s = Exit.returned s1) ∧
    (∀ (fuel : Nat) (hull : b3QHull) (s : FlatState),
      flatten env m fuel hull = Exit.returned s → s.hull.countsZero) ∧
    (∀ (fuel : Nat) (points : List b3Vec3) (hull : b3QHull) (s : FlatState),
      (4 ≤ points.length ∧ points.length ≤ env.B3_MAX_HULL_VERTICES) →
      4 ≤ (uniquePoints env points).length →
      (env.Construct (uniquePoints env points)).GetFaceList.count ≤ env.B3_MAX_HULL_FACES →
      flatten env (env.Construct (uniquePoints env points)) fuel hull = Exit.returned s →
      b3QHull.Set env fuel points hull = Exit.returned s.hull ∧ s.hull.countsZero) ∧
    (∀ (fuel : Nat) (points : List b3Vec3) (hull h : b3QHull),
      4 ≤ (uniquePoints env points).length →
      (env.Construct (uniquePoints env points)).GetFaceList.count ≤ env.B3_MAX_HULL_FACES →
      b3QHull.Set env fuel points hull = Exit.returned h → h.countsZero) := by
  refine ⟨?_, ?_, ?_, ?_, ?_, ?_, ?_, ?_⟩
  · intro s edge hf hv
    refine ⟨{ s with hull := s.hull.resetCounts }, ?_, rfl, rfl, rfl⟩
    simp only [edgeStep, resolveVertex, hf, hv, if_true]
  · intro s s1 edge iv1 h1 hf hv
    refine ⟨{ s1 with hull := s1.hull.resetCounts }, ?_, rfl, rfl, rfl⟩
    simp only [edgeStep, h1]
    simp only [resolveVertex, hf, hv, if_true]
  · intro s s1 s2 edge iv1 iv2 h1 h2 hf hx
    refine ⟨{ s2 with hull := s2.hull.resetCounts }, ?_, rfl, rfl, rfl⟩
    simp only [edgeStep, h1, h2]
    simp only [resolveEdge, hf, hx, if_true]
  · intro first fuel edge s s1 h
    simp only [faceLoop, h]
  · intro fuel face rest s s1 h
    simp only [flattenFaces, h]
  · intro fuel hull s h
    exact flattenFaces_returned _ _ _ h
  · intro fuel points hull s hn h4 hf h
    exact ⟨Set_returned_of_flatten hn h4 hf h, flattenFaces_returned _ _ _ h⟩
  · intro fuel points hull h h4 hf hs
    obtain ⟨s, hfl, rfl⟩ := Set_returned_past_guards h4 hf hs
    exact flattenFaces_returned _ _ _ hfl

/-- C2 on the tetrahedron with room for twelve half-edges, into a hull that held a shape:
`Set` returns, with all counts zero. -/
theorem C2_all_or_nothing_witness :
    (b3QHull.Set tightEnv 10 tetraPoints usedHull).isReturned = true ∧
    (getReturned (b3QHull.Set tightEnv 10 tetraPoints usedHull) usedHull).countsZero :=
  ⟨by decide!,
   (C2_all_or_nothing tightEnv tetra).2.2.2.2.2.2.2 10 tetraPoints usedHull _
     (by decide!) (by decide!) (Exit.eq_returned_of_isReturned usedHull (by decide!))⟩

/-- C3 as stated fails: `Set` on four coincident points into a hull holding a shape returns
at the degeneracy test with that hull's counts, which are not zero. -/
theorem C3_early_exit_counterexample :
    ¬ (∀ (env : Env) (fuel : Nat) (points : List b3Vec3) (hull h : b3QHull),
      (4 ≤ points.length ∧ points.length ≤ env.B3_MAX_HULL_VERTICES) →
      ((uniquePoints env points).length < 4 ∨
        (env.Construct (uniquePoints env points)).GetFaceList.count >
          env.B3_MAX_HULL_FACES) →
      b3QHull.Set env fuel points hull = Exit.returned h → h.countsZero) := by
  intro H
  have h := H tetraEnv 0 coincidentPoints usedHull usedHull (by decide) (Or.inl (by decide!))
    (Set_early_exit (by decide) (Or.inl (by decide!)))
  exact absurd h.1 (by decide)

/-- C3, amended: when `Set` returns because fewer than four unique points remain, or because the
face list holds more than `B3_MAX_HULL_FACES` faces, it returns the hull untouched: the three
counts are what they were before the call (zero when the hull was empty before). -/
theorem C3_early_exit_unchanged (env : Env) (fuel : Nat) (points : List b3Vec3) (hull : b3QHull)
    (hn : 4 ≤ points.length ∧ points.length ≤ env.B3_MAX_HULL_VERTICES)
    (h : (uniquePoints env points).length < 4 ∨
      (env.Construct (uniquePoints env points)).GetFaceList.count > env.B3_MAX_HULL_FACES) :
    b3QHull.Set env fuel points hull = Exit.returned hull ∧
    (hull.countsZero →
      (getReturned (b3QHull.Set env fuel points hull) hull).countsZero) ∧
    (getReturned (b3QHull.Set env fuel points hull) hull).vertexCount = hull.vertexCount ∧
    (getReturned (b3QHull.Set env fuel points hull) hull).edgeCount = hull.edgeCount ∧
    (getReturned (b3QHull.Set env fuel points hull) hull).faceCount = hull.faceCount := by
  have hs := @Set_early_exit env fuel points hull hn h
  rw [hs]
  exact ⟨rfl, fun hz => hz, rfl, rfl, rfl⟩

/-- C3, amended, on both early exits: coincident points, and a face list above capacity. -/
theorem C3_early_exit_unchanged_witness :
    b3QHull.Set tetraEnv 10 coincidentPoints usedHull = Exit.returned usedHull ∧
    b3QHull.Set threeFaceEnv 10 tetraPoints usedHull = Exit.returned usedHull :=
  ⟨(C3_early_exit_unchanged tetraEnv 10 coincidentPoints usedHull (by decide)
      (Or.inl (by decide!))).1,
   (C3_early_exit_unchanged threeFaceEnv 10 tetraPoints usedHull (by decide)
      (Or.inr (by decide!))).1⟩

/-! ## What the steps leave alone -/

theorem linkFace_fold_fields (fhs : List Nat) (n : Nat) (l : List Nat) (edges : Nat → b3HalfEdge)
    (i : Nat) :
    ((l.foldl
      (fun es i =>
        upd es (fhs.getD i 0)
          { es (fhs.getD i 0) with next := fhs.getD (if i < n then i + 1 else 0) 0 })
      edges) i).twin = (edges i).twin ∧
    ((l.foldl
      (fun es i =>
        upd es (fhs.getD i 0)
          { es (fhs.getD i 0) with next := fhs.getD (if i < n then i + 1 else 0) 0 })
      edges) i).origin = (edges i).origin ∧
    ((l.foldl
      (fun es i =>
        upd es (fhs.getD i 0)
          { es (fhs.getD i 0) with next := fhs.getD (if i < n then i + 1 else 0) 0 })
      edges) i).face = (edges i).face := by
  induction l generalizing edges with
  | nil => exact ⟨rfl, rfl, rfl⟩
  | cons a l ih =>
    simp only [List.foldl_cons]
    obtain ⟨h1, h2, h3⟩ := ih (upd edges (fhs.getD a 0)
      { edges (fhs.getD a 0) with next := fhs.getD (if a < n then a + 1 else 0) 0 })
    rw [h1, h2, h3]
    by_cases hi : i = fhs.getD a 0
    · subst hi
      simp only [upd_same, and_self]
    · simp only [upd_other _ _ _ _ hi, and_self]

theorem linkFace_fields (fhs : List Nat) (edges : Nat → b3HalfEdge) (i : Nat) :
    (linkFace fhs edges i).twin = (edges i).twin ∧
    (linkFace fhs edges i).origin = (edges i).origin ∧
    (linkFace fhs edges i).face = (edges i).face :=
  linkFace_fold_fields fhs (fhs.length - 1) (List.range fhs.length) edges i

theorem edgeStep_frame {env : Env} {m : qhHull} {s s1 : FlatState} {edge : Nat}
    (h : edgeStep env m s edge = Exit.done s1) :
    s1.hull.faceCount = s.hull.faceCount ∧ s1.hull.planes = s.hull.planes ∧
      s1.hull.faces = s.hull.faces := by
  obtain ⟨t1, iv1, t2, iv2, h1, h2, h3⟩ := edgeStep_done h
  have a1 : t1.hull.faceCount = s.hull.faceCount ∧ t1.hull.planes = s.hull.planes ∧
      t1.hull.faces = s.hull.faces := by
    rcases resolveVertex_done h1 with ⟨_, _, rfl, _⟩ | ⟨_, _, _, _, rfl⟩
    · exact ⟨rfl, rfl, rfl⟩
    · exact ⟨rfl, rfl, rfl⟩
  have a2 : t2.hull.faceCount = t1.hull.faceCount ∧ t2.hull.planes = t1.hull.planes ∧
      t2.hull.faces = t1.hull.faces := by
    rcases resolveVertex_done h2 with ⟨_, _, rfl, _⟩ | ⟨_, _, _, _, rfl⟩
    · exact ⟨rfl, rfl, rfl⟩
    · exact ⟨rfl, rfl, rfl⟩
  have a3 : s1.hull.faceCount = t2.hull.faceCount ∧ s1.hull.planes = t2.hull.planes ∧
      s1.hull.faces = t2.hull.faces := by
    rcases resolveEdge_done h3 with ⟨_, _, _, _, rfl⟩ | ⟨_, _, _, _, rfl⟩
    · exact ⟨rfl, rfl, rfl⟩
    · exact ⟨rfl, rfl, rfl⟩
  exact ⟨by rw [a3.1, a2.1, a1.1], by rw [a3.2.1, a2.2.1, a1.2.1], by rw [a3.2.2, a2.2.2, a1.2.2]⟩

theorem faceLoop_frame {env : Env} {m : qhHull} {first fuel edge : Nat} {s s1 : FlatState}
    (h : faceLoop env m first fuel edge s = Exit.done s1) :
    s1.hull.faceCount = s.hull.faceCount ∧ s1.hull.planes = s.hull.planes ∧
      s1.hull.faces = s.hull.faces := by
  refine faceLoop_induct
    (fun t => t.hull.faceCount = s.hull.faceCount ∧ t.hull.planes = s.hull.planes ∧
      t.hull.faces = s.hull.faces) ?_ fuel edge s s1 ⟨rfl, rfl, rfl⟩ h
  intro t e t1 ht hstep
  obtain ⟨a, b, c⟩ := edgeStep_frame hstep
  exact ⟨a.trans ht.1, b.trans ht.2.1, c.trans ht.2.2⟩

/-! ## C10: planes and face order -/

theorem flattenFaces_planes {env : Env} {m : qhHull} {fuel : Nat} :
    ∀ (faces : List qhFace) (s s1 : FlatState),
      flattenFaces env m fuel faces s = Exit.done s1 →
      s1.hull.faceCount = s.hull.faceCount + faces.length ∧
      (∀ i, i < s.hull.faceCount → s1.hull.planes i = s.hull.planes i) ∧
      (∀ i f, faces[i]? = some f → s1.hull.planes (s.hull.faceCount + i) = f.plane) := by
  intro faces
  induction faces with
  | nil =>
    intro s s1 h
    simp only [flattenFaces] at h
    injection h with h
    subst h
    exact ⟨rfl, fun _ _ => rfl, fun i f hf => by simp at hf⟩
  | cons face rest ih =>
    intro s s1 h
    obtain ⟨t1, h1, -, h3⟩ := flattenFaces_cons_done h
    obtain ⟨a, b, -⟩ := faceLoop_frame h1
    obtain ⟨c1, c2, c3⟩ := ih _ _ h3
    have e1 : (emitted face t1).hull.faceCount = s.hull.faceCount + 1 := by
      simp only [emitted, a]
    have e2 : ∀ i, (emitted face t1).hull.planes i =
        if i = s.hull.faceCount then face.plane else s.hull.planes i := by
      intro i
      simp only [emitted, a, b, upd]
    refine ⟨?_, ?_, ?_⟩
    · rw [c1, e1, List.length_cons]; omega
    · intro i hi
      rw [c2 i (by omega), e2, if_neg (by omega)]
    · intro i f hf
      cases i with
      | zero =>
        simp only [List.getElem?_cons_zero, Option.some.injEq] at hf
        subst hf
        rw [Nat.add_zero, c2 _ (by omega), e2, if_pos rfl]
      | succ i =>
        simp only [List.getElem?_cons_succ] at hf
        have := c3 i f hf
        rw [e1] at this
        rw [← this]
        congr 1
        omega

/-- C10: when the flattening pass completes, `faceCount` is the number of faces of the
construction hull's face list and `planes[i]` is the plane stored in the `i`-th face of that
list, from the head; the hull that `Set` then publishes has the same planes. -/
theorem C10_plane_copy (env : Env) (m : qhHull) (fuel : Nat) (hull : b3QHull) (s : FlatState)
    (h : flatten env m fuel hull = Exit.done s) :
    s.hull.faceCount = m.GetFaceList.faces.length ∧
    (∀ i f, m.GetFaceList.faces[i]? = some f → s.hull.planes i = f.plane) ∧
    (∀ c : b3Vec3, ({ s.hull with centroid := c } : b3QHull).planes = s.hull.planes ∧
      ({ s.hull with centroid := c } : b3QHull).faceCount = s.hull.faceCount) := by
  obtain ⟨a, -, c⟩ := flattenFaces_planes _ _ _ h
  refine ⟨?_, ?_, fun _ => ⟨rfl, rfl⟩⟩
  · rw [a]
    simp [flattenInit, b3QHull.resetCounts]
  · intro i f hf
    have := c i f hf
    simpa [flattenInit, b3QHull.resetCounts] using this

/-- C10 on the tetrahedron, into a hull that held six faces: four faces, and the fourth plane is
the plane of the fourth face. -/
theorem C10_plane_copy_witness :
    (flatten tetraEnv tetra 10 usedHull).isDone = true ∧
    (getDone (flatten tetraEnv tetra 10 usedHull) (flattenInit usedHull)).hull.faceCount = 4 ∧
    (getDone (flatten tetraEnv tetra 10 usedHull) (flattenInit usedHull)).hull.planes 3 =
      ⟨⟨1 / 3, 2 / 3, 2 / 3⟩, 2 / 3⟩ :=
  ⟨by decide!,
   (C10_plane_copy tetraEnv tetra 10 usedHull _
      (Exit.eq_done_of_isDone (flattenInit usedHull) (by decide!))).1,
   (C10_plane_copy tetraEnv tetra 10 usedHull _
      (Exit.eq_done_of_isDone (flattenInit usedHull) (by decide!))).2.1 3 _ rfl⟩

/-! ## C4: the twin pairs -/

theorem TwinPaired_of_edges_eq {h1 h2 : b3QHull} (hc : h2.edgeCount = h1.edgeCount)
    (ht : ∀ i, (h2.edges i).twin = (h1.edges i).twin) (hp : TwinPaired h1) : TwinPaired h2 := by
  refine ⟨by rw [hc]; exact hp.1, ?_⟩
  intro k hk
  rw [hc] at hk
  rw [ht, ht]
  exact hp.2 k hk

theorem TwinPaired_addVertex {m : qhHull} {s : FlatState} {v : Nat} (hp : TwinPaired s.hull) :
    TwinPaired (addVertex m s v).hull :=
  @TwinPaired_of_edges_eq s.hull _ rfl (fun _ => rfl) hp

theorem TwinPaired_markEdge {s : FlatState} {ie2 : Nat} (hp : TwinPaired s.hull) :
    TwinPaired (markEdge s ie2).hull := by
  refine @TwinPaired_of_edges_eq s.hull _ rfl ?_ hp
  intro i
  simp only [markEdge, upd]
  split
  · rename_i h; rw [h]
  · rfl

theorem TwinPaired_emitted {face : qhFace} {s : FlatState} (hp : TwinPaired s.hull) :
    TwinPaired (emitted face s).hull :=
  @TwinPaired_of_edges_eq s.hull _ rfl (fun i => (linkFace_fields s.fhs s.hull.edges i).1) hp

theorem addEdgePairEdges_old (s : FlatState) (iv1 iv2 i : Nat) (hi : i < s.hull.edgeCount) :
    addEdgePairEdges s iv1 iv2 i = s.hull.edges i := by
  simp only [addEdgePairEdges]
  rw [upd_other _ _ _ _ (by omega), upd_other _ _ _ _ (by omega)]

theorem addEdgePairEdges_first (s : FlatState) (iv1 iv2 : Nat) :
    addEdgePairEdges s iv1 iv2 s.hull.edgeCount =
      { s.hull.edges s.hull.edgeCount with
        face := s.hull.faceCount % 256, origin := iv1, twin := (s.hull.edgeCount + 1) % 256 } := by
  simp only [addEdgePairEdges]
  rw [upd_other _ _ _ _ (by omega), upd_same]

theorem addEdgePairEdges_second (s : FlatState) (iv1 iv2 : Nat) :
    addEdgePairEdges s iv1 iv2 (s.hull.edgeCount + 1) =
      { s.hull.edges (s.hull.edgeCount + 1) with
        face := B3_NULL_HULL_FEATURE, origin := iv2, twin := s.hull.edgeCount % 256 } := by
  simp only [addEdgePairEdges]
  rw [upd_same, upd_other _ _ _ _ (by omega)]

theorem TwinPaired_addEdgePair {m : qhHull} {s : FlatState} {edge iv1 iv2 : Nat}
    (hp : TwinPaired s.hull) : TwinPaired (addEdgePair m s edge iv1 iv2).hull := by
  obtain ⟨hev, hpair⟩ := hp
  refine ⟨?_, ?_⟩
  · show (s.hull.edgeCount + 2) % 2 = 0
    omega
  · intro k hk
    have hk2 : 2 * k + 1 < s.hull.edgeCount + 2 := hk
    show (addEdgePairEdges s iv1 iv2 (2 * k)).twin = _ ∧
      (addEdgePairEdges s iv1 iv2 (2 * k + 1)).twin = _
    by_cases hlt : 2 * k + 1 < s.hull.edgeCount
    · rw [addEdgePairEdges_old s iv1 iv2 _ (by omega), addEdgePairEdges_old s iv1 iv2 _ hlt]
      exact hpair k hlt
    · have hk3 : 2 * k = s.hull.edgeCount := by omega
      rw [hk3, addEdgePairEdges_first, addEdgePairEdges_second]
      exact ⟨rfl, rfl⟩

theorem TwinPaired_edgeStep {env : Env} {m : qhHull} {s s1 : FlatState} {edge : Nat}
    (hp : TwinPaired s.hull) (h : edgeStep env m s edge = Exit.done s1) : TwinPaired s1.hull := by
  obtain ⟨t1, iv1, t2, iv2, h1, h2, h3⟩ := edgeStep_done h
  have a1 : TwinPaired t1.hull := by
    rcases resolveVertex_done h1 with ⟨_, _, rfl, _⟩ | ⟨_, _, _, _, rfl⟩
    · exact hp
    · exact TwinPaired_addVertex hp
  have a2 : TwinPaired t2.hull := by
    rcases resolveVertex_done h2 with ⟨_, _, rfl, _⟩ | ⟨_, _, _, _, rfl⟩
    · exact a1
    · exact TwinPaired_addVertex a1
  rcases resolveEdge_done h3 with ⟨_, _, _, _, rfl⟩ | ⟨_, _, _, _, rfl⟩
  · exact TwinPaired_markEdge a2
  · exact TwinPaired_addEdgePair a2

theorem TwinPaired_flatten {env : Env} {m : qhHull} {fuel : Nat} {hull : b3QHull}
    {s : FlatState} (h : flatten env m fuel hull = Exit.done s) : TwinPaired s.hull := by
  refine flattenFaces_induct (fun t => TwinPaired t.hull) ?_ ?_ _ _ _ ?_ h
  · intro t e t1 hp hstep
    exact TwinPaired_edgeStep hp hstep
  · intro face t hp _
    exact TwinPaired_emitted hp
  · exact ⟨rfl, fun k hk => absurd hk (by simp [flattenInit, b3QHull.resetCounts])⟩

/-- C4: when the flattening pass completes with the edge indices fitting in a byte
(`edgeCount ≤ 256`), every half-edge `i < edgeCount` has `twin < edgeCount`, `twin != i` and
`edges[edges[i].twin].twin == i`; the half-edges are stored as adjacent twin pairs
`(2k, 2k+1)`, and `edgeCount` is even. -/
theorem C4_twin_involution (env : Env) (m : qhHull) (fuel : Nat) (hull : b3QHull)
    (s : FlatState) (h : flatten env m fuel hull = Exit.done s)
    (hbyte : s.hull.edgeCount ≤ 256) :
    (∀ i, i < s.hull.edgeCount →
      (s.hull.edges i).twin < s.hull.edgeCount ∧ (s.hull.edges i).twin ≠ i ∧
      (s.hull.edges (s.hull.edges i).twin).twin = i) ∧
    (∀ k, 2 * k + 1 < s.hull.edgeCount →
      (s.hull.edges (2 * k)).twin = 2 * k + 1 ∧ (s.hull.edges (2 * k + 1)).twin = 2 * k) ∧
    s.hull.edgeCount % 2 = 0 := by
  obtain ⟨hev, hpair⟩ := TwinPaired_flatten h
  have hp : ∀ k, 2 * k + 1 < s.hull.edgeCount →
      (s.hull.edges (2 * k)).twin = 2 * k + 1 ∧ (s.hull.edges (2 * k + 1)).twin = 2 * k := by
    intro k hk
    obtain ⟨a, b⟩ := hpair k hk
    rw [Nat.mod_eq_of_lt (by omega)] at a b
    exact ⟨a, b⟩
  refine ⟨?_, hp, hev⟩
  intro i hi
  rcases Nat.even_or_odd' i with ⟨k, rfl | rfl⟩
  · obtain ⟨a, b⟩ := hp k (by omega)
    rw [a]
    exact ⟨by omega, by omega, b⟩
  · obtain ⟨a, b⟩ := hp k (by omega)
    rw [b]
    exact ⟨by omega, by omega, a⟩

/-- C4 on the tetrahedron: twelve half-edges, in six twin pairs. -/
theorem C4_twin_involution_witness :
    (flatten tetraEnv tetra 10 usedHull).isDone = true ∧
    (getDone (flatten tetraEnv tetra 10 usedHull) (flattenInit usedHull)).hull.edgeCount = 12 ∧
    ∀ i, i < (getDone (flatten tetraEnv tetra 10 usedHull) (flattenInit usedHull)).hull.edgeCount →
      ((getDone (flatten tetraEnv tetra 10 usedHull) (flattenInit usedHull)).hull.edges
        ((getDone (flatten tetraEnv tetra 10 usedHull) (flattenInit usedHull)).hull.edges
          i).twin).twin = i :=
  ⟨by decide!, by decide!,
   fun i hi => ((C4_twin_involution tetraEnv tetra 10 usedHull _
      (Exit.eq_done_of_isDone (flattenInit usedHull) (by decide!)) (by decide!)).1 i hi).2.2⟩

/-! ## Pointer maps with consecutive indices -/

theorem indexed_append (n : Nat) (P Q : List Nat) :
    indexed n (P ++ Q) = indexed n P ++ indexed (n + P.length) Q := by
  induction P generalizing n with
  | nil => simp [indexed]
  | cons p P ih =>
    have hl : n + (p :: P).length = n + 1 + P.length := by
      rw [List.length_cons]; omega
    rw [hl]
    show (⟨p, n⟩ : b3PointerIndex) :: indexed (n + 1) (P ++ Q) =
      (⟨p, n⟩ : b3PointerIndex) :: (indexed (n + 1) P ++ indexed (n + 1 + P.length) Q)
    rw [ih]

theorem indexed_map_pointer (n : Nat) (P : List Nat) :
    (indexed n P).map (fun pi => pi.pointer) = P := by
  induction P generalizing n with
  | nil => rfl
  | cons p P ih => simp only [indexed, List.map_cons, ih]

theorem indexed_length (n : Nat) (P : List Nat) : (indexed n P).length = P.length := by
  induction P generalizing n with
  | nil => rfl
  | cons p P ih => simp only [indexed, List.length_cons, ih]

theorem find_indexed (n : Nat) (P : List Nat) (e : Nat) :
    (indexed n P).find? (fun pi => decide (pi.pointer = e)) =
      if e ∈ P then some ⟨e, n + P.indexOf e⟩ else none := by
  induction P generalizing n with
  | nil => simp [indexed]
  | cons p P ih =>
    simp only [indexed, List.find?_cons]
    by_cases hp : p = e
    · subst hp
      simp
    · have hp2 : e ≠ p := fun h => hp h.symm
      simp only [hp, decide_False, ih, List.mem_cons, hp2, false_or,
        List.indexOf_cons_ne _ hp]
      split
      · congr 2
        omega
      · rfl

theorem Find_of_indexed {mp : b3PIMap} (h : mp.pis = indexed 0 mp.pointers) (e : Nat) :
    mp.Find e = if e ∈ mp.pointers then some ⟨e, mp.pointers.indexOf e⟩ else none := by
  unfold b3PIMap.Find
  rw [h, find_indexed]
  simp

theorem firstSeen_append_pair (l : List Nat) (a b : Nat) :
    firstSeen (l ++ [a, b]) =
      (if b ∈ (if a ∈ firstSeen l then firstSeen l else firstSeen l ++ [a])
        then (if a ∈ firstSeen l then firstSeen l else firstSeen l ++ [a])
        else (if a ∈ firstSeen l then firstSeen l else firstSeen l ++ [a]) ++ [b]) := by
  simp only [firstSeen, List.foldl_append, List.foldl_cons, List.foldl_nil]

theorem endPoints_append (m : qhHull) (l : List Nat) (e : Nat) :
    m.endPoints (l ++ [e]) =
      m.endPoints l ++ [(m.halfEdge e).tail, (m.halfEdge (m.halfEdge e).twin).tail] := by
  simp [qhHull.endPoints]

/-! ## The vertex part of the invariant -/

theorem VInv_init (m : qhHull) (hull : b3QHull) : VInv m (flattenInit hull) :=
  ⟨rfl, rfl, List.nodup_nil, fun v hv => absurd hv (by simp [flattenInit, b3PIMap.pointers, b3PIMap.empty])⟩

theorem VInv_of_same {m : qhHull} {s t : FlatState} (hv : VInv m s) (h1 : t.vs = s.vs)
    (h2 : t.hull.vertexCount = s.hull.vertexCount) (h3 : t.hull.vertices = s.hull.vertices) :
    VInv m t := by
  obtain ⟨a, b, c, d⟩ := hv
  exact ⟨by rw [h1]; exact a, by rw [h1, h2]; exact b, by rw [h1]; exact c,
    by rw [h1, h3]; exact d⟩

theorem addVertex_pointers (m : qhHull) (s : FlatState) (v : Nat) :
    (addVertex m s v).vs.pointers = s.vs.pointers ++ [v] := by
  simp [addVertex, b3PIMap.pointers]

theorem VInv_addVertex {env : Env} {m : qhHull} {s : FlatState} {v : Nat}
    (hV : env.B3_MAX_HULL_VERTICES ≤ 256) (hv : VInv m s) (hnew : v ∉ s.vs.pointers)
    (hc : s.vs.count < env.B3_MAX_HULL_VERTICES) :
    VInv m (addVertex m s v) ∧ s.hull.vertexCount % 256 = s.vs.pointers.length := by
  obtain ⟨a, b, c, d⟩ := hv
  have hlen : s.vs.pis.length = s.vs.pointers.length := by simp [b3PIMap.pointers]
  have hlt : s.hull.vertexCount < 256 := by
    rw [b]
    unfold b3PIMap.count at hc
    omega
  have hmod : s.hull.vertexCount % 256 = s.vs.pointers.length := by
    rw [Nat.mod_eq_of_lt hlt, b]
  refine ⟨⟨?_, ?_, ?_, ?_⟩, hmod⟩
  · rw [addVertex_pointers, indexed_append]
    simp only [addVertex, indexed, Nat.zero_add, hmod]
    rw [← a]
  · rw [addVertex_pointers]
    simp only [addVertex, List.length_append, List.length_singleton, b]
  · rw [addVertex_pointers]
    exact List.Nodup.append c (List.nodup_singleton v) (by simpa using hnew)
  · intro w hw
    rw [addVertex_pointers] at hw ⊢
    simp only [addVertex]
    rcases List.mem_append.1 hw with hw | hw
    · rw [List.indexOf_append_of_mem hw]
      have hi : s.vs.pointers.indexOf w < s.vs.pointers.length := List.indexOf_lt_length.2 hw
      rw [upd_other _ _ _ _ (by omega)]
      exact d w hw
    · rw [List.mem_singleton] at hw
      subst hw
      rw [List.indexOf_append_of_not_mem hnew]
      simp only [List.indexOf_cons_self, Nat.add_zero, b, upd_same]

/-- What resolving a vertex does: the map gains the vertex if it was new, `iv` is the index of
the vertex in the map, and nothing but `vs`, `vertices` and `vertexCount` changes. -/
theorem resolveVertex_spec {env : Env} {m : qhHull} {s s1 : FlatState} {v iv : Nat}
    (hV : env.B3_MAX_HULL_VERTICES ≤ 256) (hv : VInv m s)
    (h : resolveVertex env m s v = Exit.done (s1, iv)) :
    VInv m s1 ∧
    s1.vs.pointers = (if v ∈ s.vs.pointers then s.vs.pointers else s.vs.pointers ++ [v]) ∧
    iv = s1.vs.pointers.indexOf v ∧ v ∈ s1.vs.pointers ∧
    (s1 = s ∨ s1 = addVertex m s v) := by
  have hfind := Find_of_indexed hv.vs_indexed v
  rcases resolveVertex_done h with ⟨mv, hf, rfl, hi⟩ | ⟨hf, _, hc, hi, rfl⟩
  · rw [hf] at hfind
    by_cases hmem : v ∈ s1.vs.pointers
    · rw [if_pos hmem] at hfind
      injection hfind with hfind
      refine ⟨hv, by rw [if_pos hmem], ?_, hmem, Or.inl rfl⟩
      rw [hi, hfind]
    · rw [if_neg hmem] at hfind
      exact absurd hfind (by simp)
  · rw [hf] at hfind
    by_cases hmem : v ∈ s.vs.pointers
    · rw [if_pos hmem] at hfind
      exact absurd hfind (by simp)
    · obtain ⟨hv1, hmod⟩ := VInv_addVertex hV hv hmem hc
      refine ⟨hv1, by rw [if_neg hmem, addVertex_pointers], ?_, ?_, Or.inr rfl⟩
      · rw [hi, hmod, addVertex_pointers, List.indexOf_append_of_not_mem hmem]
        simp
      · rw [addVertex_pointers]
        simp

/-! ## The edge part of the invariant -/

theorem length_le_flatten (done : List (List Nat)) (h : ∀ L ∈ done, L ≠ []) :
    done.length ≤ done.flatten.length := by
  induction done with
  | nil => simp
  | cons L done ih =>
    have h1 : L ≠ [] := h L (by simp)
    have h2 := ih (fun L hL => h L (List.mem_cons_of_mem _ hL))
    have h3 : 0 < L.length := List.length_pos.2 h1
    simp only [List.flatten_cons, List.length_append, List.length_cons]
    omega

theorem faceIndex_bound {m : qhHull} {done : List (List Nat)} {cur : List Nat} {s : FlatState}
    {e : Nat} (h : EInv m done cur s) (hnd : (done.flatten ++ cur ++ [e]).Nodup)
    (hsub : ∀ x ∈ done.flatten ++ cur ++ [e], x ∈ s.es.pointers) : done.length < 255 := by
  have h1 := length_le_flatten done h.done_nonempty
  have h2 := (List.Nodup.subperm hnd hsub).length_le
  have h3 := h.es_bound
  rw [h.es_count] at h3
  simp only [List.length_append, List.length_singleton] at h2
  omega

theorem EInv_init (m : qhHull) (hull : b3QHull) : EInv m [] [] (flattenInit hull) := by
  refine ⟨rfl, rfl, by simp [flattenInit, b3QHull.resetCounts], List.nodup_nil, ?_, ?_, ?_, ?_,
    ?_, ?_, ?_, ?_, rfl, rfl, ?_, ?_, ?_⟩
  all_goals simp [flattenInit, b3PIMap.pointers, b3PIMap.empty]

theorem EInv_addVertex {m : qhHull} {done : List (List Nat)} {cur : List Nat} {s : FlatState}
    (v : Nat) (h : EInv m done cur s) : EInv m done cur (addVertex m s v) := by
  refine ⟨h.es_indexed, h.es_count, h.es_bound, h.es_nodup, h.es_closed, h.visited_mem,
    h.es_source, h.edge_twin, ?_, h.face_done, h.face_cur, h.face_null, h.face_count, h.fhs_eq, h.face_edge,
    h.edge_next, h.done_nonempty⟩
  intro p hp
  obtain ⟨a, b⟩ := h.edge_origin p hp
  refine ⟨?_, ?_⟩
  · rw [addVertex_pointers]
    exact List.mem_append_left _ a
  · show (s.hull.edges (s.edgeIndex p)).origin = (addVertex m s v).vs.pointers.indexOf _
    rw [addVertex_pointers, List.indexOf_append_of_mem a]
    exact b

theorem markEdge_edges_ne (s : FlatState) (i j : Nat) (h : j ≠ i) :
    (markEdge s i).hull.edges j = s.hull.edges j := by
  simp only [markEdge, upd_other _ _ _ _ h]

theorem markEdge_edges_eq (s : FlatState) (i : Nat) :
    (markEdge s i).hull.edges i = { s.hull.edges i with face := s.hull.faceCount % 256 } := by
  simp only [markEdge, upd_same]

theorem markEdge_fields (s : FlatState) (i j : Nat) :
    ((markEdge s i).hull.edges j).twin = (s.hull.edges j).twin ∧
    ((markEdge s i).hull.edges j).origin = (s.hull.edges j).origin ∧
    ((markEdge s i).hull.edges j).next = (s.hull.edges j).next := by
  by_cases h : j = i
  · subst h
    rw [markEdge_edges_eq]
    exact ⟨rfl, rfl, rfl⟩
  · rw [markEdge_edges_ne s i j h]
    exact ⟨rfl, rfl, rfl⟩

theorem EInv_markEdge {m : qhHull} {done : List (List Nat)} {cur : List Nat} {s : FlatState}
    {e : Nat} (h : EInv m done cur s) (he : e ∈ s.es.pointers)
    (hnd : (done.flatten ++ cur ++ [e]).Nodup) :
    EInv m done (cur ++ [e]) (markEdge s (s.edgeIndex e)) := by
  have hsub : ∀ x ∈ done.flatten ++ cur ++ [e], x ∈ s.es.pointers := by
    intro x hx
    rcases List.mem_append.1 hx with hx | hx
    · exact h.visited_mem x hx
    · rw [List.mem_singleton] at hx
      rw [hx]
      exact he
  have hF : done.length < 255 := faceIndex_bound h hnd hsub
  have hfresh : e ∉ done.flatten ++ cur := by
    intro hmem
    have := (List.nodup_append.1 hnd).2.2
    exact this hmem (List.mem_singleton_self e)
  have hne : ∀ p ∈ s.es.pointers, p ≠ e → s.edgeIndex p ≠ s.edgeIndex e :=
    fun p hp hpe hidx => hpe ((List.indexOf_inj hp he).1 hidx)
  have hface : ((markEdge s (s.edgeIndex e)).hull.edges (s.edgeIndex e)).face = done.length := by
    rw [markEdge_edges_eq]
    show s.hull.faceCount % 256 = done.length
    rw [h.face_count]
    exact Nat.mod_eq_of_lt (by omega)
  have hold : ∀ p ∈ done.flatten ++ cur,
      (markEdge s (s.edgeIndex e)).hull.edges (s.edgeIndex p) = s.hull.edges (s.edgeIndex p) := by
    intro p hp
    apply markEdge_edges_ne
    exact hne p (h.visited_mem p hp) (fun hpe => hfresh (hpe ▸ hp))
  refine ⟨h.es_indexed, h.es_count, h.es_bound, h.es_nodup, h.es_closed, ?_, ?_, ?_, ?_, ?_,
    ?_, ?_, h.face_count, ?_, h.face_edge, ?_, h.done_nonempty⟩
  · intro x hx
    exact hsub x (by simpa [List.append_assoc] using hx)
  · intro p hp
    rcases h.es_source p hp with hs | hs
    · exact Or.inl (by rw [← List.append_assoc]; exact List.mem_append_left _ hs)
    · exact Or.inr (by rw [← List.append_assoc]; exact List.mem_append_left _ hs)
  · intro p hp
    show ((markEdge s (s.edgeIndex e)).hull.edges (s.edgeIndex p)).twin = _
    rw [(markEdge_fields s _ _).1]
    exact h.edge_twin p hp
  · intro p hp
    refine ⟨(h.edge_origin p hp).1, ?_⟩
    show ((markEdge s (s.edgeIndex e)).hull.edges (s.edgeIndex p)).origin = _
    rw [(markEdge_fields s _ _).2.1]
    exact (h.edge_origin p hp).2
  · intro i L hL x hx
    have hx2 : x ∈ done.flatten ++ cur :=
      List.mem_append_left _ (List.mem_flatten.2 ⟨L, List.getElem?_mem hL, hx⟩)
    show ((markEdge s (s.edgeIndex e)).hull.edges (s.edgeIndex x)).face = i
    rw [hold x hx2]
    exact h.face_done i L hL x hx
  · intro x hx
    show ((markEdge s (s.edgeIndex e)).hull.edges (s.edgeIndex x)).face = done.length
    rcases List.mem_append.1 hx with hx | hx
    · rw [hold x (List.mem_append_right _ hx)]
      exact h.face_cur x hx
    · rw [List.mem_singleton] at hx
      rw [hx]
      exact hface
  · intro p hp hnot
    have hpe : p ≠ e := by
      intro hpe
      apply hnot
      rw [hpe]
      simp
    show ((markEdge s (s.edgeIndex e)).hull.edges (s.edgeIndex p)).face = _
    rw [markEdge_edges_ne s _ _ (hne p hp hpe)]
    apply h.face_null p hp
    intro hmem
    apply hnot
    rw [← List.append_assoc]
    exact List.mem_append_left _ hmem
  · show s.fhs ++ [s.edgeIndex e] = _
    rw [h.fhs_eq, List.map_append]
    rfl
  · intro i L hL j hj
    show ((markEdge s (s.edgeIndex e)).hull.edges (s.edgeIndex (L.getD j 0))).next = _
    rw [(markEdge_fields s _ _).2.2]
    exact h.edge_next i L hL j hj

theorem addEdgePair_pointers (m : qhHull) (s : FlatState) (e iv1 iv2 : Nat) :
    (addEdgePair m s e iv1 iv2).es.pointers = s.es.pointers ++ [e, (m.halfEdge e).twin] := by
  simp [addEdgePair, b3PIMap.pointers]

theorem indexOf_snoc_first {P : List Nat} {e t : Nat} (he : e ∉ P) :
    (P ++ [e, t]).indexOf e = P.length := by
  rw [List.indexOf_append_of_not_mem he, List.indexOf_cons_self]
  rfl

theorem indexOf_snoc_second {P : List Nat} {e t : Nat} (ht : t ∉ P) (hne : t ≠ e) :
    (P ++ [e, t]).indexOf t = P.length + 1 := by
  rw [List.indexOf_append_of_not_mem ht, List.indexOf_cons_ne _ (fun h => hne h.symm),
    List.indexOf_cons_self]

theorem EInv_addEdgePair {env : Env} {m : qhHull} {done : List (List Nat)} {cur : List Nat}
    {s : FlatState} {e iv1 iv2 : Nat} (hE : env.B3_MAX_HULL_EDGES ≤ 256)
    (h : EInv m done cur s) (hnew : e ∉ s.es.pointers)
    (htt : (m.halfEdge (m.halfEdge e).twin).twin = e) (htne : (m.halfEdge e).twin ≠ e)
    (hnd : (done.flatten ++ cur ++ [e]).Nodup)
    (hcap : s.hull.edgeCount + 2 < env.B3_MAX_HULL_EDGES)
    (hv1 : (m.halfEdge e).tail ∈ s.vs.pointers ∧ iv1 = s.vertexIndex (m.halfEdge e).tail)
    (hv2 : (m.halfEdge (m.halfEdge e).twin).tail ∈ s.vs.pointers ∧
      iv2 = s.vertexIndex (m.halfEdge (m.halfEdge e).twin).tail) :
    EInv m done (cur ++ [e]) (addEdgePair m s e iv1 iv2) := by
  have hn : s.hull.edgeCount = s.es.pointers.length := h.es_count
  have ht : (m.halfEdge e).twin ∉ s.es.pointers := by
    intro hmem
    obtain ⟨a, -⟩ := h.es_closed _ hmem
    rw [htt] at a
    exact hnew a
  have hidx_old : ∀ p ∈ s.es.pointers,
      (addEdgePair m s e iv1 iv2).edgeIndex p = s.edgeIndex p := by
    intro p hp
    show (addEdgePair m s e iv1 iv2).es.pointers.indexOf p = _
    rw [addEdgePair_pointers, List.indexOf_append_of_mem hp]
  have hidx_e : (addEdgePair m s e iv1 iv2).edgeIndex e = s.hull.edgeCount := by
    show (addEdgePair m s e iv1 iv2).es.pointers.indexOf e = _
    rw [addEdgePair_pointers, indexOf_snoc_first hnew, hn]
  have hidx_t : (addEdgePair m s e iv1 iv2).edgeIndex (m.halfEdge e).twin =
      s.hull.edgeCount + 1 := by
    show (addEdgePair m s e iv1 iv2).es.pointers.indexOf _ = _
    rw [addEdgePair_pointers, indexOf_snoc_second ht htne, hn]
  have hlt : ∀ p ∈ s.es.pointers, s.edgeIndex p < s.hull.edgeCount := by
    intro p hp
    rw [hn]
    exact List.indexOf_lt_length.2 hp
  have hedge_old : ∀ p ∈ s.es.pointers,
      (addEdgePair m s e iv1 iv2).hull.edges ((addEdgePair m s e iv1 iv2).edgeIndex p) =
        s.hull.edges (s.edgeIndex p) := by
    intro p hp
    rw [hidx_old p hp]
    exact addEdgePairEdges_old s iv1 iv2 _ (hlt p hp)
  have hedge_e : (addEdgePair m s e iv1 iv2).hull.edges ((addEdgePair m s e iv1 iv2).edgeIndex e) =
      { s.hull.edges s.hull.edgeCount with
        face := s.hull.faceCount % 256, origin := iv1, twin := (s.hull.edgeCount + 1) % 256 } := by
    rw [hidx_e]
    exact addEdgePairEdges_first s iv1 iv2
  have hedge_t : (addEdgePair m s e iv1 iv2).hull.edges
      ((addEdgePair m s e iv1 iv2).edgeIndex (m.halfEdge e).twin) =
      { s.hull.edges (s.hull.edgeCount + 1) with
        face := B3_NULL_HULL_FEATURE, origin := iv2, twin := s.hull.edgeCount % 256 } := by
    rw [hidx_t]
    exact addEdgePairEdges_second s iv1 iv2
  have hvis : ∀ x ∈ done.flatten ++ cur, x ∈ s.es.pointers := h.visited_mem
  have hF : done.length < 255 := by
    have h1 := length_le_flatten done h.done_nonempty
    have h2 := (List.Nodup.subperm (List.nodup_append.1 hnd).1 hvis).length_le
    simp only [List.length_append] at h2
    omega
  have hmem' : ∀ p, p ∈ (addEdgePair m s e iv1 iv2).es.pointers ↔
      p ∈ s.es.pointers ∨ p = e ∨ p = (m.halfEdge e).twin := by
    intro p
    rw [addEdgePair_pointers]
    simp
  have hfresh : e ∉ done.flatten ++ cur := fun hmem => hnew (hvis e hmem)
  have htfresh : (m.halfEdge e).twin ∉ done.flatten ++ cur := fun hmem => ht (hvis _ hmem)
  have hsrc : ∀ p ∈ (addEdgePair m s e iv1 iv2).es.pointers,
      p ∈ done.flatten ++ (cur ++ [e]) ∨ (m.halfEdge p).twin ∈ done.flatten ++ (cur ++ [e]) := by
    intro p hp
    rw [← List.append_assoc]
    rcases (hmem' p).1 hp with hp | rfl | rfl
    · rcases h.es_source p hp with hs | hs
      · exact Or.inl (List.mem_append_left _ hs)
      · exact Or.inr (List.mem_append_left _ hs)
    · exact Or.inl (by simp)
    · exact Or.inr (by rw [htt]; simp)
  refine ⟨?_, ?_, ?_, ?_, ?_, ?_, hsrc, ?_, ?_, ?_, ?_, ?_, h.face_count, ?_, ?_, ?_,
    h.done_nonempty⟩
  · rw [addEdgePair_pointers, indexed_append]
    simp only [addEdgePair, indexed, Nat.zero_add, List.append_assoc, List.singleton_append]
    rw [← h.es_indexed, ← hn, Nat.mod_eq_of_lt (by omega), Nat.mod_eq_of_lt (by omega)]
  · rw [addEdgePair_pointers]
    simp only [addEdgePair, List.length_append, List.length_cons, List.length_nil, hn]
  · show s.hull.edgeCount + 2 ≤ 255
    omega
  · rw [addEdgePair_pointers]
    refine List.Nodup.append h.es_nodup ?_ ?_
    · simp only [List.nodup_cons, List.mem_singleton, List.not_mem_nil, not_false_eq_true,
        List.nodup_nil, and_true]
      exact fun h => htne h.symm
    · intro x hx hx2
      simp only [List.mem_cons, List.mem_singleton, List.not_mem_nil, or_false] at hx2
      rcases hx2 with rfl | rfl
      · exact hnew hx
      · exact ht hx
  · intro p hp
    rcases (hmem' p).1 hp with hp | rfl | rfl
    · obtain ⟨a, b⟩ := h.es_closed p hp
      exact ⟨(hmem' _).2 (Or.inl a), b⟩
    · exact ⟨(hmem' _).2 (Or.inr (Or.inr rfl)), htt⟩
    · refine ⟨(hmem' _).2 (Or.inr (Or.inl htt)), ?_⟩
      rw [htt]
  · intro x hx
    rw [← List.append_assoc] at hx
    rcases List.mem_append.1 hx with hx | hx
    · exact (hmem' x).2 (Or.inl (hvis x hx))
    · rw [List.mem_singleton] at hx
      exact (hmem' x).2 (Or.inr (Or.inl hx))
  · intro p hp
    rcases (hmem' p).1 hp with hp | rfl | rfl
    · rw [hedge_old p hp, hidx_old _ (h.es_closed p hp).1]
      exact h.edge_twin p hp
    · rw [hedge_e, hidx_t]
      exact Nat.mod_eq_of_lt (by omega)
    · rw [hedge_t, htt, hidx_e]
      exact Nat.mod_eq_of_lt (by omega)
  · intro p hp
    rcases (hmem' p).1 hp with hp | rfl | rfl
    · rw [hedge_old p hp]
      exact h.edge_origin p hp
    · rw [hedge_e]
      exact ⟨hv1.1, hv1.2⟩
    · rw [hedge_t]
      exact ⟨hv2.1, hv2.2⟩
  · intro i L hL x hx
    have hx2 : x ∈ done.flatten ++ cur :=
      List.mem_append_left _ (List.mem_flatten.2 ⟨L, List.getElem?_mem hL, hx⟩)
    rw [hedge_old x (hvis x hx2)]
    exact h.face_done i L hL x hx
  · intro x hx
    rcases List.mem_append.1 hx with hx | hx
    · rw [hedge_old x (hvis x (List.mem_append_right _ hx))]
      exact h.face_cur x hx
    · rw [List.mem_singleton] at hx
      rw [hx, hedge_e]
      show s.hull.faceCount % 256 = done.length
      rw [h.face_count]
      exact Nat.mod_eq_of_lt (by omega)
  · intro p hp hnot
    rcases (hmem' p).1 hp with hp | rfl | rfl
    · rw [hedge_old p hp]
      apply h.face_null p hp
      intro hmem
      apply hnot
      rw [← List.append_assoc]
      exact List.mem_append_left _ hmem
    · exact absurd (by simp) hnot
    · rw [hedge_t]
  · show s.fhs ++ [s.hull.edgeCount % 256] = _
    rw [h.fhs_eq, List.map_append, Nat.mod_eq_of_lt (by omega)]
    congr 1
    · apply List.map_congr_left
      intro x hx
      exact (hidx_old x (hvis x (List.mem_append_right _ hx))).symm
    · simp only [List.map_cons, List.map_nil, hidx_e]
  · intro i L hL
    have h0 : L.getD 0 0 ∈ s.es.pointers := by
      have hne := h.done_nonempty L (List.getElem?_mem hL)
      have hpos : 0 < L.length := List.length_pos.2 hne
      rw [List.getD_eq_getElem _ _ hpos]
      exact hvis _ (List.mem_append_left _
        (List.mem_flatten.2 ⟨L, List.getElem?_mem hL, List.getElem_mem _⟩))
    rw [hidx_old _ h0]
    exact h.face_edge i L hL
  · intro i L hL j hj
    have hmemL : ∀ k, k < L.length → L.getD k 0 ∈ s.es.pointers := by
      intro k hk
      rw [List.getD_eq_getElem _ _ hk]
      exact hvis _ (List.mem_append_left _
        (List.mem_flatten.2 ⟨L, List.getElem?_mem hL, List.getElem_mem _⟩))
    rw [hedge_old _ (hmemL j hj), hidx_old _ (hmemL _ (Nat.mod_lt _ (by omega)))]
    exact h.edge_next i L hL j hj

/-! ## Linking the half-edges of a face -/

theorem foldl_link_other (a b : Nat → Nat) (l : List Nat) (edges : Nat → b3HalfEdge) (k : Nat)
    (hk : ∀ i ∈ l, a i ≠ k) :
    (l.foldl (fun es i => upd es (a i) { es (a i) with next := b i }) edges) k = edges k := by
  induction l generalizing edges with
  | nil => rfl
  | cons x l ih =>
    rw [List.foldl_cons, ih _ (fun i hi => hk i (List.mem_cons_of_mem _ hi))]
    exact upd_other _ _ _ _ (fun h => hk x (List.mem_cons_self _ _) h.symm)

theorem foldl_link_next (a b : Nat → Nat) (l : List Nat) (edges : Nat → b3HalfEdge) (i : Nat)
    (hi : i ∈ l) (hnd : l.Nodup) (hinj : ∀ j ∈ l, a j = a i → j = i) :
    ((l.foldl (fun es i => upd es (a i) { es (a i) with next := b i }) edges) (a i)).next =
      b i := by
  induction l generalizing edges with
  | nil => exact absurd hi (List.not_mem_nil _)
  | cons x l ih =>
    rw [List.foldl_cons]
    obtain ⟨hx, hnd2⟩ := List.nodup_cons.1 hnd
    by_cases hxi : x = i
    · subst hxi
      rw [foldl_link_other a b l _ (a x)]
      · rw [upd_same]
      · intro j hj hja
        have := hinj j (List.mem_cons_of_mem _ hj) hja
        rw [this] at hj
        exact hx hj
    · have hi2 : i ∈ l := by
        rcases List.mem_cons.1 hi with h | h
        · exact absurd h.symm hxi
        · exact h
      exact ih _ hi2 hnd2 (fun j hj => hinj j (List.mem_cons_of_mem _ hj))

theorem linkFace_other (fhs : List Nat) (edges : Nat → b3HalfEdge) (k : Nat) (hk : k ∉ fhs) :
    linkFace fhs edges k = edges k := by
  unfold linkFace
  apply foldl_link_other (fun i => fhs.getD i 0)
    (fun i => fhs.getD (if i < fhs.length - 1 then i + 1 else 0) 0)
  intro i hi hik
  rw [List.mem_range] at hi
  rw [List.getD_eq_getElem _ _ hi] at hik
  exact hk (hik ▸ List.getElem_mem _)

theorem linkFace_next (fhs : List Nat) (edges : Nat → b3HalfEdge) (j : Nat)
    (hj : j < fhs.length) (hnd : fhs.Nodup) :
    (linkFace fhs edges (fhs.getD j 0)).next = fhs.getD ((j + 1) % fhs.length) 0 := by
  have hsucc : (if j < fhs.length - 1 then j + 1 else 0) = (j + 1) % fhs.length := by
    by_cases hlt : j < fhs.length - 1
    · rw [if_pos hlt]
      exact (Nat.mod_eq_of_lt (by omega)).symm
    · rw [if_neg hlt]
      have hlast : j + 1 = fhs.length := by omega
      rw [hlast, Nat.mod_self]
  have h := foldl_link_next (fun i => fhs.getD i 0)
    (fun i => fhs.getD (if i < fhs.length - 1 then i + 1 else 0) 0)
    (List.range fhs.length) edges j (List.mem_range.2 hj) (List.nodup_range _) (by
      intro i hi hij
      rw [List.mem_range] at hi
      simp only [List.getD_eq_getElem _ _ hi, List.getD_eq_getElem _ _ hj] at hij
      exact (List.Nodup.getElem_inj_iff hnd).1 hij)
  rw [← hsucc]
  exact h

/-! ## The edge part of the invariant, at the emission of a face -/

theorem getElem?_snoc_cases {α : Type} (l : List α) (x y : α) (i : Nat)
    (h : (l ++ [x])[i]? = some y) : l[i]? = some y ∨ (i = l.length ∧ y = x) := by
  rw [List.getElem?_append] at h
  split at h
  · exact Or.inl h
  · rename_i hlt
    right
    have hi : i - l.length = 0 := by
      by_contra hne
      have : [x][i - l.length]? = none := by
        apply List.getElem?_eq_none
        simp only [List.length_singleton]
        omega
      rw [this] at h
      exact absurd h (by simp)
    rw [hi] at h
    simp only [List.getElem?_cons_zero, Option.some.injEq] at h
    exact ⟨by omega, h.symm⟩

theorem EInv_emitted {m : qhHull} {done : List (List Nat)} {cur : List Nat} {s : FlatState}
    (face : qhFace) (h : EInv m done cur s) (hcur : cur ≠ [])
    (hnd : (done.flatten ++ cur).Nodup) :
    EInv m (done ++ [cur]) [] (emitted face s) := by
  have hflat : (done ++ [cur]).flatten ++ [] = done.flatten ++ cur := by simp
  have hvis : ∀ x ∈ done.flatten ++ cur, x ∈ s.es.pointers := h.visited_mem
  have hcurP : ∀ x ∈ cur, x ∈ s.es.pointers := fun x hx => hvis x (List.mem_append_right _ hx)
  have hfields : ∀ k,
      ((emitted face s).hull.edges k).twin = (s.hull.edges k).twin ∧
      ((emitted face s).hull.edges k).origin = (s.hull.edges k).origin ∧
      ((emitted face s).hull.edges k).face = (s.hull.edges k).face :=
    fun k => linkFace_fields s.fhs s.hull.edges k
  have hfhs_nodup : s.fhs.Nodup := by
    rw [h.fhs_eq]
    refine List.Nodup.map_on ?_ (List.nodup_append.1 hnd).2.1
    intro x hx y hy hxy
    exact (List.indexOf_inj (hcurP x hx) (hcurP y hy)).1 hxy
  have hfhs_len : s.fhs.length = cur.length := by rw [h.fhs_eq, List.length_map]
  have hfhs_get : ∀ j, j < cur.length → s.fhs.getD j 0 = s.edgeIndex (cur.getD j 0) := by
    intro j hj
    rw [List.getD_eq_getElem _ _ (by omega), List.getD_eq_getElem _ _ hj]
    simp only [h.fhs_eq, List.getElem_map]
  have hcur_pos : 0 < cur.length := List.length_pos.2 hcur
  refine ⟨h.es_indexed, h.es_count, h.es_bound, h.es_nodup, h.es_closed, ?_, ?_, ?_, ?_, ?_,
    ?_, ?_, ?_, rfl, ?_, ?_, ?_⟩
  · intro x hx
    rw [hflat] at hx
    exact hvis x hx
  · intro p hp
    rw [hflat]
    exact h.es_source p hp
  · intro p hp
    show ((emitted face s).hull.edges (s.edgeIndex p)).twin = _
    rw [(hfields _).1]
    exact h.edge_twin p hp
  · intro p hp
    refine ⟨(h.edge_origin p hp).1, ?_⟩
    show ((emitted face s).hull.edges (s.edgeIndex p)).origin = _
    rw [(hfields _).2.1]
    exact (h.edge_origin p hp).2
  · intro i L hL x hx
    show ((emitted face s).hull.edges (s.edgeIndex x)).face = i
    rw [(hfields _).2.2]
    rcases getElem?_snoc_cases _ _ _ _ hL with hL | ⟨hi, rfl⟩
    · exact h.face_done i L hL x hx
    · rw [hi]
      exact h.face_cur x hx
  · intro x hx
    exact absurd hx (List.not_mem_nil _)
  · intro p hp hnot
    rw [hflat] at hnot
    show ((emitted face s).hull.edges (s.edgeIndex p)).face = _
    rw [(hfields _).2.2]
    exact h.face_null p hp hnot
  · show s.hull.faceCount + 1 = (done ++ [cur]).length
    rw [h.face_count, List.length_append, List.length_singleton]
  · intro i L hL
    show (upd s.hull.faces s.hull.faceCount ⟨s.fhs.getD 0 0⟩ i).edge = s.edgeIndex (L.getD 0 0)
    rcases getElem?_snoc_cases _ _ _ _ hL with hL | ⟨hi, rfl⟩
    · have hi : i < done.length := by
        by_contra hge
        rw [List.getElem?_eq_none (by omega)] at hL
        exact absurd hL (by simp)
      rw [upd_other _ _ _ _ (by rw [h.face_count]; omega)]
      exact h.face_edge i L hL
    · rw [hi, ← h.face_count, upd_same]
      exact hfhs_get 0 hcur_pos
  · intro i L hL j hj
    show (linkFace s.fhs s.hull.edges (s.edgeIndex (L.getD j 0))).next = _
    rcases getElem?_snoc_cases _ _ _ _ hL with hL | ⟨hi, rfl⟩
    · have hLj : L.getD j 0 ∈ L := by
        rw [List.getD_eq_getElem _ _ hj]
        exact List.getElem_mem _
      have hLd : L.getD j 0 ∈ done.flatten :=
        List.mem_flatten.2 ⟨L, List.getElem?_mem hL, hLj⟩
      rw [linkFace_other]
      · exact h.edge_next i L hL j hj
      · rw [h.fhs_eq]
        intro hmem
        obtain ⟨c, hc, hcx⟩ := List.mem_map.1 hmem
        have hceq : c = L.getD j 0 :=
          (List.indexOf_inj (hcurP c hc) (hvis _ (List.mem_append_left _ hLd))).1 hcx
        rw [hceq] at hc
        exact (List.nodup_append.1 hnd).2.2 hLd hc
    · rw [← hfhs_get j hj, linkFace_next _ _ _ (by omega) hfhs_nodup, hfhs_len]
      exact hfhs_get _ (Nat.mod_lt _ hcur_pos)
  · intro L hL
    rcases List.mem_append.1 hL with hL | hL
    · exact h.done_nonempty L hL
    · rw [List.mem_singleton] at hL
      rw [hL]
      exact hcur

/-! ## Walks along `next` -/

theorem walkLoop_ne_nil {m : qhHull} {first : Nat} :
    ∀ (fuel e : Nat) (l : List Nat), m.walkLoop first fuel e = some l → l.head? = some e := by
  intro fuel
  induction fuel with
  | zero => intro e l h; simp [qhHull.walkLoop] at h
  | succ fuel ih =>
    intro e l h
    rw [qhHull.walkLoop] at h
    split at h
    · injection h with h
      rw [← h]
      rfl
    · cases hw : m.walkLoop first fuel (m.halfEdge e).next with
      | none => simp [hw] at h
      | some l1 =>
        simp only [hw, Option.map_some', Option.some.injEq] at h
        rw [← h]
        rfl

theorem stepEdges_of_faceLoop {env : Env} {m : qhHull} {first : Nat} :
    ∀ (fuel fuelW e : Nat) (l : List Nat) (s s1 : FlatState),
      m.walkLoop first fuelW e = some l →
      faceLoop env m first fuel e s = Exit.done s1 → stepEdges env m l s = Exit.done s1 := by
  intro fuel
  induction fuel with
  | zero => intro fuelW e l s s1 _ h; simp [faceLoop] at h
  | succ fuel ih =>
    intro fuelW e l s s1 hw h
    cases fuelW with
    | zero => simp [qhHull.walkLoop] at hw
    | succ fuelW =>
      rw [qhHull.walkLoop] at hw
      rcases faceLoop_cases h with ⟨t, h1, hn, ht⟩ | ⟨t, h1, hn, ht⟩ | ⟨t, _, ht⟩ | ⟨_, ht⟩ |
        ⟨_, ht⟩
      · rw [if_pos hn] at hw
        injection hw with hw
        rw [← hw]
        simp only [stepEdges, h1]
        exact ht.symm
      · rw [if_neg hn] at hw
        cases hw2 : m.walkLoop first fuelW (m.halfEdge e).next with
        | none => simp [hw2] at hw
        | some l1 =>
          simp only [hw2, Option.map_some', Option.some.injEq] at hw
          rw [← hw]
          simp only [stepEdges, h1]
          exact ih _ _ _ _ _ hw2 ht.symm
      · simp at ht
      · simp at ht
      · simp at ht

theorem countLoop_of_walkLoop {m : qhHull} {first : Nat} :
    ∀ (fuel e c : Nat) (l : List Nat), m.walkLoop first fuel e = some l →
      m.countLoop first fuel e c = some (c + l.length) := by
  intro fuel
  induction fuel with
  | zero => intro e c l h; simp [qhHull.walkLoop] at h
  | succ fuel ih =>
    intro e c l h
    rw [qhHull.walkLoop] at h
    rw [qhHull.countLoop]
    by_cases hn : (m.halfEdge e).next = first
    · rw [if_pos hn] at h
      injection h with h
      rw [← h]
      simp [hn]
    · rw [if_neg hn] at h
      cases hw : m.walkLoop first fuel (m.halfEdge e).next with
      | none => simp [hw] at h
      | some l1 =>
        simp only [hw, Option.map_some', Option.some.injEq] at h
        rw [← h, if_pos hn, ih _ _ _ hw]
        simp only [List.length_cons]
        congr 1
        omega

theorem walkLoop_chain {m : qhHull} {first : Nat} :
    ∀ (fuel e : Nat) (l : List Nat), m.walkLoop first fuel e = some l →
      (∀ j, j < l.length → l.getD j 0 = (fun x => (m.halfEdge x).next)^[j] e) ∧
      (fun x => (m.halfEdge x).next)^[l.length] e = first := by
  intro fuel
  induction fuel with
  | zero => intro e l h; simp [qhHull.walkLoop] at h
  | succ fuel ih =>
    intro e l h
    rw [qhHull.walkLoop] at h
    by_cases hn : (m.halfEdge e).next = first
    · rw [if_pos hn] at h
      injection h with h
      rw [← h]
      refine ⟨?_, ?_⟩
      · intro j hj
        simp only [List.length_singleton] at hj
        have : j = 0 := by omega
        subst this
        rfl
      · simpa using hn
    · rw [if_neg hn] at h
      cases hw : m.walkLoop first fuel (m.halfEdge e).next with
      | none => simp [hw] at h
      | some l1 =>
        simp only [hw, Option.map_some', Option.some.injEq] at h
        obtain ⟨a, b⟩ := ih _ _ hw
        rw [← h]
        refine ⟨?_, ?_⟩
        · intro j hj
          cases j with
          | zero => rfl
          | succ j =>
            simp only [List.length_cons] at hj
            simp only [List.getD_cons_succ, Function.iterate_succ, Function.comp_apply]
            exact a j (by omega)
        · simp only [List.length_cons, Function.iterate_succ, Function.comp_apply]
          exact b

/-! ## The invariant along the flattening pass -/

theorem FlatInv_init (m : qhHull) (hull : b3QHull) : FlatInv m [] [] (flattenInit hull) :=
  ⟨VInv_init m hull, EInv_init m hull, rfl⟩

theorem EInv_resolveVertex {env : Env} {m : qhHull} {done : List (List Nat)} {cur : List Nat}
    {s s1 : FlatState} {v iv : Nat} (h : EInv m done cur s)
    (hr : resolveVertex env m s v = Exit.done (s1, iv)) : EInv m done cur s1 := by
  rcases resolveVertex_done hr with ⟨_, _, rfl, _⟩ | ⟨_, _, _, _, rfl⟩
  · exact h
  · exact EInv_addVertex v h

theorem FlatInv_edgeStep {env : Env} {m : qhHull} {done : List (List Nat)} {cur : List Nat}
    {s s1 : FlatState} {e : Nat}
    (hV : env.B3_MAX_HULL_VERTICES ≤ 256) (hE : env.B3_MAX_HULL_EDGES ≤ 256)
    (h : FlatInv m done cur s) (hnd : (done.flatten ++ cur ++ [e]).Nodup)
    (htt : (m.halfEdge (m.halfEdge e).twin).twin = e) (htne : (m.halfEdge e).twin ≠ e)
    (hstep : edgeStep env m s e = Exit.done s1) : FlatInv m done (cur ++ [e]) s1 := by
  obtain ⟨t1, iv1, t2, iv2, h1, h2, h3⟩ := edgeStep_done hstep
  obtain ⟨hv1, hp1, hi1, hm1, -⟩ := resolveVertex_spec hV h.vert h1
  obtain ⟨hv2, hp2, hi2, hm2, -⟩ := resolveVertex_spec hV hv1 h2
  have he1 : EInv m done cur t1 := EInv_resolveVertex h.edge h1
  have he2 : EInv m done cur t2 := EInv_resolveVertex he1 h2
  have hm12 : (m.halfEdge e).tail ∈ t2.vs.pointers := by
    rw [hp2]
    split
    · exact hm1
    · exact List.mem_append_left _ hm1
  have hi12 : iv1 = t2.vertexIndex (m.halfEdge e).tail := by
    show iv1 = t2.vs.pointers.indexOf _
    rw [hp2, hi1]
    split
    · rfl
    · rw [List.indexOf_append_of_mem hm1]
  have hseen : t2.vs.pointers = firstSeen (m.endPoints (done.flatten ++ (cur ++ [e]))) := by
    rw [← List.append_assoc, endPoints_append, firstSeen_append_pair, ← h.seen, hp2, hp1]
  have hfind := Find_of_indexed he2.es_indexed e
  rcases resolveEdge_done h3 with ⟨mte, hf, _, _, rfl⟩ | ⟨hf, hcap, _, _, rfl⟩
  · rw [hf] at hfind
    by_cases hmem : e ∈ t2.es.pointers
    · rw [if_pos hmem] at hfind
      injection hfind with hfind
      have hidx : mte.index = t2.edgeIndex e := by rw [hfind]
      rw [hidx]
      exact ⟨VInv_of_same hv2 rfl rfl rfl, EInv_markEdge he2 hmem hnd, hseen⟩
    · rw [if_neg hmem] at hfind
      exact absurd hfind (by simp)
  · rw [hf] at hfind
    by_cases hmem : e ∈ t2.es.pointers
    · rw [if_pos hmem] at hfind
      exact absurd hfind (by simp)
    · exact ⟨VInv_of_same hv2 rfl rfl rfl,
        EInv_addEdgePair hE he2 hmem htt htne hnd hcap ⟨hm12, hi12⟩ ⟨hm2, hi2⟩, hseen⟩

theorem FlatInv_stepEdges {env : Env} {m : qhHull} {done : List (List Nat)}
    (hV : env.B3_MAX_HULL_VERTICES ≤ 256) (hE : env.B3_MAX_HULL_EDGES ≤ 256) :
    ∀ (rest cur : List Nat) (s s1 : FlatState),
      FlatInv m done cur s → (done.flatten ++ cur ++ rest).Nodup →
      (∀ e ∈ rest, (m.halfEdge (m.halfEdge e).twin).twin = e ∧ (m.halfEdge e).twin ≠ e) →
      stepEdges env m rest s = Exit.done s1 → FlatInv m done (cur ++ rest) s1 := by
  intro rest
  induction rest with
  | nil =>
    intro cur s s1 h _ _ hs
    simp only [stepEdges] at hs
    injection hs with hs
    rw [← hs, List.append_nil]
    exact h
  | cons e rest ih =>
    intro cur s s1 h hnd htw hs
    rw [stepEdges] at hs
    cases hstep : edgeStep env m s e with
    | done t =>
      simp only [hstep] at hs
      have hnd1 : (done.flatten ++ cur ++ [e]).Nodup := by
        have : done.flatten ++ cur ++ (e :: rest) = (done.flatten ++ cur ++ [e]) ++ rest := by
          simp
        rw [this] at hnd
        exact (List.nodup_append.1 hnd).1
      have ht := FlatInv_edgeStep hV hE h hnd1 (htw e (by simp)).1 (htw e (by simp)).2 hstep
      have := ih (cur ++ [e]) t s1 ht (by simpa [List.append_assoc] using hnd)
        (fun x hx => htw x (List.mem_cons_of_mem _ hx)) hs
      simpa [List.append_assoc] using this
    | returned t => simp [hstep] at hs
    | assertion => simp [hstep] at hs
    | fuel => simp [hstep] at hs

theorem FlatInv_emitted {m : qhHull} {done : List (List Nat)} {cur : List Nat} {s : FlatState}
    (face : qhFace) (h : FlatInv m done cur s) (hcur : cur ≠ [])
    (hnd : (done.flatten ++ cur).Nodup) : FlatInv m (done ++ [cur]) [] (emitted face s) := by
  refine ⟨VInv_of_same h.vert rfl rfl rfl, EInv_emitted face h.edge hcur hnd, ?_⟩
  show s.vs.pointers = _
  rw [h.seen]
  simp

theorem FlatInv_flattenFaces {env : Env} {m : qhHull} {fuel fuelW : Nat}
    (hV : env.B3_MAX_HULL_VERTICES ≤ 256) (hE : env.B3_MAX_HULL_EDGES ≤ 256) :
    ∀ (faces : List qhFace) (loops done : List (List Nat)) (s s1 : FlatState),
      m.boundariesOf fuelW faces = some loops →
      FlatInv m done [] s → (done.flatten ++ loops.flatten).Nodup →
      (∀ e ∈ loops.flatten,
        (m.halfEdge (m.halfEdge e).twin).twin = e ∧ (m.halfEdge e).twin ≠ e) →
      flattenFaces env m fuel faces s = Exit.done s1 → FlatInv m (done ++ loops) [] s1 := by
  intro faces
  induction faces with
  | nil =>
    intro loops done s s1 hb h _ _ hs
    simp only [qhHull.boundariesOf, Option.some.injEq] at hb
    simp only [flattenFaces] at hs
    injection hs with hs
    rw [← hb, ← hs, List.append_nil]
    exact h
  | cons face rest ih =>
    intro loops done s s1 hb h hnd htw hs
    rw [qhHull.boundariesOf] at hb
    cases hw : m.walkLoop face.edge fuelW face.edge with
    | none => simp [hw] at hb
    | some l =>
      cases hbr : m.boundariesOf fuelW rest with
      | none => simp [hw, hbr] at hb
      | some ls =>
        simp only [hw, hbr, Option.some.injEq] at hb
        subst hb
        obtain ⟨t1, hl, -, hrest⟩ := flattenFaces_cons_done hs
        have hsteps := stepEdges_of_faceLoop _ _ _ _ _ _ hw hl
        have hlne : l ≠ [] := by
          intro hnil
          have := walkLoop_ne_nil _ _ _ hw
          rw [hnil] at this
          simp at this
        have hnd1 : (done.flatten ++ [] ++ l).Nodup := by
          simp only [List.flatten_cons, ← List.append_assoc] at hnd
          simpa using (List.nodup_append.1 hnd).1
        have ht1 := FlatInv_stepEdges hV hE l [] s t1 h hnd1
          (fun e he => htw e (by simp [he])) hsteps
        rw [List.nil_append] at ht1
        have ht2 := FlatInv_emitted face ht1 hlne (by simpa using hnd1)
        have := ih ls (done ++ [l]) _ s1 hbr ht2 (by simpa [List.append_assoc] using hnd)
          (fun e he => htw e (by simp [he])) hrest
        simpa [List.append_assoc] using this

/-- The invariant holds when the flattening pass completes on a well-formed mesh. -/
theorem FlatInv_flatten {env : Env} {m : qhHull} {fuel fuelW : Nat} {hull : b3QHull}
    {s : FlatState} {loops : List (List Nat)}
    (hV : env.B3_MAX_HULL_VERTICES ≤ 256) (hE : env.B3_MAX_HULL_EDGES ≤ 256)
    (hb : m.boundaries fuelW = some loops) (hwf : m.WellFormed loops)
    (h : flatten env m fuel hull = Exit.done s) : FlatInv m loops [] s := by
  have := FlatInv_flattenFaces hV hE m.GetFaceList.faces loops [] _ s hb (FlatInv_init m hull)
    (by simpa using hwf.1) hwf.2 h
  simpa using this

/-! ## C5: the face loops of the run-time hull -/

theorem boundariesOf_getElem {m : qhHull} {fuelW : Nat} :
    ∀ (faces : List qhFace) (loops : List (List Nat)),
      m.boundariesOf fuelW faces = some loops →
      loops.length = faces.length ∧
      ∀ (f : Nat) (face : qhFace), faces[f]? = some face →
        ∃ l, loops[f]? = some l ∧ m.walkLoop face.edge fuelW face.edge = some l := by
  intro faces
  induction faces with
  | nil =>
    intro loops hb
    simp only [qhHull.boundariesOf, Option.some.injEq] at hb
    subst hb
    exact ⟨rfl, fun f face hf => by simp at hf⟩
  | cons face rest ih =>
    intro loops hb
    rw [qhHull.boundariesOf] at hb
    cases hw : m.walkLoop face.edge fuelW face.edge with
    | none => simp [hw] at hb
    | some l =>
      cases hbr : m.boundariesOf fuelW rest with
      | none => simp [hw, hbr] at hb
      | some ls =>
        simp only [hw, hbr, Option.some.injEq] at hb
        subst hb
        obtain ⟨a, b⟩ := ih ls hbr
        refine ⟨by simp [a], ?_⟩
        intro f fc hf
        cases f with
        | zero =>
          simp only [List.getElem?_cons_zero, Option.some.injEq] at hf
          subst hf
          exact ⟨l, List.getElem?_cons_zero, hw⟩
        | succ f =>
          simp only [List.getElem?_cons_succ] at hf ⊢
          exact b f fc hf

theorem runtime_loop {m : qhHull} {loops : List (List Nat)} {s : FlatState}
    (h : FlatInv m loops [] s) (hnd : loops.flatten.Nodup) {f : Nat} {l : List Nat}
    (hl : loops[f]? = some l) :
    (∀ j, j < l.length →
      (fun i => (s.hull.edges i).next)^[j] (s.hull.faces f).edge = s.edgeIndex (l.getD j 0)) ∧
    (fun i => (s.hull.edges i).next)^[l.length] (s.hull.faces f).edge = (s.hull.faces f).edge ∧
    (∀ j, 0 < j → j < l.length →
      (fun i => (s.hull.edges i).next)^[j] (s.hull.faces f).edge ≠ (s.hull.faces f).edge) := by
  have hlne : l ≠ [] := h.edge.done_nonempty l (List.getElem?_mem hl)
  have hpos : 0 < l.length := List.length_pos.2 hlne
  have hiter : ∀ j, j < l.length →
      (fun i => (s.hull.edges i).next)^[j] (s.hull.faces f).edge = s.edgeIndex (l.getD j 0) := by
    intro j
    induction j with
    | zero =>
      intro _
      exact h.edge.face_edge f l hl
    | succ j ih =>
      intro hj
      rw [Function.iterate_succ_apply', ih (by omega)]
      have := h.edge.edge_next f l hl j (by omega)
      rw [Nat.mod_eq_of_lt hj] at this
      exact this
  have hmemP : ∀ j, j < l.length → l.getD j 0 ∈ s.es.pointers := by
    intro j hj
    rw [List.getD_eq_getElem _ _ hj]
    apply h.edge.visited_mem
    rw [List.append_nil]
    exact List.mem_flatten.2 ⟨l, List.getElem?_mem hl, List.getElem_mem _⟩
  have hlnd : l.Nodup := by
    have hsub : l.Sublist loops.flatten := List.sublist_flatten_of_mem (List.getElem?_mem hl)
    exact hsub.nodup hnd
  refine ⟨hiter, ?_, ?_⟩
  · have hlast : l.length - 1 + 1 = l.length := by omega
    rw [← hlast, Function.iterate_succ_apply', hiter _ (by omega)]
    have := h.edge.edge_next f l hl (l.length - 1) (by omega)
    rw [hlast, Nat.mod_self] at this
    rw [this]
    exact (h.edge.face_edge f l hl).symm
  · intro j hj0 hj hEq
    rw [hiter j hj, h.edge.face_edge f l hl] at hEq
    have h1 := (List.indexOf_inj (hmemP j hj) (hmemP 0 hpos)).1 hEq
    rw [List.getD_eq_getElem _ _ hj, List.getD_eq_getElem _ _ hpos] at h1
    have := (List.Nodup.getElem_inj_iff hlnd).1 h1
    omega

/-- C5: on a well-formed construction mesh on which the flattening pass completes, for the
`f`-th face of the face list, with boundary half-edges `l` walked from `face->edge` along
`next` (`k` of them, `k = GetEdgeCount() = GetVertexCount()`), `f` is a run-time face and
following `edges[.].next` from `faces[f].edge`: the `j`-th half-edge met (`j < k`) is the
run-time index that the map `es` gives to the `j`-th boundary half-edge, and its face field is
`f`; the walk is back at `faces[f].edge` after `k` steps and not before.
The capacities are byte-sized. -/
theorem C5_runtime_face_loops (env : Env) (m : qhHull) (fuel fuelW : Nat) (hull : b3QHull)
    (s : FlatState) (loops : List (List Nat))
    (hbyte : env.ByteSized)
    (hb : m.boundaries fuelW = some loops) (hwf : m.WellFormed loops)
    (h : flatten env m fuel hull = Exit.done s) :
    ∀ (f : Nat) (face : qhFace), m.GetFaceList.faces[f]? = some face →
      ∃ l, loops[f]? = some l ∧ f < s.hull.faceCount ∧
        face.GetEdgeCount m fuelW = some l.length ∧
        face.GetVertexCount m fuelW = some l.length ∧
        (∀ j, j < l.length → l.getD j 0 = (fun e => (m.halfEdge e).next)^[j] face.edge) ∧
        (∀ j, j < l.length →
          s.es.Find (l.getD j 0) =
            some ⟨l.getD j 0, (fun i => (s.hull.edges i).next)^[j] (s.hull.faces f).edge⟩ ∧
          (s.hull.edges ((fun i => (s.hull.edges i).next)^[j] (s.hull.faces f).edge)).face
            = f) ∧
        (fun i => (s.hull.edges i).next)^[l.length] (s.hull.faces f).edge
          = (s.hull.faces f).edge ∧
        (∀ j, 0 < j → j < l.length →
          (fun i => (s.hull.edges i).next)^[j] (s.hull.faces f).edge
            ≠ (s.hull.faces f).edge) := by
  intro f face hf
  have hinv := FlatInv_flatten hbyte.1 hbyte.2 hb hwf h
  obtain ⟨hlen, hget⟩ := boundariesOf_getElem _ _ hb
  obtain ⟨l, hl, hw⟩ := hget f face hf
  obtain ⟨hiter, hback, hnot⟩ := runtime_loop hinv hwf.1 hl
  have hcount := countLoop_of_walkLoop _ _ 0 _ hw
  rw [Nat.zero_add] at hcount
  have hflt : f < loops.length := by
    by_contra hge
    rw [List.getElem?_eq_none (by omega)] at hl
    exact absurd hl (by simp)
  refine ⟨l, hl, ?_, hcount, hcount, (walkLoop_chain _ _ _ hw).1, ?_, hback, hnot⟩
  · rw [hinv.edge.face_count]
    exact hflt
  · intro j hj
    have hmem : l.getD j 0 ∈ s.es.pointers := by
      rw [List.getD_eq_getElem _ _ hj]
      apply hinv.edge.visited_mem
      rw [List.append_nil]
      exact List.mem_flatten.2 ⟨l, List.getElem?_mem hl, List.getElem_mem _⟩
    rw [hiter j hj]
    refine ⟨?_, ?_⟩
    · rw [Find_of_indexed hinv.edge.es_indexed, if_pos hmem]
    · apply hinv.edge.face_done f l hl
      rw [List.getD_eq_getElem _ _ hj]
      exact List.getElem_mem _

theorem tetra_flatten : flatten tetraEnv tetra 10 usedHull = Exit.done tetraFlat :=
  Exit.eq_done_of_isDone (flattenInit usedHull) (by decide!)

theorem tetraEnv_byteSized : tetraEnv.ByteSized := ⟨by decide, by decide⟩

theorem tetra_boundaries : tetra.boundaries 10 = some tetraLoops := by decide!

theorem tetra_wellFormed : tetra.WellFormed tetraLoops := by
  unfold qhHull.WellFormed
  decide!

theorem tetra_closed : tetra.Closed tetraLoops := by
  unfold qhHull.Closed
  decide!

/-- C5 on the tetrahedron: its fourth face is a run-time face, and three steps along `next`
from its representative half-edge lead back to it. -/
theorem C5_runtime_face_loops_witness :
    3 < tetraFlat.hull.faceCount ∧
    (fun i => (tetraFlat.hull.edges i).next)^[3] (tetraFlat.hull.faces 3).edge =
      (tetraFlat.hull.faces 3).edge := by
  obtain ⟨l, hl, hlt, -, -, -, -, hback, -⟩ :=
    C5_runtime_face_loops tetraEnv tetra 10 10 usedHull tetraFlat tetraLoops
      tetraEnv_byteSized tetra_boundaries tetra_wellFormed tetra_flatten 3
      ⟨9, ⟨2 / 3, 1 / 3, 1 / 3⟩, ⟨⟨1 / 3, 2 / 3, 2 / 3⟩, 2 / 3⟩⟩ rfl
  have hl3 : l = [9, 10, 11] := by
    have : tetraLoops[3]? = some [9, 10, 11] := rfl
    rw [this] at hl
    injection hl with hl
    exact hl.symm
  rw [hl3] at hback
  exact ⟨hlt, hback⟩

/-! ## C6: index validity -/

theorem mem_foldl_firstSeen (l acc : List Nat) (v : Nat) :
    v ∈ l.foldl (fun acc v => if v ∈ acc then acc else acc ++ [v]) acc ↔ v ∈ acc ∨ v ∈ l := by
  induction l generalizing acc with
  | nil => simp
  | cons a l ih =>
    rw [List.foldl_cons, ih]
    by_cases ha : a ∈ acc
    · rw [if_pos ha]
      constructor
      · rintro (h | h)
        · exact Or.inl h
        · exact Or.inr (List.mem_cons_of_mem _ h)
      · rintro (h | h)
        · exact Or.inl h
        · rcases List.mem_cons.1 h with rfl | h
          · exact Or.inl ha
          · exact Or.inr h
    · rw [if_neg ha]
      constructor
      · rintro (h | h)
        · rcases List.mem_append.1 h with h | h
          · exact Or.inl h
          · rw [List.mem_singleton] at h
            exact Or.inr (h ▸ List.mem_cons_self _ _)
        · exact Or.inr (List.mem_cons_of_mem _ h)
      · rintro (h | h)
        · exact Or.inl (List.mem_append_left _ h)
        · rcases List.mem_cons.1 h with rfl | h
          · exact Or.inl (List.mem_append_right _ (List.mem_singleton_self _))
          · exact Or.inr h

theorem mem_firstSeen (l : List Nat) (v : Nat) : v ∈ firstSeen l ↔ v ∈ l := by
  unfold firstSeen
  rw [mem_foldl_firstSeen]
  simp

theorem mem_endPoints (m : qhHull) (l : List Nat) (v : Nat) :
    v ∈ m.endPoints l ↔
      ∃ e ∈ l, v = (m.halfEdge e).tail ∨ v = (m.halfEdge (m.halfEdge e).twin).tail := by
  simp [qhHull.endPoints]

/-- At the end of the pass on a closed well-formed mesh the map `es` holds the half-edges of
the boundary loops and no other. -/
theorem es_pointers_subset {m : qhHull} {loops : List (List Nat)} {s : FlatState}
    (h : FlatInv m loops [] s) (hcl : m.Closed loops) :
    ∀ p ∈ s.es.pointers, p ∈ loops.flatten := by
  intro p hp
  rcases h.edge.es_source p hp with hs | hs
  · simpa using hs
  · have ht := hcl _ (by simpa using hs)
    rw [(h.edge.es_closed p hp).2] at ht
    exact ht

theorem counts_bound {m : qhHull} {loops : List (List Nat)} {s : FlatState}
    (h : FlatInv m loops [] s) (hnd : loops.flatten.Nodup) :
    s.hull.vertexCount ≤ s.hull.edgeCount ∧ s.hull.faceCount ≤ s.hull.edgeCount ∧
      s.hull.edgeCount ≤ 255 := by
  refine ⟨?_, ?_, h.edge.es_bound⟩
  · rw [h.vert.vs_count, h.edge.es_count]
    have hsub : s.vs.pointers ⊆ s.es.pointers.map (fun p => (m.halfEdge p).tail) := by
      intro v hv
      rw [h.seen, mem_firstSeen, mem_endPoints] at hv
      obtain ⟨e, he, hve⟩ := hv
      have heP := h.edge.visited_mem e he
      rcases hve with rfl | rfl
      · exact List.mem_map.2 ⟨e, heP, rfl⟩
      · exact List.mem_map.2 ⟨_, (h.edge.es_closed e heP).1, rfl⟩
    have := (List.Nodup.subperm h.vert.vs_nodup hsub).length_le
    rwa [List.length_map] at this
  · rw [h.edge.face_count, h.edge.es_count]
    have h1 := length_le_flatten loops h.edge.done_nonempty
    have h2 := (List.Nodup.subperm hnd
      (fun x hx => h.edge.visited_mem x (by simpa using hx))).length_le
    omega

/-- C6: on a well-formed closed construction mesh on which the flattening pass completes,
every half-edge `i < edgeCount` has `origin < vertexCount`, `twin < edgeCount`,
`next < edgeCount` and `face < faceCount`, so its face is not `B3_NULL_HULL_FEATURE`; every
face `f < faceCount` has `faces[f].edge < edgeCount`; and the three counts are at most 255, so
that no index below a count equals the sentinel. The capacities are byte-sized. -/
theorem C6_index_validity (env : Env) (m : qhHull) (fuel fuelW : Nat) (hull : b3QHull)
    (s : FlatState) (loops : List (List Nat))
    (hbyte : env.ByteSized)
    (hb : m.boundaries fuelW = some loops) (hwf : m.WellFormed loops) (hcl : m.Closed loops)
    (h : flatten env m fuel hull = Exit.done s) :
    (∀ i, i < s.hull.edgeCount →
      (s.hull.edges i).origin < s.hull.vertexCount ∧
      (s.hull.edges i).twin < s.hull.edgeCount ∧
      (s.hull.edges i).next < s.hull.edgeCount ∧
      (s.hull.edges i).face < s.hull.faceCount ∧
      (s.hull.edges i).face ≠ B3_NULL_HULL_FEATURE) ∧
    (∀ f, f < s.hull.faceCount → (s.hull.faces f).edge < s.hull.edgeCount) ∧
    s.hull.vertexCount ≤ 255 ∧ s.hull.edgeCount ≤ 255 ∧ s.hull.faceCount ≤ 255 := by
  have hinv := FlatInv_flatten hbyte.1 hbyte.2 hb hwf h
  obtain ⟨hvc, hfc, hec⟩ := counts_bound hinv hwf.1
  have hidx : ∀ p ∈ s.es.pointers, s.edgeIndex p < s.hull.edgeCount := by
    intro p hp
    rw [hinv.edge.es_count]
    exact List.indexOf_lt_length.2 hp
  have hloopP : ∀ (f : Nat) (l : List Nat), loops[f]? = some l → ∀ j, j < l.length →
      l.getD j 0 ∈ s.es.pointers := by
    intro f l hl j hj
    rw [List.getD_eq_getElem _ _ hj]
    apply hinv.edge.visited_mem
    rw [List.append_nil]
    exact List.mem_flatten.2 ⟨l, List.getElem?_mem hl, List.getElem_mem _⟩
  refine ⟨?_, ?_, by omega, hec, by omega⟩
  · intro i hi
    have hiP : i < s.es.pointers.length := by rw [← hinv.edge.es_count]; exact hi
    have hp : s.es.pointers[i] ∈ s.es.pointers := List.getElem_mem _
    have hpi : s.edgeIndex s.es.pointers[i] = i := List.indexOf_getElem hinv.edge.es_nodup i hiP
    obtain ⟨l, hlmem, hpl⟩ := List.mem_flatten.1 (es_pointers_subset hinv hcl _ hp)
    obtain ⟨f, hf⟩ := List.getElem?_of_mem hlmem
    obtain ⟨j, hj, hjp⟩ := List.mem_iff_getElem.1 hpl
    have hflt : f < loops.length := by
      by_contra hge
      rw [List.getElem?_eq_none (by omega)] at hf
      exact absurd hf (by simp)
    have hface : (s.hull.edges i).face = f := by
      have := hinv.edge.face_done f l hf _ hpl
      rwa [hpi] at this
    have hnext : (s.hull.edges i).next =
        s.edgeIndex (l.getD ((j + 1) % l.length) 0) := by
      have := hinv.edge.edge_next f l hf j hj
      rwa [List.getD_eq_getElem _ _ hj, hjp, hpi] at this
    have horigin := hinv.edge.edge_origin _ hp
    have htwin := hinv.edge.edge_twin _ hp
    rw [hpi] at horigin htwin
    refine ⟨?_, ?_, ?_, ?_, ?_⟩
    · rw [horigin.2, hinv.vert.vs_count]
      exact List.indexOf_lt_length.2 horigin.1
    · rw [htwin]
      exact hidx _ (hinv.edge.es_closed _ hp).1
    · rw [hnext]
      exact hidx _ (hloopP f l hf _ (Nat.mod_lt _ (by omega)))
    · rw [hface, hinv.edge.face_count]
      exact hflt
    · rw [hface]
      have : s.hull.faceCount = loops.length := hinv.edge.face_count
      show f ≠ 255
      omega
  · intro f hf
    rw [hinv.edge.face_count] at hf
    have hl : loops[f]? = some loops[f] := List.getElem?_eq_getElem hf
    rw [hinv.edge.face_edge f _ hl]
    have hne := hinv.edge.done_nonempty _ (List.getElem_mem hf)
    exact hidx _ (hloopP f _ hl 0 (List.length_pos.2 hne))

/-- C6 on the tetrahedron: every half-edge has a face below `faceCount`. -/
theorem C6_index_validity_witness :
    tetraFlat.hull.edgeCount = 12 ∧
    ∀ i, i < tetraFlat.hull.edgeCount →
      (tetraFlat.hull.edges i).face < tetraFlat.hull.faceCount :=
  ⟨by decide!, fun i hi =>
    ((C6_index_validity tetraEnv tetra 10 10 usedHull tetraFlat tetraLoops
      tetraEnv_byteSized tetra_boundaries tetra_wellFormed tetra_closed tetra_flatten).1 i hi).2.2.2.1⟩

/-! ## C9: vertex compaction -/

theorem Find_eq_some_iff {mp : b3PIMap} (h : mp.pis = indexed 0 mp.pointers) (p k : Nat) :
    mp.Find p = some ⟨p, k⟩ ↔ p ∈ mp.pointers ∧ k = mp.pointers.indexOf p := by
  rw [Find_of_indexed h]
  by_cases hp : p ∈ mp.pointers
  · rw [if_pos hp]
    constructor
    · intro hEq
      injection hEq with hEq
      injection hEq with _ hk
      exact ⟨hp, hk.symm⟩
    · rintro ⟨_, hk⟩
      rw [hk]
  · rw [if_neg hp]
    constructor
    · intro hEq
      exact absurd hEq (by simp)
    · rintro ⟨hp2, _⟩
      exact absurd hp2 hp

theorem Find_bijection {mp : b3PIMap} (h : mp.pis = indexed 0 mp.pointers)
    (hnd : mp.pointers.Nodup) :
    (∀ p ∈ mp.pointers, ∃ k, k < mp.pointers.length ∧ mp.Find p = some ⟨p, k⟩) ∧
    (∀ k, k < mp.pointers.length → ∃ p ∈ mp.pointers, mp.Find p = some ⟨p, k⟩) ∧
    (∀ p q k, mp.Find p = some ⟨p, k⟩ → mp.Find q = some ⟨q, k⟩ → p = q) := by
  refine ⟨?_, ?_, ?_⟩
  · intro p hp
    exact ⟨_, List.indexOf_lt_length.2 hp, (Find_eq_some_iff h p _).2 ⟨hp, rfl⟩⟩
  · intro k hk
    refine ⟨mp.pointers[k], List.getElem_mem _, ?_⟩
    exact (Find_eq_some_iff h _ _).2 ⟨List.getElem_mem _, (List.indexOf_getElem hnd k hk).symm⟩
  · intro p q k hp hq
    obtain ⟨hp1, hp2⟩ := (Find_eq_some_iff h p k).1 hp
    obtain ⟨hq1, hq2⟩ := (Find_eq_some_iff h q k).1 hq
    exact (List.indexOf_inj hp1 hq1).1 (hp2.symm.trans hq2)

/-- C9: on a well-formed construction mesh on which the flattening pass completes, the map
`vs` holds, without repetition and numbered `0, 1, ...` in the order of first sight, the
vertices that are an end point of a boundary half-edge of a live face; looking a vertex up
is a bijection between these vertices and `[0, vertexCount)`; `vertices[index(v)]` is the
position of `v`; the run-time half-edge created for the construction half-edge `e` has
`origin == index(e.tail)`, and every run-time half-edge is created for one; so two half-edges
with the same tail have the same origin. The capacities are byte-sized. -/
theorem C9_vertex_compaction (env : Env) (m : qhHull) (fuel fuelW : Nat) (hull : b3QHull)
    (s : FlatState) (loops : List (List Nat))
    (hbyte : env.ByteSized)
    (hb : m.boundaries fuelW = some loops) (hwf : m.WellFormed loops)
    (h : flatten env m fuel hull = Exit.done s) :
    (s.vs.pis = indexed 0 s.vs.pointers ∧ s.vs.pointers.Nodup ∧
      s.vs.pointers.length = s.hull.vertexCount) ∧
    s.vs.pointers = firstSeen (m.endPoints loops.flatten) ∧
    (∀ v, v ∈ s.vs.pointers ↔
      ∃ e ∈ loops.flatten,
        v = (m.halfEdge e).tail ∨ v = (m.halfEdge (m.halfEdge e).twin).tail) ∧
    (∀ v ∈ s.vs.pointers, ∃ k, k < s.hull.vertexCount ∧ s.vs.Find v = some ⟨v, k⟩ ∧
      s.hull.vertices k = (m.vertex v).position) ∧
    (∀ k, k < s.hull.vertexCount → ∃ v ∈ s.vs.pointers, s.vs.Find v = some ⟨v, k⟩) ∧
    (∀ v w k, s.vs.Find v = some ⟨v, k⟩ → s.vs.Find w = some ⟨w, k⟩ → v = w) ∧
    (∀ e ∈ s.es.pointers, ∃ i k, i < s.hull.edgeCount ∧ s.es.Find e = some ⟨e, i⟩ ∧
      s.vs.Find (m.halfEdge e).tail = some ⟨(m.halfEdge e).tail, k⟩ ∧
      (s.hull.edges i).origin = k) ∧
    (∀ i, i < s.hull.edgeCount → ∃ e ∈ s.es.pointers, s.es.Find e = some ⟨e, i⟩) ∧
    (∀ e1 e2 i1 i2, s.es.Find e1 = some ⟨e1, i1⟩ → s.es.Find e2 = some ⟨e2, i2⟩ →
      (m.halfEdge e1).tail = (m.halfEdge e2).tail →
      (s.hull.edges i1).origin = (s.hull.edges i2).origin) := by
  have hinv := FlatInv_flatten hbyte.1 hbyte.2 hb hwf h
  obtain ⟨hv1, hv2, hv3⟩ := Find_bijection hinv.vert.vs_indexed hinv.vert.vs_nodup
  obtain ⟨he1, he2, -⟩ := Find_bijection hinv.edge.es_indexed hinv.edge.es_nodup
  have hseen : s.vs.pointers = firstSeen (m.endPoints loops.flatten) := by
    have := hinv.seen
    rwa [List.append_nil] at this
  have horigin : ∀ e i, s.es.Find e = some ⟨e, i⟩ →
      (s.hull.edges i).origin = s.vertexIndex (m.halfEdge e).tail := by
    intro e i hf
    obtain ⟨hm, hi⟩ := (Find_eq_some_iff hinv.edge.es_indexed e i).1 hf
    rw [hi]
    exact (hinv.edge.edge_origin e hm).2
  refine ⟨⟨hinv.vert.vs_indexed, hinv.vert.vs_nodup, hinv.vert.vs_count.symm⟩, hseen, ?_, ?_,
    ?_, hv3, ?_, ?_, ?_⟩
  · intro v
    rw [hseen, mem_firstSeen, mem_endPoints]
  · intro v hv
    refine ⟨s.vertexIndex v, ?_, ?_, hinv.vert.vs_pos v hv⟩
    · rw [hinv.vert.vs_count]
      exact List.indexOf_lt_length.2 hv
    · exact (Find_eq_some_iff hinv.vert.vs_indexed v _).2 ⟨hv, rfl⟩
  · intro k hk
    rw [hinv.vert.vs_count] at hk
    exact hv2 k hk
  · intro e he
    obtain ⟨hm, ho⟩ := hinv.edge.edge_origin e he
    refine ⟨s.edgeIndex e, s.vertexIndex (m.halfEdge e).tail, ?_, ?_, ?_, ho⟩
    · rw [hinv.edge.es_count]
      exact List.indexOf_lt_length.2 he
    · exact (Find_eq_some_iff hinv.edge.es_indexed e _).2 ⟨he, rfl⟩
    · exact (Find_eq_some_iff hinv.vert.vs_indexed _ _).2 ⟨hm, rfl⟩
  · intro i hi
    rw [hinv.edge.es_count] at hi
    exact he2 i hi
  · intro e1 e2 i1 i2 h1 h2 ht
    rw [horigin e1 i1 h1, horigin e2 i2 h2, ht]

/-- C9 on the tetrahedron: four vertices, and the vertex of index 1 is the tail of the second
half-edge of the first face. -/
theorem C9_vertex_compaction_witness :
    tetraFlat.vs.pointers.length = tetraFlat.hull.vertexCount ∧
    tetraFlat.vs.pointers = firstSeen (tetra.endPoints tetraLoops.flatten) ∧
    tetraFlat.hull.vertexCount = 4 ∧
    tetraFlat.vs.Find 2 = some ⟨2, 1⟩ :=
  ⟨(C9_vertex_compaction tetraEnv tetra 10 10 usedHull tetraFlat tetraLoops
      tetraEnv_byteSized tetra_boundaries tetra_wellFormed tetra_flatten).1.2.2,
   (C9_vertex_compaction tetraEnv tetra 10 10 usedHull tetraFlat tetraLoops
      tetraEnv_byteSized tetra_boundaries tetra_wellFormed tetra_flatten).2.1,
   by decide!, by decide!⟩

/-! ## C1: convexity of the published hull -/

/-- A property kept by the steps for reachable half-edges holds when a face walk ends. -/
theorem faceLoop_induct_reachable {env : Env} {m : qhHull} {first : Nat}
    (P : FlatState → Prop)
    (hstep : ∀ s edge s1, m.Reachable edge → P s → edgeStep env m s edge = Exit.done s1 → P s1) :
    ∀ (fuel edge : Nat) (s s1 : FlatState), m.Reachable edge →
      P s → faceLoop env m first fuel edge s = Exit.done s1 → P s1 := by
  intro fuel
  induction fuel with
  | zero => intro edge s s1 _ _ h; simp [faceLoop] at h
  | succ fuel ih =>
    intro edge s s1 hr hP h
    rcases faceLoop_cases h with ⟨t, h1, _, ht⟩ | ⟨t, h1, _, ht⟩ | ⟨t, _, ht⟩ | ⟨_, ht⟩ | ⟨_, ht⟩
    · injection ht with ht
      rw [ht]
      exact hstep _ _ _ hr hP h1
    · exact ih _ _ _ (qhHull.Reachable.next edge hr) (hstep _ _ _ hr hP h1) ht.symm
    · simp at ht
    · simp at ht
    · simp at ht

theorem flattenFaces_induct_reachable {env : Env} {m : qhHull} {fuel : Nat}
    (P : FlatState → Prop)
    (hstep : ∀ s edge s1, m.Reachable edge → P s → edgeStep env m s edge = Exit.done s1 → P s1)
    (hemit : ∀ face s, P s → P (emitted face s)) :
    ∀ (faces : List qhFace) (s s1 : FlatState), (∀ f ∈ faces, f ∈ m.GetFaceList.faces) →
      P s → flattenFaces env m fuel faces s = Exit.done s1 → P s1 := by
  intro faces
  induction faces with
  | nil =>
    intro s s1 _ hP h
    simp only [flattenFaces] at h
    injection h with h
    rw [← h]
    exact hP
  | cons face rest ih =>
    intro s s1 hsub hP h
    obtain ⟨t1, h1, -, h3⟩ := flattenFaces_cons_done h
    have hr : m.Reachable face.edge := qhHull.Reachable.face face (hsub face (by simp))
    exact ih _ _ (fun f hf => hsub f (List.mem_cons_of_mem _ hf))
      (hemit _ _ (faceLoop_induct_reachable P hstep _ _ _ _ hr hP h1)) h3

/-- Every vertex written by the pass is the position of the tail of a reachable half-edge. -/
theorem vertices_reachable {env : Env} {m : qhHull} {fuel : Nat} {hull : b3QHull}
    {s : FlatState} (h : flatten env m fuel hull = Exit.done s) :
    ∀ k, k < s.hull.vertexCount →
      ∃ e, m.Reachable e ∧ s.hull.vertices k = (m.vertex (m.halfEdge e).tail).position := by
  refine flattenFaces_induct_reachable
    (fun t => ∀ k, k < t.hull.vertexCount →
      ∃ e, m.Reachable e ∧ t.hull.vertices k = (m.vertex (m.halfEdge e).tail).position)
    ?_ ?_ _ _ _ (fun f hf => hf) ?_ h
  · intro t edge t3 hr hP hstep
    obtain ⟨t1, iv1, t2, iv2, h1, h2, h3⟩ := edgeStep_done hstep
    have key : ∀ (a b : FlatState) (e iv : Nat), m.Reachable e →
        (∀ k, k < a.hull.vertexCount →
          ∃ e, m.Reachable e ∧ a.hull.vertices k = (m.vertex (m.halfEdge e).tail).position) →
        resolveVertex env m a (m.halfEdge e).tail = Exit.done (b, iv) →
        ∀ k, k < b.hull.vertexCount →
          ∃ e, m.Reachable e ∧ b.hull.vertices k = (m.vertex (m.halfEdge e).tail).position := by
      intro a b e iv hre ha hres
      rcases resolveVertex_done hres with ⟨_, _, rfl, _⟩ | ⟨_, _, _, _, rfl⟩
      · exact ha
      · intro k hk
        by_cases hkl : k = a.hull.vertexCount
        · refine ⟨e, hre, ?_⟩
          rw [hkl]
          simp only [addVertex, upd_same]
        · have hk2 : k < a.hull.vertexCount := by
            have : k < a.hull.vertexCount + 1 := hk
            omega
          obtain ⟨e2, hr2, he2⟩ := ha k hk2
          refine ⟨e2, hr2, ?_⟩
          simp only [addVertex, upd_other _ _ _ _ hkl]
          exact he2
    have p1 := key t t1 edge iv1 hr hP h1
    have p2 := key t1 t2 _ iv2 (qhHull.Reachable.twin edge hr) p1 h2
    rcases resolveEdge_done h3 with ⟨_, _, _, _, rfl⟩ | ⟨_, _, _, _, rfl⟩
    · exact p2
    · exact p2
  · intro face t hP
    exact hP
  · intro k hk
    exact absurd hk (by simp [flattenInit, b3QHull.resetCounts])

/-- C1: with `qhHull::Construct` meeting its contract of section 4.3 for the unique points of
the input (`ConstructSpec`, tolerance `tol`), every hull that `Set` publishes is convex: each of
its vertices lies on or behind each of its face planes within `tol`. `Set` publishes a hull only
for an input with at least four unique points whose mesh fits the capacities. -/
theorem C1_published_hull_convex (env : Env) (tol : ℚ) (fuel : Nat) (points : List b3Vec3)
    (hull h : b3QHull)
    (hc : ConstructSpec tol (uniquePoints env points) (env.Construct (uniquePoints env points)))
    (hs : b3QHull.Set env fuel points hull = Exit.done h) :
    h.Convex tol ∧ 4 ≤ (uniquePoints env points).length ∧
    h.faceCount = (env.Construct (uniquePoints env points)).GetFaceList.faces.length := by
  obtain ⟨s, c, hfl, -, h4, rfl⟩ := Set_done hs
  obtain ⟨hcount, -, hplanes⟩ := flattenFaces_planes _ _ _ hfl
  have hfc : s.hull.faceCount =
      (env.Construct (uniquePoints env points)).GetFaceList.faces.length := by
    rw [hcount]
    simp [flattenInit, b3QHull.resetCounts]
  refine ⟨?_, h4, hfc⟩
  intro i hi f hf
  obtain ⟨e, hr, hv⟩ := vertices_reachable hfl i hi
  have hf2 : f < (env.Construct (uniquePoints env points)).GetFaceList.faces.length := by
    rw [← hfc]
    exact hf
  have hp := hplanes f _ (List.getElem?_eq_getElem hf2)
  simp only [flattenInit, b3QHull.resetCounts, Nat.zero_add] at hp
  show b3Distance (s.hull.vertices i) (s.hull.planes f) ≤ tol
  rw [hv, hp]
  exact hc.1 _ (List.getElem_mem _) _ (hc.2 e hr)

theorem tetra_reachable_lt : ∀ e, tetra.Reachable e → e < 12 := by
  intro e he
  induction he with
  | face f hf =>
    have : ∀ f ∈ tetraFaces, f.edge < 12 := by decide!
    exact this f hf
  | next e _ ih =>
    have : ∀ e, e < 12 → (tetra.halfEdge e).next < 12 := by decide!
    exact this e ih
  | twin e _ ih =>
    have : ∀ e, e < 12 → (tetra.halfEdge e).twin < 12 := by decide!
    exact this e ih

theorem tetra_constructSpec :
    ConstructSpec 0 (uniquePoints tetraEnv tetraPoints)
      (tetraEnv.Construct (uniquePoints tetraEnv tetraPoints)) := by
  have hu : uniquePoints tetraEnv tetraPoints = tetraPoints := by decide!
  rw [hu]
  refine ⟨?_, ?_⟩
  · show ∀ face ∈ tetraFaces, ∀ p ∈ tetraPoints, b3Distance p face.plane ≤ 0
    decide!
  · intro e he
    have : ∀ e, e < 12 → (tetra.vertex (tetra.halfEdge e).tail).position ∈ tetraPoints := by
      decide!
    exact this e (tetra_reachable_lt e he)

/-- C1 on the tetrahedron, with tolerance zero: `Set` publishes a hull, and it is convex. -/
theorem C1_published_hull_convex_witness :
    (b3QHull.Set tetraEnv 10 tetraPoints usedHull).isDone = true ∧
    (getDone (b3QHull.Set tetraEnv 10 tetraPoints usedHull) usedHull).Convex 0 :=
  ⟨by decide!,
   (C1_published_hull_convex tetraEnv 0 10 tetraPoints usedHull _ tetra_constructSpec
      (Exit.eq_done_of_isDone usedHull (by decide!))).1⟩

/-! ## C13: the buffer size -/

theorem addSize_eq (sz : Sizes) (h32 : 32 ≤ sz.sizeT) (size n bytes : Nat) :
    addSize sz size n bytes = (size + n * bytes) % 2 ^ 32 := by
  have hdvd : (2 ^ 32 : ℕ) ∣ 2 ^ sz.sizeT := pow_dvd_pow 2 h32
  unfold addSize
  rw [Nat.mod_mod_of_dvd _ hdvd, Nat.add_mod, Nat.mod_mod_of_dvd _ hdvd, ← Nat.add_mod]

theorem wrapHE_modEq (V : Nat) :
    (((2 * (((3 * V) % 2 ^ 32 + (2 ^ 32 - 6)) % 2 ^ 32)) % 2 ^ 32 : ℕ) : ℤ) ≡
      2 * (3 * (V : ℤ) - 6) [ZMOD (2 ^ 32 : ℤ)] := by
  unfold Int.ModEq
  omega

theorem wrapF_modEq (V : Nat) :
    ((((2 * V) % 2 ^ 32 + (2 ^ 32 - 4)) % 2 ^ 32 : ℕ) : ℤ) ≡ 2 * (V : ℤ) - 4
      [ZMOD (2 ^ 32 : ℤ)] := by
  unfold Int.ModEq
  omega

theorem sum_modEq (sV sE sF pE pF V HE F : ℕ) (hHE : (HE : ℤ) ≡ 2 * (3 * (V : ℤ) - 6)
    [ZMOD (2 ^ 32 : ℤ)]) (hF : (F : ℤ) ≡ 2 * (V : ℤ) - 4 [ZMOD (2 ^ 32 : ℤ)]) :
    (((0 + V * sV + HE * sE + F * sF + HE * sE + F * sF + HE * pE + HE * pF) % 2 ^ 32 : ℕ) : ℤ)
      ≡ (V : ℤ) * sV + 2 * (2 * (3 * (V : ℤ) - 6)) * sE + 2 * (2 * (V : ℤ) - 4) * sF +
        (2 * (3 * (V : ℤ) - 6)) * pE + (2 * (3 * (V : ℤ) - 6)) * pF [ZMOD (2 ^ 32 : ℤ)] := by
  have e1 := hHE.mul_right (sE : ℤ)
  have e2 := hF.mul_right (sF : ℤ)
  have e3 := hHE.mul_right (pE : ℤ)
  have e4 := hHE.mul_right (pF : ℤ)
  have hsum := ((((((Int.ModEq.refl ((V : ℤ) * sV)).add e1).add e2).add e1).add e2).add e3).add e4
  have hcast : (((0 + V * sV + HE * sE + F * sF + HE * sE + F * sF + HE * pE + HE * pF) % 2 ^ 32
      : ℕ) : ℤ) = ((V : ℤ) * sV + HE * sE + F * sF + HE * sE + F * sF + HE * pE + HE * pF)
        % 2 ^ 32 := by
    push_cast
    rw [zero_add]
  rw [hcast]
  refine (Int.mod_modEq _ _).trans (hsum.trans ?_)
  have heq : (V : ℤ) * sV + 2 * (3 * (V : ℤ) - 6) * sE + (2 * (V : ℤ) - 4) * sF +
      2 * (3 * (V : ℤ) - 6) * sE + (2 * (V : ℤ) - 4) * sF + 2 * (3 * (V : ℤ) - 6) * pE +
      2 * (3 * (V : ℤ) - 6) * pF =
      (V : ℤ) * sV + 2 * (2 * (3 * (V : ℤ) - 6)) * sE + 2 * (2 * (V : ℤ) - 4) * sF +
      (2 * (3 * (V : ℤ) - 6)) * pE + (2 * (3 * (V : ℤ) - 6)) * pF := by ring
  rw [heq]

theorem qhGetBufferSize_modEq (sz : Sizes) (h32 : 32 ≤ sz.sizeT) (V : Nat) :
    (qhGetBufferSize sz V : ℤ) ≡ bufferSizeFormula sz V [ZMOD (2 ^ 32 : ℤ)] := by
  have h : qhGetBufferSize sz V =
      (0 + V * sz.qhVertex +
        ((2 * (((3 * V) % 2 ^ 32 + (2 ^ 32 - 6)) % 2 ^ 32)) % 2 ^ 32) * sz.qhHalfEdge +
        (((2 * V) % 2 ^ 32 + (2 ^ 32 - 4)) % 2 ^ 32) * sz.qhFace +
        ((2 * (((3 * V) % 2 ^ 32 + (2 ^ 32 - 6)) % 2 ^ 32)) % 2 ^ 32) * sz.qhHalfEdge +
        (((2 * V) % 2 ^ 32 + (2 ^ 32 - 4)) % 2 ^ 32) * sz.qhFace +
        ((2 * (((3 * V) % 2 ^ 32 + (2 ^ 32 - 6)) % 2 ^ 32)) % 2 ^ 32) * sz.qhHalfEdgePtr +
        ((2 * (((3 * V) % 2 ^ 32 + (2 ^ 32 - 6)) % 2 ^ 32)) % 2 ^ 32) * sz.qhFacePtr) % 2 ^ 32
      := by
    unfold qhGetBufferSize
    simp only [addSize_eq sz h32, Nat.mod_add_mod]
  rw [h]
  exact sum_modEq _ _ _ _ _ V _ _ (wrapHE_modEq V) (wrapF_modEq V)

theorem qhGetBufferSize_lt (sz : Sizes) (V : Nat) : qhGetBufferSize sz V < 2 ^ 32 := by
  unfold qhGetBufferSize
  simp only
  unfold addSize
  exact Nat.mod_lt _ (by norm_num)

/-- C13: with `size_t` at least 32 bits wide, for every `u32` value `V` the result of
`qhGetBufferSize(V)` is the formula `V*sizeof(qhVertex) + 2*(2E)*sizeof(qhHalfEdge) +
2*F*sizeof(qhFace) + (2E)*sizeof(qhHalfEdge*) + (2E)*sizeof(qhFace*)`, `E = 3V - 6`,
`F = 2V - 4`, reduced modulo `2^32`; for `V >= 2` with the formula below `2^32` (no overflow)
it is the formula itself; and the result depends on `V` (and the sizes) only. -/
theorem C13_buffer_size_formula (sz : Sizes) (h32 : 32 ≤ sz.sizeT) (V : Nat) :
    (qhGetBufferSize sz V : ℤ) = bufferSizeFormula sz V % 2 ^ 32 ∧
    (2 ≤ V → bufferSizeFormula sz V < 2 ^ 32 →
      qhGetBufferSize sz V =
        V * sz.qhVertex + 2 * (2 * (3 * V - 6)) * sz.qhHalfEdge + 2 * (2 * V - 4) * sz.qhFace +
          (2 * (3 * V - 6)) * sz.qhHalfEdgePtr + (2 * (3 * V - 6)) * sz.qhFacePtr) ∧
    (∀ V2 : Nat, V2 = V → qhGetBufferSize sz V2 = qhGetBufferSize sz V) := by
  have hmod := qhGetBufferSize_modEq sz h32 V
  have hlt := qhGetBufferSize_lt sz V
  have h1 : (qhGetBufferSize sz V : ℤ) = bufferSizeFormula sz V % 2 ^ 32 := by
    unfold Int.ModEq at hmod
    rw [← hmod]
    refine (Int.emod_eq_of_lt (by positivity) ?_).symm
    exact_mod_cast hlt
  refine ⟨h1, ?_, fun V2 h => by rw [h]⟩
  intro h2 hf
  have hnat : bufferSizeFormula sz V =
      ((V * sz.qhVertex + 2 * (2 * (3 * V - 6)) * sz.qhHalfEdge + 2 * (2 * V - 4) * sz.qhFace +
          (2 * (3 * V - 6)) * sz.qhHalfEdgePtr + (2 * (3 * V - 6)) * sz.qhFacePtr : ℕ) : ℤ) := by
    unfold bufferSizeFormula
    have a : ((3 * V - 6 : ℕ) : ℤ) = 3 * (V : ℤ) - 6 := by omega
    have b : ((2 * V - 4 : ℕ) : ℤ) = 2 * (V : ℤ) - 4 := by omega
    push_cast
    rw [a, b]
  have hpos : 0 ≤ bufferSizeFormula sz V := by
    rw [hnat]
    exact Int.natCast_nonneg _
  rw [Int.emod_eq_of_lt hpos hf, hnat] at h1
  exact_mod_cast h1

/-- C13 for 256 points on an LP64 platform. -/
theorem C13_buffer_size_formula_witness :
    qhGetBufferSize lp64Sizes 256 = 256 * 48 + 2 * (2 * 762) * 40 + 2 * 508 * 80 +
      (2 * 762) * 8 + (2 * 762) * 8 :=
  (C13_buffer_size_formula lp64Sizes (by decide) 256).2.1 (by decide) (by decide)

/-! ## C20: Newell's sum on a triangle -/

theorem newell_triangle (a b c : b3Vec3) :
    ((b3Vec3.zero.add (b3Newell a b)).add (b3Newell b c)).add (b3Newell c a) =
      b3Cross (b.sub a) (c.sub a) := by
  simp only [b3Vec3.zero, b3Vec3.add, b3Newell, b3Cross, b3Vec3.sub, b3Vec3.mk.injEq]
  refine ⟨?_, ?_, ?_⟩ <;> ring

theorem cross_translate (a b c t : b3Vec3) :
    b3Cross ((b.add t).sub (a.add t)) ((c.add t).sub (a.add t)) = b3Cross (b.sub a) (c.sub a) := by
  simp only [b3Vec3.add, b3Cross, b3Vec3.sub, b3Vec3.mk.injEq]
  refine ⟨?_, ?_, ?_⟩ <;> ring

theorem cross_rotate (a b c : b3Vec3) :
    b3Cross (c.sub b) (a.sub b) = b3Cross (b.sub a) (c.sub a) := by
  simp only [b3Cross, b3Vec3.sub, b3Vec3.mk.injEq]
  refine ⟨?_, ?_, ?_⟩ <;> ring

theorem newellLoop_triangle (m : qhHull) (fuel e0 e1 e2 : Nat)
    (h01 : (m.halfEdge e0).next = e1) (h12 : (m.halfEdge e1).next = e2)
    (h20 : (m.halfEdge e2).next = e0) (hne1 : e1 ≠ e0) (hne2 : e2 ≠ e0) (hfuel : 3 ≤ fuel) :
    m.newellLoop e0 fuel e0 ⟨b3Vec3.zero, b3Vec3.zero, 0⟩ =
      some ⟨((b3Vec3.zero.add (m.vertex (m.halfEdge e0).tail).position).add
              (m.vertex (m.halfEdge e1).tail).position).add
              (m.vertex (m.halfEdge e2).tail).position,
            b3Cross
              ((m.vertex (m.halfEdge e1).tail).position.sub
                (m.vertex (m.halfEdge e0).tail).position)
              ((m.vertex (m.halfEdge e2).tail).position.sub
                (m.vertex (m.halfEdge e0).tail).position),
            3⟩ := by
  obtain ⟨k, rfl⟩ : ∃ k, fuel = k + 3 := ⟨fuel - 3, by omega⟩
  simp only [qhHull.newellLoop, h01, h12, h20, ne_eq, hne1, hne2, not_false_eq_true, if_true,
    not_true_eq_false, if_false, Nat.zero_add, Nat.reduceAdd, newell_triangle]

/-- C20: for a triangular face whose loop visits the half-edges `e0 = face->edge`, `e1`, `e2`
with tails at `a`, `b`, `c`, the loop of `qhFace::ComputeCenterAndPlane` accumulates the
un-normalized normal `cross(b - a, c - a)` over three half-edges, in exact arithmetic; this
value is unchanged when the face is translated and when the loop is entered at `e1`; the stored
center is `(a + b + c) / 3`, the stored normal is the normalized sum, and
`plane.offset == dot(plane.normal, center)`, so the center is at distance zero of the plane. -/
theorem C20_newell_triangle (normalize : b3Vec3 → b3Vec3) (m : qhHull) (fuel : Nat)
    (face : qhFace) (e1 e2 : Nat) (a b c : b3Vec3)
    (h01 : (m.halfEdge face.edge).next = e1) (h12 : (m.halfEdge e1).next = e2)
    (h20 : (m.halfEdge e2).next = face.edge)
    (hne1 : e1 ≠ face.edge) (hne2 : e2 ≠ face.edge) (hne3 : e2 ≠ e1)
    (ha : (m.vertex (m.halfEdge face.edge).tail).position = a)
    (hb : (m.vertex (m.halfEdge e1).tail).position = b)
    (hc : (m.vertex (m.halfEdge e2).tail).position = c) (hfuel : 3 ≤ fuel) :
    (m.newellLoop face.edge fuel face.edge ⟨b3Vec3.zero, b3Vec3.zero, 0⟩).map
        (fun acc => (acc.n, acc.count)) = some (b3Cross (b.sub a) (c.sub a), 3) ∧
    (m.newellLoop e1 fuel e1 ⟨b3Vec3.zero, b3Vec3.zero, 0⟩).map
        (fun acc => (acc.n, acc.count)) = some (b3Cross (b.sub a) (c.sub a), 3) ∧
    (∀ t : b3Vec3, b3Cross ((b.add t).sub (a.add t)) ((c.add t).sub (a.add t)) =
      b3Cross (b.sub a) (c.sub a)) ∧
    ∃ face1, face.ComputeCenterAndPlane normalize m fuel = Exit.done face1 ∧
      face1.center = ⟨(a.x + b.x + c.x) / 3, (a.y + b.y + c.y) / 3, (a.z + b.z + c.z) / 3⟩ ∧
      face1.plane.normal = normalize (b3Cross (b.sub a) (c.sub a)) ∧
      face1.plane.offset = b3Dot face1.plane.normal face1.center ∧
      b3Distance face1.center face1.plane = 0 ∧ face1.edge = face.edge := by
  have hloop := newellLoop_triangle m fuel face.edge e1 e2 h01 h12 h20 hne1 hne2 hfuel
  have hrot := newellLoop_triangle m fuel e1 e2 face.edge h12 h20 h01 hne3
    (fun h => hne1 h.symm) hfuel
  rw [ha, hb, hc] at hloop hrot
  refine ⟨by rw [hloop]; rfl, ?_, cross_translate a b c, ?_⟩
  · rw [hrot, ← cross_rotate a b c]
    rfl
  · refine ⟨{ face with
        plane := ⟨normalize (b3Cross (b.sub a) (c.sub a)),
          b3Dot (normalize (b3Cross (b.sub a) (c.sub a)))
            ((((b3Vec3.zero.add a).add b).add c).divScalar ((3 : ℕ) : ℚ))⟩,
        center := (((b3Vec3.zero.add a).add b).add c).divScalar ((3 : ℕ) : ℚ) },
      ?_, ?_, rfl, rfl, ?_, rfl⟩
    · unfold qhFace.ComputeCenterAndPlane
      rw [hloop]
      simp only [gt_iff_lt, Nat.ofNat_pos, if_true]
    · simp only [b3Vec3.divScalar, b3Vec3.add, b3Vec3.zero, zero_add, Nat.cast_ofNat]
    · simp only [b3Distance, sub_self]

/-- C20 on the fourth face of the tetrahedron, with the identity in place of the
normalization. -/
theorem C20_newell_triangle_witness :
    (tetra.newellLoop 9 3 9 ⟨b3Vec3.zero, b3Vec3.zero, 0⟩).map
        (fun acc => (acc.n, acc.count)) =
      some (b3Cross ((⟨0, 1, 0⟩ : b3Vec3).sub ⟨2, 0, 0⟩) ((⟨0, 0, 1⟩ : b3Vec3).sub ⟨2, 0, 0⟩), 3) :=
  (C20_newell_triangle (fun v => v) tetra 3
    ⟨9, ⟨2 / 3, 1 / 3, 1 / 3⟩, ⟨⟨1 / 3, 2 / 3, 2 / 3⟩, 2 / 3⟩⟩ 10 11 ⟨2, 0, 0⟩ ⟨0, 1, 0⟩
    ⟨0, 0, 1⟩ (by decide!) (by decide!) (by decide!) (by decide) (by decide) (by decide)
    (by decide!) (by decide!) (by decide!) (by decide)).1

/-! ## C16: the centroid of the unit cube -/

/-- C16: the run-time hull of the unit cube has the eight corners as vertices, twenty-four
half-edges and six faces of four half-edges each; on it `b3ComputeCentroid`, in exact
arithmetic, accumulates the volume `1` and returns the center `(1/2, 1/2, 1/2)`; the fan loop of
every face ends after two triangles and not after one; and `Set` on the eight corners publishes
a hull with that centroid. -/
theorem C16_unit_cube_centroid :
    (flatten cubeEnv cube 4 emptyHull).isDone = true ∧
    (cubeHull.vertexCount = 8 ∧ cubeHull.edgeCount = 24 ∧ cubeHull.faceCount = 6) ∧
    (∀ p ∈ cubePoints, ∃ i, i < 8 ∧ cubeHull.vertices i = p) ∧
    (∀ f, f < 6 →
      (fun i => (cubeHull.edges i).next)^[4] (cubeHull.faces f).edge = (cubeHull.faces f).edge ∧
      ∀ j, j < 4 →
        (cubeHull.edges ((fun i => (cubeHull.edges i).next)^[j] (cubeHull.faces f).edge)).face
          = f) ∧
    (centroidFaces cubeHull (centroidReference cubeHull) 2 (List.range cubeHull.faceCount)
      ⟨0, b3Vec3.zero⟩).map (fun acc => acc.volume) = some 1 ∧
    (b3ComputeCentroid cubeEnv 2 cubeHull).isDone = true ∧
    getDone (b3ComputeCentroid cubeEnv 2 cubeHull) b3Vec3.zero = ⟨1 / 2, 1 / 2, 1 / 2⟩ ∧
    (∀ f, f < 6 →
      (centroidFan cubeHull (centroidReference cubeHull) (cubeHull.faces f).edge 2
        (cubeHull.edges (cubeHull.faces f).edge).next ⟨0, b3Vec3.zero⟩).isSome = true ∧
      (centroidFan cubeHull (centroidReference cubeHull) (cubeHull.faces f).edge 1
        (cubeHull.edges (cubeHull.faces f).edge).next ⟨0, b3Vec3.zero⟩).isSome = false) ∧
    (b3QHull.Set cubeEnv 4 cubePoints emptyHull).isDone = true ∧
    (getDone (b3QHull.Set cubeEnv 4 cubePoints emptyHull) emptyHull).centroid
      = ⟨1 / 2, 1 / 2, 1 / 2⟩ := by
  refine ⟨?_, ?_, ?_, ?_, ?_, ?_, ?_, ?_, ?_, ?_⟩ <;> decide!

/-! ## C14: the free-lists -/

theorem FreeChain_upd {freeNext : Nat → Option Nat} {x : Nat} (v : Option Nat) :
    ∀ (l : List Nat) (head : Option Nat), x ∉ l → FreeChain freeNext head l →
      FreeChain (upd freeNext x v) head l := by
  intro l
  induction l with
  | nil => intro head _ h; exact h
  | cons n rest ih =>
    intro head hx h
    obtain ⟨h1, h2⟩ := h
    have hn : n ≠ x := fun hnx => hx (hnx ▸ List.mem_cons_self _ _)
    refine ⟨h1, ?_⟩
    rw [upd_other _ _ _ _ hn]
    exact ih _ (fun hm => hx (List.mem_cons_of_mem _ hm)) h2

/-- C14: for each of the three pools and every element `x`: `FreeX(x)` followed by
`AllocateX()` returns `x` and leaves the head of the free-list as it was and the arena
changed in `x.freeNext` only (and the state of `x`, for a face); the elements of the free-list
are then the same, in the same order, when `x` was not one of them. `AllocateX` on a non-empty
free-list returns its head and moves the head to `head.freeNext`. `FreeX` writes `x.freeNext`
and the head only (`FreeFace` also sets the state of `x` to `e_deleted`): the mesh fields and
list links of every element, and the `freeNext` of every other element, are unchanged. -/
theorem C14_free_list (a : qhArena) (x : Nat) :
    ((a.FreeVertex x).AllocateVertex =
        some (x, { a with vertexFreeNext := upd a.vertexFreeNext x a.m_freeVertices }) ∧
      (a.FreeEdge x).AllocateEdge =
        some (x, { a with edgeFreeNext := upd a.edgeFreeNext x a.m_freeEdges }) ∧
      (a.FreeFace x).AllocateFace =
        some (x, { a with
          faceFreeNext := upd a.faceFreeNext x a.m_freeFaces,
          faceState := upd a.faceState x qhFaceState.e_deleted })) ∧
    (∀ l, x ∉ l →
      (FreeChain a.vertexFreeNext a.m_freeVertices l →
        FreeChain (upd a.vertexFreeNext x a.m_freeVertices) a.m_freeVertices l) ∧
      (FreeChain a.edgeFreeNext a.m_freeEdges l →
        FreeChain (upd a.edgeFreeNext x a.m_freeEdges) a.m_freeEdges l) ∧
      (FreeChain a.faceFreeNext a.m_freeFaces l →
        FreeChain (upd a.faceFreeNext x a.m_freeFaces) a.m_freeFaces l)) ∧
    ((∀ h, a.m_freeVertices = some h →
        a.AllocateVertex = some (h, { a with m_freeVertices := a.vertexFreeNext h })) ∧
      (∀ h, a.m_freeEdges = some h →
        a.AllocateEdge = some (h, { a with m_freeEdges := a.edgeFreeNext h })) ∧
      (∀ h, a.m_freeFaces = some h →
        a.AllocateFace = some (h, { a with m_freeFaces := a.faceFreeNext h }))) ∧
    ((a.FreeVertex x).m_freeVertices = some x ∧
      (a.FreeVertex x).vertexFreeNext x = a.m_freeVertices ∧
      (∀ y, y ≠ x → (a.FreeVertex x).vertexFreeNext y = a.vertexFreeNext y) ∧
      a.FreeVertex x =
        { a with vertexFreeNext := (a.FreeVertex x).vertexFreeNext, m_freeVertices := some x }) ∧
    ((a.FreeEdge x).m_freeEdges = some x ∧
      (a.FreeEdge x).edgeFreeNext x = a.m_freeEdges ∧
      (∀ y, y ≠ x → (a.FreeEdge x).edgeFreeNext y = a.edgeFreeNext y) ∧
      a.FreeEdge x =
        { a with edgeFreeNext := (a.FreeEdge x).edgeFreeNext, m_freeEdges := some x }) ∧
    ((a.FreeFace x).m_freeFaces = some x ∧
      (a.FreeFace x).faceFreeNext x = a.m_freeFaces ∧
      (a.FreeFace x).faceState x = qhFaceState.e_deleted ∧
      (∀ y, y ≠ x → (a.FreeFace x).faceFreeNext y = a.faceFreeNext y ∧
        (a.FreeFace x).faceState y = a.faceState y) ∧
      a.FreeFace x =
        { a with
          faceFreeNext := (a.FreeFace x).faceFreeNext,
          faceState := (a.FreeFace x).faceState,
          m_freeFaces := some x }) := by
  refine ⟨⟨?_, ?_, ?_⟩, ?_, ⟨?_, ?_, ?_⟩, ⟨rfl, ?_, ?_, rfl⟩, ⟨rfl, ?_, ?_, rfl⟩,
    ⟨rfl, ?_, ?_, ?_, rfl⟩⟩
  · simp only [qhArena.FreeVertex, qhArena.AllocateVertex, upd_same]
  · simp only [qhArena.FreeEdge, qhArena.AllocateEdge, upd_same]
  · simp only [qhArena.FreeFace, qhArena.AllocateFace, upd_same]
  · intro l hx
    exact ⟨FreeChain_upd _ l _ hx, FreeChain_upd _ l _ hx, FreeChain_upd _ l _ hx⟩
  · intro h hh
    simp only [qhArena.AllocateVertex, hh]
  · intro h hh
    simp only [qhArena.AllocateEdge, hh]
  · intro h hh
    simp only [qhArena.AllocateFace, hh]
  · simp only [qhArena.FreeVertex, upd_same]
  · intro y hy
    simp only [qhArena.FreeVertex, upd_other _ _ _ _ hy]
  · simp only [qhArena.FreeEdge, upd_same]
  · intro y hy
    simp only [qhArena.FreeEdge, upd_other _ _ _ _ hy]
  · simp only [qhArena.FreeFace, upd_same]
  · simp only [qhArena.FreeFace, upd_same]
  · intro y hy
    simp only [qhArena.FreeFace, upd_other _ _ _ _ hy, and_self]

/-- C14 on an arena whose free-lists hold the elements `1, 2`: freeing the vertex `5` keeps the
list of free vertices, and allocating then returns `1`. -/
theorem C14_free_list_witness :
    FreeChain (upd smallArena.vertexFreeNext 5 smallArena.m_freeVertices)
      smallArena.m_freeVertices [1, 2] ∧
    smallArena.AllocateVertex =
      some (1, { smallArena with m_freeVertices := smallArena.vertexFreeNext 1 }) :=
  ⟨((C14_free_list smallArena 5).2.1 [1, 2] (by decide)).1
      ⟨rfl, rfl, rfl⟩,
   (C14_free_list smallArena 5).2.2.1.1 1 rfl⟩

/-! ## C11: `PushFront` -/

theorem PushFront_links (L : qhList) (x : Nat) (hx : L.head ≠ some x) (n : Nat) :
    (L.PushFront x).links n =
      if n = x then ⟨none, L.head⟩
      else if L.head = some n then { L.links n with prev := some x }
      else L.links n := by
  unfold qhList.PushFront
  simp only
  cases hh : L.head with
  | none =>
    simp only
    by_cases hn : n = x
    · subst hn
      simp only [upd_same, if_true]
    · simp only [upd_other _ _ _ _ hn, if_neg hn]
      rfl
  | some h =>
    have hhx : h ≠ x := fun e => hx (by rw [hh, e])
    simp only
    by_cases hn : n = x
    · subst hn
      have : n ≠ h := fun e => hhx e.symm
      simp only [upd_other _ _ _ _ this, upd_same, if_true]
    · rw [if_neg hn]
      by_cases hnh : n = h
      · subst hnh
        simp only [upd_same, upd_other _ _ _ _ hn, if_true]
      · have hne : some h ≠ some n := fun e => hnh (Option.some.inj e).symm
        simp only [upd_other _ _ _ _ hnh, upd_other _ _ _ _ hn, if_neg hne]

theorem nodup_getElem?_inj {l : List Nat} (h : l.Nodup) {i j a : Nat} (hi : l[i]? = some a)
    (hj : l[j]? = some a) : i = j := by
  obtain ⟨h1, e1⟩ := List.getElem?_eq_some.1 hi
  obtain ⟨h2, e2⟩ := List.getElem?_eq_some.1 hj
  exact (List.Nodup.getElem_inj_iff h).1 (e1.trans e2.symm)

/-- C11: for a well-formed list holding the nodes `s` and a node `x` not among them, with the
new count representable (`count + 1 < 2^32`), after `PushFront(x)` the list is well formed and
holds `x :: s`: `head == x`, `x.prev == NULL`, `x.next` is the old head, the old head (if any)
has `prev == x` and its `next` unchanged, `count` is larger by one, and the links of every other
node are unchanged. -/
theorem C11_push_front (L : qhList) (s : List Nat) (x : Nat) (h : L.Repr s) (hx : x ∉ s)
    (hcount : L.count + 1 < 2 ^ 32) :
    (L.PushFront x).Repr (x :: s) ∧
    (L.PushFront x).head = some x ∧
    ((L.PushFront x).links x).prev = none ∧
    ((L.PushFront x).links x).next = L.head ∧
    (∀ hd, L.head = some hd →
      ((L.PushFront x).links hd).prev = some x ∧
      ((L.PushFront x).links hd).next = (L.links hd).next) ∧
    (L.PushFront x).count = L.count + 1 ∧
    (∀ y, y ≠ x → L.head ≠ some y → (L.PushFront x).links y = L.links y) := by
  have hhead : L.head ≠ some x := by
    rw [h.head]
    intro e
    exact hx (List.mem_of_mem_head? e)
  have hl := PushFront_links L x hhead
  have hcnt : (L.PushFront x).count = L.count + 1 := by
    show (L.count + 1) % 2 ^ 32 = L.count + 1
    exact Nat.mod_eq_of_lt hcount
  refine ⟨⟨?_, rfl, ?_, ?_, ?_, ?_⟩, rfl, ?_, ?_, ?_, hcnt, ?_⟩
  · exact List.nodup_cons.2 ⟨hx, h.nodup⟩
  · rw [hcnt, h.count, List.length_cons]
  · rw [List.length_cons, ← h.count]
    exact hcount
  · intro i n hi
    cases i with
    | zero =>
      simp only [List.getElem?_cons_zero, Option.some.injEq] at hi
      subst hi
      rw [hl, if_pos rfl, List.getElem?_cons_succ, h.head, List.head?_eq_getElem?]
    | succ j =>
      rw [List.getElem?_cons_succ] at hi
      have hn : n ≠ x := fun e => hx (e ▸ List.getElem?_mem hi)
      rw [hl, if_neg hn, List.getElem?_cons_succ]
      split
      · exact h.next j n hi
      · exact h.next j n hi
  · intro i n hi
    cases i with
    | zero =>
      simp only [List.getElem?_cons_zero, Option.some.injEq] at hi
      subst hi
      rw [hl, if_pos rfl]
      rfl
    | succ j =>
      rw [List.getElem?_cons_succ] at hi
      have hn : n ≠ x := fun e => hx (e ▸ List.getElem?_mem hi)
      rw [hl, if_neg hn, if_neg (Nat.succ_ne_zero j), Nat.add_sub_cancel]
      by_cases hj : j = 0
      · subst hj
        have hd : L.head = some n := by rw [h.head, List.head?_eq_getElem?, hi]
        rw [if_pos hd]
        show some x = (x :: s)[0]?
        rw [List.getElem?_cons_zero]
      · have hd : L.head ≠ some n := by
          rw [h.head, List.head?_eq_getElem?]
          intro e
          exact hj (nodup_getElem?_inj h.nodup hi e)
        rw [if_neg hd, h.prev j n hi, if_neg hj]
        obtain ⟨k, rfl⟩ : ∃ k, j = k + 1 := ⟨j - 1, by omega⟩
        rw [List.getElem?_cons_succ, Nat.add_sub_cancel]
  · rw [hl, if_pos rfl]
  · rw [hl, if_pos rfl]
  · intro hd hhd
    have hne : hd ≠ x := fun e => hhead (by rw [hhd, e])
    rw [hl, if_neg hne, if_pos hhd]
    exact ⟨rfl, rfl⟩
  · intro y hy hyh
    rw [hl, if_neg hy, if_neg hyh]

theorem smallList_repr : smallList.Repr [7, 8] := by
  refine ⟨by decide, rfl, rfl, by decide, ?_, ?_⟩
  · intro i n hi
    match i, hi with
    | 0, hi =>
      simp only [List.getElem?_cons_zero, Option.some.injEq] at hi
      subst hi
      rfl
    | 1, hi =>
      simp only [List.getElem?_cons_succ, List.getElem?_cons_zero, Option.some.injEq] at hi
      subst hi
      rfl
    | k + 2, hi => simp at hi
  · intro i n hi
    match i, hi with
    | 0, hi =>
      simp only [List.getElem?_cons_zero, Option.some.injEq] at hi
      subst hi
      rfl
    | 1, hi =>
      simp only [List.getElem?_cons_succ, List.getElem?_cons_zero, Option.some.injEq] at hi
      subst hi
      rfl
    | k + 2, hi => simp at hi

/-- C11 on the list of the nodes `7, 8`: pushing the node `3` gives the list `3, 7, 8` with
count three. -/
theorem C11_push_front_witness :
    (smallList.PushFront 3).Repr [3, 7, 8] ∧ (smallList.PushFront 3).count = smallList.count + 1 :=
  ⟨(C11_push_front smallList [7, 8] 3 smallList_repr (by decide) (by decide)).1,
   (C11_push_front smallList [7, 8] 3 smallList_repr (by decide) (by decide)).2.2.2.2.2.1⟩

/-! ## C12: `Remove` -/

theorem Remove_links2 (L : qhList) (x : Nat) (p nx : Option Nat)
    (hp : (L.links x).prev = p) (hn : (L.links x).next = nx)
    (hpx : p ≠ some x) (hnx : nx ≠ some x) :
    (L.Remove x).1.head = (if some x = L.head then nx else L.head) ∧
    (L.Remove x).2 = nx ∧ (L.Remove x).1.count = (L.count + (2 ^ 32 - 1)) % 2 ^ 32 ∧
    (L.Remove x).1.links x = ⟨none, none⟩ := by
  refine ⟨?_, hn, rfl, ?_⟩
  · cases p with
    | none =>
      cases nx with
      | none => simp only [qhList.Remove, hp, hn]
      | some b =>
        have hxb : x ≠ b := fun e => hnx (by rw [e])
        simp only [qhList.Remove, hp, hn, upd_other _ _ _ _ hxb]
    | some a =>
      have hxa : x ≠ a := fun e => hpx (by rw [e])
      cases nx with
      | none => simp only [qhList.Remove, hp, hn, upd_other _ _ _ _ hxa]
      | some b =>
        have hxb : x ≠ b := fun e => hnx (by rw [e])
        simp only [qhList.Remove, hp, hn, upd_other _ _ _ _ hxa, upd_other _ _ _ _ hxb]
  · simp only [qhList.Remove, upd_same]

theorem Remove_links (L : qhList) (x : Nat) (p nx : Option Nat)
    (hp : (L.links x).prev = p) (hn : (L.links x).next = nx)
    (hpx : p ≠ some x) (hnx : nx ≠ some x) (hpn : ∀ a, p = some a → nx ≠ some a) (n : Nat)
    (hne : n ≠ x) :
    (L.Remove x).1.links n =
      if p = some n then { L.links n with next := nx }
      else if nx = some n then { L.links n with prev := p }
      else L.links n := by
  cases p with
  | none =>
    cases nx with
    | none => simp [qhList.Remove, hp, hn, upd_other _ _ _ _ hne]
    | some b =>
      have hxb : x ≠ b := fun e => hnx (by rw [e])
      simp only [qhList.Remove, hp, hn, upd_other _ _ _ _ hne,
        if_neg (Option.noConfusion : (none : Option Nat) ≠ some n)]
      by_cases hb : n = b
      · subst hb
        simp only [upd_same, if_true]
      · have : some b ≠ some n := fun e => hb (Option.some.inj e).symm
        simp only [upd_other _ _ _ _ hb, if_neg this]
  | some a =>
    have hxa : x ≠ a := fun e => hpx (by rw [e])
    cases nx with
    | none =>
      simp only [qhList.Remove, hp, hn, upd_other _ _ _ _ hne, upd_other _ _ _ _ hxa,
        if_neg (Option.noConfusion : (none : Option Nat) ≠ some n)]
      by_cases ha : n = a
      · subst ha
        simp only [upd_same, if_true]
      · have : some a ≠ some n := fun e => ha (Option.some.inj e).symm
        simp only [upd_other _ _ _ _ ha, if_neg this]
    | some b =>
      have hxb : x ≠ b := fun e => hnx (by rw [e])
      have hab : b ≠ a := fun e => hpn a rfl (by rw [e])
      simp only [qhList.Remove, hp, hn, upd_other _ _ _ _ hne, upd_other _ _ _ _ hxa]
      by_cases ha : n = a
      · subst ha
        have : n ≠ b := fun e => hab e.symm
        simp only [upd_other _ _ _ _ this, upd_same, if_true]
      · have hna : some a ≠ some n := fun e => ha (Option.some.inj e).symm
        rw [if_neg hna]
        by_cases hb : n = b
        · subst hb
          simp only [upd_same, upd_other _ _ _ _ ha, if_true]
        · have : some b ≠ some n := fun e => hb (Option.some.inj e).symm
          simp only [upd_other _ _ _ _ hb, upd_other _ _ _ _ ha, if_neg this]

theorem erase_eq_eraseIdx_of_nodup {s : List Nat} (hs : s.Nodup) {k x : Nat}
    (hk : s[k]? = some x) : s.erase x = s.eraseIdx k := by
  induction s generalizing k with
  | nil => simp at hk
  | cons a t ih =>
    cases k with
    | zero =>
      simp only [List.getElem?_cons_zero, Option.some.injEq] at hk
      subst hk
      simp
    | succ j =>
      rw [List.getElem?_cons_succ] at hk
      have hx : x ∈ t := List.getElem?_mem hk
      have hax : a ≠ x := fun e => (List.nodup_cons.1 hs).1 (e ▸ hx)
      rw [List.erase_cons_tail (by simpa using hax), List.eraseIdx_cons_succ,
        ih (List.nodup_cons.1 hs).2 hk]

theorem Remove_next (L : qhList) (x : Nat) (p nx : Option Nat)
    (hp : (L.links x).prev = p) (hn : (L.links x).next = nx)
    (hpx : p ≠ some x) (hnx : nx ≠ some x) (hpn : ∀ a, p = some a → nx ≠ some a) (n : Nat)
    (hne : n ≠ x) :
    ((L.Remove x).1.links n).next = if p = some n then nx else (L.links n).next := by
  rw [Remove_links L x p nx hp hn hpx hnx hpn n hne]
  by_cases h1 : p = some n
  · rw [if_pos h1, if_pos h1]
  · rw [if_neg h1, if_neg h1]
    by_cases h2 : nx = some n
    · rw [if_pos h2]
    · rw [if_neg h2]

theorem Remove_prev (L : qhList) (x : Nat) (p nx : Option Nat)
    (hp : (L.links x).prev = p) (hn : (L.links x).next = nx)
    (hpx : p ≠ some x) (hnx : nx ≠ some x) (hpn : ∀ a, p = some a → nx ≠ some a) (n : Nat)
    (hne : n ≠ x) :
    ((L.Remove x).1.links n).prev = if nx = some n then p else (L.links n).prev := by
  rw [Remove_links L x p nx hp hn hpx hnx hpn n hne]
  by_cases h1 : p = some n
  · have h2 : nx ≠ some n := hpn n h1
    rw [if_pos h1, if_neg h2]
  · rw [if_neg h1]
    by_cases h2 : nx = some n
    · rw [if_pos h2, if_pos h2]
    · rw [if_neg h2, if_neg h2]

theorem Remove_repr (L : qhList) (s : List Nat) (x k : Nat) (h : L.Repr s)
    (hk : s[k]? = some x) : (L.Remove x).1.Repr (s.eraseIdx k) := by
  have idx : ∀ {i j a : Nat}, s[i]? = some a → s[j]? = some a → i = j :=
    fun hi hj => nodup_getElem?_inj h.nodup hi hj
  have hlen : k < s.length := (List.getElem?_eq_some.1 hk).1
  have hlt := h.count_lt
  have hcnt : (L.count + (2 ^ 32 - 1)) % 2 ^ 32 = s.length - 1 := by
    rw [h.count]
    omega
  have hp := h.prev k x hk
  have hn := h.next k x hk
  have hpx : (if k = 0 then none else s[k - 1]?) ≠ some x := by
    by_cases h0 : k = 0
    · rw [if_pos h0]
      exact Option.noConfusion
    · rw [if_neg h0]
      intro e
      have := idx e hk
      omega
  have hnx : s[k + 1]? ≠ some x := by
    intro e
    have := idx e hk
    omega
  have hpn : ∀ a, (if k = 0 then none else s[k - 1]?) = some a → s[k + 1]? ≠ some a := by
    intro a ha e
    by_cases h0 : k = 0
    · rw [if_pos h0] at ha
      exact Option.noConfusion ha
    · rw [if_neg h0] at ha
      have := idx ha e
      omega
  have hpi : ∀ {i n : Nat}, s[i]? = some n → i + 1 ≠ k →
      (if k = 0 then none else s[k - 1]?) ≠ some n := by
    intro i n hi hik
    by_cases h0 : k = 0
    · rw [if_pos h0]
      exact Option.noConfusion
    · rw [if_neg h0]
      intro e
      have := idx e hi
      omega
  have hxi : ∀ {i n : Nat}, s[i]? = some n → i ≠ k → n ≠ x := by
    intro i n hi hik e
    exact hik (idx (e ▸ hi) hk)
  obtain ⟨hhead, -, hcount, -⟩ := Remove_links2 L x _ _ hp hn hpx hnx
  have hnext := Remove_next L x _ _ hp hn hpx hnx hpn
  have hprev := Remove_prev L x _ _ hp hn hpx hnx hpn
  refine ⟨h.nodup.sublist (List.eraseIdx_sublist s k), ?_, ?_, ?_, ?_, ?_⟩
  · rw [hhead, h.head, List.head?_eq_getElem?, List.head?_eq_getElem?, List.getElem?_eraseIdx]
    by_cases h0 : k = 0
    · subst h0
      rw [if_pos hk.symm, if_neg (Nat.lt_irrefl 0)]
    · have : some x ≠ s[0]? := by
        intro e
        have := idx e.symm hk
        omega
      rw [if_neg this, if_pos (Nat.pos_of_ne_zero h0)]
  · rw [hcount, hcnt, List.length_eraseIdx_of_lt hlen]
  · rw [List.length_eraseIdx_of_lt hlen]
    omega
  · intro i n hi
    rw [List.getElem?_eraseIdx] at hi
    rw [List.getElem?_eraseIdx]
    by_cases hik : i < k
    · rw [if_pos hik] at hi
      rw [hnext n (hxi hi (by omega))]
      by_cases hs1 : i + 1 = k
      · have h0 : k ≠ 0 := by omega
        have hki : k - 1 = i := by omega
        have : (if k = 0 then none else s[k - 1]?) = some n := by
          rw [if_neg h0, hki, hi]
        have hlt2 : ¬ (i + 1 < k) := by omega
        rw [if_pos this, if_neg hlt2, hs1]
      · have hlt2 : i + 1 < k := by omega
        rw [if_neg (hpi hi hs1), if_pos hlt2]
        exact h.next i n hi
    · rw [if_neg hik] at hi
      have hlt2 : ¬ (i + 1 < k) := by omega
      rw [hnext n (hxi hi (by omega)), if_neg (hpi hi (by omega)), if_neg hlt2]
      exact h.next (i + 1) n hi
  · intro i n hi
    rw [List.getElem?_eraseIdx] at hi
    by_cases hik : i < k
    · rw [if_pos hik] at hi
      have hnn : s[k + 1]? ≠ some n := by
        intro e
        have := idx e hi
        omega
      rw [hprev n (hxi hi (by omega)), if_neg hnn, h.prev i n hi]
      by_cases h0 : i = 0
      · rw [if_pos h0, if_pos h0]
      · have hlt2 : i - 1 < k := by omega
        rw [if_neg h0, if_neg h0, List.getElem?_eraseIdx, if_pos hlt2]
    · rw [if_neg hik] at hi
      rw [hprev n (hxi hi (by omega))]
      by_cases hi_k : i = k
      · subst hi_k
        rw [if_pos hi]
        by_cases h0 : i = 0
        · rw [if_pos h0, if_pos h0]
        · have hlt2 : i - 1 < i := by omega
          rw [if_neg h0, if_neg h0, List.getElem?_eraseIdx, if_pos hlt2]
      · have hnn : s[k + 1]? ≠ some n := by
          intro e
          have := idx e hi
          omega
        have h0 : i ≠ 0 := by omega
        have hlt2 : ¬ (i - 1 < k) := by omega
        have e1 : i - 1 + 1 = i := by omega
        rw [if_neg hnn, h.prev (i + 1) n hi, if_neg (Nat.succ_ne_zero i), Nat.add_sub_cancel,
          if_neg h0, List.getElem?_eraseIdx, if_neg hlt2, e1]

theorem PushFront_Remove (L : qhList) (s : List Nat) (x : Nat) (h : L.Repr s) (hx : x ∉ s)
    (hcount : L.count + 1 < 2 ^ 32) :
    ((L.PushFront x).Remove x).1.head = L.head ∧
    ((L.PushFront x).Remove x).1.count = L.count ∧
    ((L.PushFront x).Remove x).2 = L.head ∧
    ∀ n, n ≠ x → ((L.PushFront x).Remove x).1.links n = L.links n := by
  have hhead : L.head ≠ some x := by
    rw [h.head]
    intro e
    exact hx (List.mem_of_mem_head? e)
  have hl := PushFront_links L x hhead
  have hp : ((L.PushFront x).links x).prev = none := by rw [hl, if_pos rfl]
  have hn : ((L.PushFront x).links x).next = L.head := by rw [hl, if_pos rfl]
  have hpn : ∀ a, (none : Option Nat) = some a → L.head ≠ some a :=
    fun a e => Option.noConfusion e
  obtain ⟨h1, h2, h3, -⟩ := Remove_links2 (L.PushFront x) x _ _ hp hn Option.noConfusion hhead
  have hr := Remove_links (L.PushFront x) x _ _ hp hn Option.noConfusion hhead hpn
  refine ⟨?_, ?_, h2, ?_⟩
  · rw [h1]
    exact if_pos rfl
  · rw [h3]
    show ((L.count + 1) % 2 ^ 32 + (2 ^ 32 - 1)) % 2 ^ 32 = L.count
    omega
  · intro n hne
    rw [hr n hne, if_neg Option.noConfusion, hl n, if_neg hne]
    by_cases hd : L.head = some n
    · rw [if_pos hd, if_pos hd]
      have h0 : s[0]? = some n := by rw [← List.head?_eq_getElem?, ← h.head, hd]
      have := h.prev 0 n h0
      rw [if_pos rfl] at this
      show ({ prev := none, next := (L.links n).next } : qhLinks) = L.links n
      rw [← this]
    · rw [if_neg hd, if_neg hd]

/-- C12: for a well-formed list holding the nodes `s` and a node `x` of it (at position `k`),
after `Remove(x)` the list is well formed and holds `s` with `x` deleted, the other nodes in
their order; `head` is the successor of `x` when `x` was the head and is unchanged otherwise;
`x.prev` and `x.next` are `NULL`; `count` is smaller by one; the pointer returned is the former
successor of `x` (`NULL` when `x` was last).  And for a node `y` not in the list (the count
staying below `2^32`), `Remove(y)` right after `PushFront(y)` gives back the head, the count,
and the links of every node other than `y`. -/
theorem C12_remove (L : qhList) (s : List Nat) (x k : Nat) (h : L.Repr s)
    (hk : s[k]? = some x) :
    (L.Remove x).1.Repr (s.erase x) ∧
    s.erase x = s.eraseIdx k ∧
    (L.Remove x).1.head = (if k = 0 then s[1]? else L.head) ∧
    (L.Remove x).1.links x = ⟨none, none⟩ ∧
    (L.Remove x).1.count + 1 = L.count ∧
    (L.Remove x).2 = s[k + 1]? ∧
    (∀ y, y ∉ s → L.count + 1 < 2 ^ 32 →
      ((L.PushFront y).Remove y).1.head = L.head ∧
      ((L.PushFront y).Remove y).1.count = L.count ∧
      ((L.PushFront y).Remove y).2 = L.head ∧
      ∀ n, n ≠ y → ((L.PushFront y).Remove y).1.links n = L.links n) := by
  have idx : ∀ {i j a : Nat}, s[i]? = some a → s[j]? = some a → i = j :=
    fun hi hj => nodup_getElem?_inj h.nodup hi hj
  have hlen : k < s.length := (List.getElem?_eq_some.1 hk).1
  have hlt := h.count_lt
  have hp := h.prev k x hk
  have hn := h.next k x hk
  have hpx : (if k = 0 then none else s[k - 1]?) ≠ some x := by
    by_cases h0 : k = 0
    · rw [if_pos h0]
      exact Option.noConfusion
    · rw [if_neg h0]
      intro e
      have := idx e hk
      omega
  have hnx : s[k + 1]? ≠ some x := by
    intro e
    have := idx e hk
    omega
  obtain ⟨hhead, hret, hcount, hself⟩ := Remove_links2 L x _ _ hp hn hpx hnx
  refine ⟨?_, erase_eq_eraseIdx_of_nodup h.nodup hk, ?_, hself, ?_, hret,
    fun y hy hc => PushFront_Remove L s y h hy hc⟩
  · rw [erase_eq_eraseIdx_of_nodup h.nodup hk]
    exact Remove_repr L s x k h hk
  · rw [hhead, h.head, List.head?_eq_getElem?]
    by_cases h0 : k = 0
    · subst h0
      rw [if_pos hk.symm, if_pos rfl]
    · have : some x ≠ s[0]? := by
        intro e
        have := idx e.symm hk
        omega
      rw [if_neg this, if_neg h0]
  · rw [hcount, h.count]
    omega

/-- C12 on the list of the nodes `7, 8`: removing the head `7` leaves the list `8`, returns
`8`, and makes `8` the head. -/
theorem C12_remove_witness :
    (smallList.Remove 7).1.Repr [8] ∧ (smallList.Remove 7).1.head = some 8 ∧
    (smallList.Remove 7).2 = some 8 :=
  ⟨(C12_remove smallList [7, 8] 7 0 smallList_repr rfl).1,
   (C12_remove smallList [7, 8] 7 0 smallList_repr rfl).2.2.1,
   (C12_remove smallList [7, 8] 7 0 smallList_repr rfl).2.2.2.2.2.1⟩

/-! ## C15: `FindTwin` -/

theorem findTwinLoop_eq {m : qhHull} {first tail head : Nat} :
    ∀ (fuel e : Nat) (l : List Nat), m.walkLoop first fuel e = some l →
      m.findTwinLoop first tail head fuel e = some (l.find? (m.isTwinOf tail head)) := by
  intro fuel
  induction fuel with
  | zero => intro e l h; simp [qhHull.walkLoop] at h
  | succ fuel ih =>
    intro e l h
    rw [qhHull.walkLoop] at h
    rw [qhHull.findTwinLoop]
    by_cases hn : (m.halfEdge e).next = first
    · rw [if_pos hn] at h
      injection h with h
      subst h
      by_cases ht : m.isTwinOf tail head e = true
      · rw [if_pos ht, List.find?_cons_of_pos _ ht]
      · rw [if_neg ht, if_neg (not_not.2 hn), List.find?_cons_of_neg _ ht]
        rfl
    · rw [if_neg hn] at h
      cases hw : m.walkLoop first fuel (m.halfEdge e).next with
      | none => rw [hw] at h; exact Option.noConfusion h
      | some l1 =>
        rw [hw] at h
        injection h with h
        subst h
        by_cases ht : m.isTwinOf tail head e = true
        · rw [if_pos ht, List.find?_cons_of_pos _ ht]
        · rw [if_neg ht, if_pos hn, List.find?_cons_of_neg _ ht]
          exact ih _ _ hw

theorem findTwinFaces_eq {m : qhHull} {fuel tail head : Nat} :
    ∀ (faces : List qhFace) (loops : List (List Nat)),
      m.boundariesOf fuel faces = some loops →
      m.findTwinFaces fuel tail head faces =
        some (loops.flatten.find? (m.isTwinOf tail head)) := by
  intro faces
  induction faces with
  | nil =>
    intro loops hb
    simp only [qhHull.boundariesOf, Option.some.injEq] at hb
    subst hb
    rfl
  | cons face rest ih =>
    intro loops hb
    rw [qhHull.boundariesOf] at hb
    cases hw : m.walkLoop face.edge fuel face.edge with
    | none => simp [hw] at hb
    | some l =>
      cases hr : m.boundariesOf fuel rest with
      | none => simp [hw, hr] at hb
      | some ls =>
        simp only [hw, hr, Option.some.injEq] at hb
        subst hb
        rw [qhHull.findTwinFaces, qhFace.FindTwin, findTwinLoop_eq fuel face.edge l hw,
          List.flatten_cons, List.find?_append]
        cases hf : l.find? (m.isTwinOf tail head) with
        | none =>
          simp only [Option.or]
          exact ih ls hr
        | some e => rfl

/-- C15: on a hull whose live faces have closed `next` cycles (walked within `fuel` steps, with
boundary loops `loops` in face-list order), `qhHull::FindTwin(tail, head)` returns, and what it
returns is the first half-edge `e`, in face-list order and within a face in loop order from
`face->edge`, with `e->tail == tail` and `e->next->tail == head`, or `NULL` when there is
none: the result is non-`NULL` exactly when some boundary half-edge passes the test, it passes
the test itself, and no boundary half-edge before it does.  `qhFace::FindTwin` is the same
search on the loop of one face. -/
theorem C15_find_twin (m : qhHull) (fuel : Nat) (loops : List (List Nat)) (tail head : Nat)
    (hb : m.boundaries fuel = some loops) :
    m.FindTwin fuel tail head = some (loops.flatten.find? (m.isTwinOf tail head)) ∧
    ((∃ e, m.FindTwin fuel tail head = some (some e)) ↔
      ∃ e ∈ loops.flatten, (m.halfEdge e).tail = tail ∧
        (m.halfEdge (m.halfEdge e).next).tail = head) ∧
    (∀ e, m.FindTwin fuel tail head = some (some e) →
      (m.halfEdge e).tail = tail ∧ (m.halfEdge (m.halfEdge e).next).tail = head ∧
      ∃ before after, loops.flatten = before ++ e :: after ∧
        ∀ a ∈ before, ¬ ((m.halfEdge a).tail = tail ∧
          (m.halfEdge (m.halfEdge a).next).tail = head)) ∧
    (∀ (f : Nat) (face : qhFace), m.faceList.faces[f]? = some face →
      ∃ l, loops[f]? = some l ∧
        face.FindTwin m fuel tail head = some (l.find? (m.isTwinOf tail head))) := by
  have hp : ∀ e, m.isTwinOf tail head e = true ↔
      ((m.halfEdge e).tail = tail ∧ (m.halfEdge (m.halfEdge e).next).tail = head) := by
    intro e
    simp [qhHull.isTwinOf]
  have hF : m.FindTwin fuel tail head = some (loops.flatten.find? (m.isTwinOf tail head)) :=
    findTwinFaces_eq m.faceList.faces loops hb
  refine ⟨hF, ?_, ?_, ?_⟩
  · rw [hF]
    constructor
    · rintro ⟨e, he⟩
      injection he with he
      exact ⟨e, List.mem_of_find?_eq_some he, (hp e).1 (List.find?_some he)⟩
    · rintro ⟨e, he, hpe⟩
      cases hf : loops.flatten.find? (m.isTwinOf tail head) with
      | none =>
        exact absurd ((hp e).2 hpe) (List.find?_eq_none.1 hf e he)
      | some e1 => exact ⟨e1, rfl⟩
  · intro e he
    rw [hF] at he
    injection he with he
    obtain ⟨h1, before, after, h2, h3⟩ := List.find?_eq_some.1 he
    refine ⟨((hp e).1 h1).1, ((hp e).1 h1).2, before, after, h2, ?_⟩
    intro a ha hpa
    have := h3 a ha
    rw [(hp a).2 hpa] at this
    exact Bool.noConfusion this
  · intro f face hf
    obtain ⟨l, hl, hw⟩ := (boundariesOf_getElem m.faceList.faces loops hb).2 f face hf
    exact ⟨l, hl, findTwinLoop_eq fuel face.edge l hw⟩

/-- C15 on the tetrahedron: the half-edge from vertex 3 to vertex 0 is half-edge 5, found on the
second face; no half-edge leads from vertex 0 to vertex 0. -/
theorem C15_find_twin_witness :
    tetra.FindTwin 10 3 0 = some (some 5) ∧ tetra.FindTwin 10 0 0 = some none :=
  ⟨(C15_find_twin tetra 10 tetraLoops 3 0 tetra_boundaries).1.trans (by decide!),
   (C15_find_twin tetra 10 tetraLoops 0 0 tetra_boundaries).1.trans (by decide!)⟩

/-! ## C19: head and tail of the run-time half-edges -/

theorem edge_next_of_mem {m : qhHull} {loops : List (List Nat)} {s : FlatState} {fuelW : Nat}
    (h : FlatInv m loops [] s) (hb : m.boundaries fuelW = some loops) (e : Nat)
    (he : e ∈ loops.flatten) :
    (m.halfEdge e).next ∈ loops.flatten ∧
    (s.hull.edges (s.edgeIndex e)).next = s.edgeIndex (m.halfEdge e).next := by
  obtain ⟨l, hl, hel⟩ := List.mem_flatten.1 he
  obtain ⟨f, hf⟩ := List.mem_iff_getElem?.1 hl
  obtain ⟨j, hj, hje⟩ := List.mem_iff_getElem.1 hel
  obtain ⟨hlen, hget⟩ := boundariesOf_getElem _ _ hb
  have hflt : f < loops.length := (List.getElem?_eq_some.1 hf).1
  have hff : f < m.GetFaceList.faces.length := by omega
  obtain ⟨l1, hl1, hw⟩ := hget f _ (List.getElem?_eq_getElem hff)
  rw [hf] at hl1
  injection hl1 with hl1
  subst hl1
  obtain ⟨hchain, hclose⟩ := walkLoop_chain _ _ _ hw
  have hmod : (j + 1) % l.length < l.length := Nat.mod_lt _ (by omega)
  have hnext : l.getD ((j + 1) % l.length) 0 = (m.halfEdge e).next := by
    have hj0 := hchain j hj
    rw [List.getD_eq_getElem _ _ hj, hje] at hj0
    by_cases hlast : j + 1 < l.length
    · rw [Nat.mod_eq_of_lt hlast, hchain _ hlast, Function.iterate_succ_apply', ← hj0]
    · have hjl : j + 1 = l.length := by omega
      rw [← hjl, Nat.mod_self, hchain 0 (by omega), Function.iterate_zero_apply]
      rw [← hjl, Function.iterate_succ_apply', ← hj0] at hclose
      exact hclose.symm
  have hn := h.edge.edge_next f l hf j hj
  rw [List.getD_eq_getElem _ _ hj, hje, hnext] at hn
  refine ⟨?_, hn⟩
  rw [← hnext, List.getD_eq_getElem _ _ hmod]
  exact List.mem_flatten.2 ⟨l, hl, List.getElem_mem _⟩

theorem pointers_on_loops {m : qhHull} {loops : List (List Nat)} {s : FlatState}
    (h : FlatInv m loops [] s) (hcl : m.Closed loops) (p : Nat) (hp : p ∈ s.es.pointers) :
    p ∈ loops.flatten := by
  rcases h.edge.es_source p hp with h1 | h1
  · simpa using h1
  · have h2 : (m.halfEdge p).twin ∈ loops.flatten := by simpa using h1
    have := hcl _ h2
    rwa [(h.edge.es_closed p hp).2] at this

/-- C19: on a well-formed closed construction mesh in which the tail of the next half-edge is
the tail of the twin (`e->next->tail == e->twin->tail`, with `e->twin->twin == e`) and on which
the flattening pass completes, every run-time half-edge `i < edgeCount` has
`edges[edges[i].next].origin == edges[edges[i].twin].origin`, and for every half-edge `e` of the
mesh the run-time twin and the run-time next of the index given to `e` are the indices given to
`e->twin` and to `e->next`. The capacities are byte-sized. -/
theorem C19_head_tail (env : Env) (m : qhHull) (fuel fuelW : Nat) (hull : b3QHull)
    (s : FlatState) (loops : List (List Nat))
    (hbyte : env.ByteSized)
    (hb : m.boundaries fuelW = some loops) (hwf : m.WellFormed loops) (hcl : m.Closed loops)
    (hht : ∀ e ∈ loops.flatten,
      (m.halfEdge (m.halfEdge e).next).tail = (m.halfEdge (m.halfEdge e).twin).tail)
    (h : flatten env m fuel hull = Exit.done s) :
    (∀ i, i < s.hull.edgeCount →
      (s.hull.edges (s.hull.edges i).next).origin =
        (s.hull.edges (s.hull.edges i).twin).origin) ∧
    (∀ e ∈ loops.flatten, s.edgeIndex e < s.hull.edgeCount ∧
      (s.hull.edges (s.edgeIndex e)).twin = s.edgeIndex (m.halfEdge e).twin ∧
      (s.hull.edges (s.edgeIndex e)).next = s.edgeIndex (m.halfEdge e).next) := by
  have hinv := FlatInv_flatten hbyte.1 hbyte.2 hb hwf h
  have hmem : ∀ e ∈ loops.flatten, e ∈ s.es.pointers :=
    fun e he => hinv.edge.visited_mem e (by simpa using he)
  have key : ∀ e ∈ loops.flatten,
      (s.hull.edges (s.hull.edges (s.edgeIndex e)).next).origin =
        (s.hull.edges (s.hull.edges (s.edgeIndex e)).twin).origin := by
    intro e he
    obtain ⟨hn1, hn2⟩ := edge_next_of_mem hinv hb e he
    have hp := hmem e he
    rw [hn2, hinv.edge.edge_twin e hp,
      (hinv.edge.edge_origin _ (hmem _ hn1)).2,
      (hinv.edge.edge_origin _ (hinv.edge.es_closed e hp).1).2, hht e he]
  constructor
  · intro i hi
    rw [hinv.edge.es_count] at hi
    have hp : s.es.pointers[i] ∈ s.es.pointers := List.getElem_mem _
    have hidx : s.edgeIndex s.es.pointers[i] = i :=
      List.indexOf_getElem hinv.edge.es_nodup i hi
    have := key _ (pointers_on_loops hinv hcl _ hp)
    rwa [hidx] at this
  · intro e he
    refine ⟨?_, hinv.edge.edge_twin e (hmem e he), (edge_next_of_mem hinv hb e he).2⟩
    rw [hinv.edge.es_count]
    exact List.indexOf_lt_length.2 (hmem e he)

theorem tetra_head_tail : ∀ e ∈ tetraLoops.flatten,
    (tetra.halfEdge (tetra.halfEdge e).next).tail =
      (tetra.halfEdge (tetra.halfEdge e).twin).tail := by
  decide!

/-- C19 on the tetrahedron: each of the twelve run-time half-edges has the origin of its next
half-edge equal to the origin of its twin. -/
theorem C19_head_tail_witness :
    tetraFlat.hull.edgeCount = 12 ∧
    ∀ i, i < tetraFlat.hull.edgeCount →
      (tetraFlat.hull.edges (tetraFlat.hull.edges i).next).origin =
        (tetraFlat.hull.edges (tetraFlat.hull.edges i).twin).origin :=
  ⟨by decide!, (C19_head_tail tetraEnv tetra 10 10 usedHull tetraFlat tetraLoops
    tetraEnv_byteSized tetra_boundaries tetra_wellFormed tetra_closed tetra_head_tail
    tetra_flatten).1⟩

/-! ## C18: no assertion of the flattening pass fails -/

theorem count_eq_pointers (mp : b3PIMap) : mp.count = mp.pointers.length := by
  simp [b3PIMap.count, b3PIMap.pointers]

theorem resolveVertex_safe {env : Env} {m : qhHull} {s : FlatState} (v : Nat)
    (hv : VInv m s) (hc : s.hull.vertexCount ≤ env.B3_MAX_HULL_VERTICES) :
    (∃ s1 iv, resolveVertex env m s v = Exit.done (s1, iv) ∧
      s1.hull.vertexCount ≤ env.B3_MAX_HULL_VERTICES ∧
      s1.hull.edgeCount = s.hull.edgeCount) ∨
    (∃ s1 iv, resolveVertex env m s v = Exit.returned (s1, iv)) := by
  unfold resolveVertex
  cases hf : s.vs.Find v with
  | some mv => exact Or.inl ⟨s, mv.index, rfl, hc, rfl⟩
  | none =>
    simp only
    by_cases hmax : s.hull.vertexCount = env.B3_MAX_HULL_VERTICES
    · rw [if_pos hmax]
      exact Or.inr ⟨_, _, rfl⟩
    · rw [if_neg hmax]
      have hlt : s.vs.count < env.B3_MAX_HULL_VERTICES := by
        rw [count_eq_pointers, ← hv.vs_count]
        omega
      simp only [b3PIMap.Add, if_pos hlt]
      refine Or.inl ⟨_, _, rfl, ?_, rfl⟩
      show s.hull.vertexCount + 1 ≤ env.B3_MAX_HULL_VERTICES
      omega

theorem resolveEdge_safe {env : Env} {m : qhHull} {done : List (List Nat)} {cur : List Nat}
    {s : FlatState} (e iv1 iv2 : Nat) (he : EInv m done cur s)
    (hc : s.hull.edgeCount = 0 ∨ s.hull.edgeCount < env.B3_MAX_HULL_EDGES)
    (hnd : (done.flatten ++ cur ++ [e]).Nodup) :
    (∃ s1, resolveEdge env m s e iv1 iv2 = Exit.done s1 ∧
      (s1.hull.edgeCount = 0 ∨ s1.hull.edgeCount < env.B3_MAX_HULL_EDGES) ∧
      s1.hull.vertexCount = s.hull.vertexCount) ∨
    (∃ s1, resolveEdge env m s e iv1 iv2 = Exit.returned s1) := by
  have hfresh : e ∉ done.flatten ++ cur := by
    intro hmem
    exact (List.nodup_append.1 hnd).2.2 hmem (List.mem_singleton.2 rfl)
  have hcur : (cur ++ [e]).Nodup := by
    rw [List.append_assoc] at hnd
    exact (List.nodup_append.1 hnd).2.1
  have hnfh : s.nfh = cur.length := by
    show s.fhs.length = _
    rw [he.fhs_eq, List.length_map]
  have hcurP : ∀ x ∈ cur, x ∈ s.es.pointers :=
    fun x hx => he.visited_mem x (List.mem_append_right _ hx)
  have hlen : cur.length ≤ s.hull.edgeCount := by
    rw [he.es_count]
    exact (List.Nodup.subperm (List.nodup_append.1 hcur).1 hcurP).length_le
  unfold resolveEdge
  rw [Find_of_indexed he.es_indexed]
  by_cases hp : e ∈ s.es.pointers
  · have hlen1 : cur.length + 1 ≤ s.hull.edgeCount := by
      rw [he.es_count]
      have := (List.Nodup.subperm hcur (fun x hx => by
        rcases List.mem_append.1 hx with h1 | h1
        · exact hcurP x h1
        · rw [List.mem_singleton.1 h1]
          exact hp)).length_le
      simpa using this
    have hn : s.nfh < env.B3_MAX_HULL_EDGES := by omega
    simp only [if_pos hp, he.face_null e hp hfresh, if_true, if_pos hn]
    exact Or.inl ⟨_, rfl, hc, rfl⟩
  · simp only [if_neg hp]
    by_cases hx : s.hull.edgeCount + 2 ≥ env.B3_MAX_HULL_EDGES
    · rw [if_pos hx]
      exact Or.inr ⟨_, rfl⟩
    · rw [if_neg hx]
      have hcnt : s.es.count = s.hull.edgeCount := by
        rw [count_eq_pointers, he.es_count]
      have h1 : s.es.pis.length < env.B3_MAX_HULL_EDGES := by
        have : s.es.pis.length = s.hull.edgeCount := hcnt
        omega
      have h2 : (s.es.pis ++ [(⟨e, s.hull.edgeCount % 256⟩ : b3PointerIndex)]).length <
          env.B3_MAX_HULL_EDGES := by
        rw [List.length_append, List.length_singleton]
        have : s.es.pis.length = s.hull.edgeCount := hcnt
        omega
      have hn : s.nfh < env.B3_MAX_HULL_EDGES := by omega
      simp only [b3PIMap.Add, if_pos h1, b3PIMap.count, if_pos h2, if_pos hn]
      refine Or.inl ⟨_, rfl, Or.inr ?_, rfl⟩
      show s.hull.edgeCount + 2 < env.B3_MAX_HULL_EDGES
      omega

theorem edgeStep_safe {env : Env} {m : qhHull} {done : List (List Nat)} {cur : List Nat}
    {s : FlatState} {e : Nat} (hV : env.B3_MAX_HULL_VERTICES ≤ 256)
    (h : FlatInv m done cur s) (hc : CapInv env s)
    (hnd : (done.flatten ++ cur ++ [e]).Nodup) :
    (∃ s1, edgeStep env m s e = Exit.done s1 ∧ CapInv env s1) ∨
    (∃ s1, edgeStep env m s e = Exit.returned s1) := by
  unfold edgeStep
  rcases resolveVertex_safe (m.halfEdge e).tail h.vert hc.vertex with
    ⟨s1, iv1, h1, hc1, he1⟩ | ⟨s1, iv1, h1⟩
  · have hv1 := (resolveVertex_spec hV h.vert h1).1
    have hE1 := EInv_resolveVertex h.edge h1
    simp only [h1]
    rcases resolveVertex_safe (m.halfEdge (m.halfEdge e).twin).tail hv1 hc1 with
      ⟨s2, iv2, h2, hc2, he2⟩ | ⟨s2, iv2, h2⟩
    · have hE2 := EInv_resolveVertex hE1 h2
      simp only [h2]
      have hcap2 : s2.hull.edgeCount = 0 ∨ s2.hull.edgeCount < env.B3_MAX_HULL_EDGES := by
        rw [he2, he1]
        exact hc.edge
      rcases resolveEdge_safe e iv1 iv2 hE2 hcap2 hnd with ⟨s3, h3, hc3, hv3⟩ | ⟨s3, h3⟩
      · exact Or.inl ⟨s3, h3, ⟨by rw [hv3]; exact hc2, hc3⟩⟩
      · exact Or.inr ⟨s3, h3⟩
    · simp only [h2]
      exact Or.inr ⟨s2, rfl⟩
  · simp only [h1]
    exact Or.inr ⟨s1, rfl⟩
theorem stepEdges_safe {env : Env} {m : qhHull} {done : List (List Nat)}
    (hV : env.B3_MAX_HULL_VERTICES ≤ 256) (hE : env.B3_MAX_HULL_EDGES ≤ 256) :
    ∀ (rest cur : List Nat) (s : FlatState),
      FlatInv m done cur s → CapInv env s → (done.flatten ++ cur ++ rest).Nodup →
      (∀ e ∈ rest, (m.halfEdge (m.halfEdge e).twin).twin = e ∧ (m.halfEdge e).twin ≠ e) →
      (∃ s1, stepEdges env m rest s = Exit.done s1 ∧ FlatInv m done (cur ++ rest) s1 ∧
        CapInv env s1) ∨
      (∃ s1, stepEdges env m rest s = Exit.returned s1) := by
  intro rest
  induction rest with
  | nil =>
    intro cur s h hc _ _
    refine Or.inl ⟨s, rfl, ?_, hc⟩
    rw [List.append_nil]
    exact h
  | cons e rest ih =>
    intro cur s h hc hnd htw
    have hnd1 : (done.flatten ++ cur ++ [e]).Nodup := by
      have : done.flatten ++ cur ++ (e :: rest) = (done.flatten ++ cur ++ [e]) ++ rest := by
        simp
      rw [this] at hnd
      exact (List.nodup_append.1 hnd).1
    rw [stepEdges]
    rcases edgeStep_safe hV h hc hnd1 with ⟨t, ht, hct⟩ | ⟨t, ht⟩
    · have hinv := FlatInv_edgeStep hV hE h hnd1 (htw e (by simp)).1 (htw e (by simp)).2 ht
      simp only [ht]
      have := ih (cur ++ [e]) t hinv hct (by simpa [List.append_assoc] using hnd)
        (fun x hx => htw x (List.mem_cons_of_mem _ hx))
      simpa [List.append_assoc] using this
    · simp only [ht]
      exact Or.inr ⟨t, rfl⟩

theorem walkLoop_length {m : qhHull} {first : Nat} :
    ∀ (fuel e : Nat) (l : List Nat), m.walkLoop first fuel e = some l → l.length ≤ fuel := by
  intro fuel
  induction fuel with
  | zero => intro e l h; simp [qhHull.walkLoop] at h
  | succ fuel ih =>
    intro e l h
    rw [qhHull.walkLoop] at h
    by_cases hn : (m.halfEdge e).next = first
    · rw [if_pos hn] at h
      injection h with h
      rw [← h]
      simp
    · rw [if_neg hn] at h
      cases hw : m.walkLoop first fuel (m.halfEdge e).next with
      | none => simp [hw] at h
      | some l1 =>
        simp only [hw, Option.map_some', Option.some.injEq] at h
        rw [← h, List.length_cons]
        have := ih _ _ hw
        omega

theorem faceLoop_eq_stepEdges {env : Env} {m : qhHull} {first : Nat} :
    ∀ (fuelW e : Nat) (l : List Nat), m.walkLoop first fuelW e = some l →
      ∀ (fuel : Nat) (s : FlatState),
        (l.length ≤ fuel → faceLoop env m first fuel e s = stepEdges env m l s) ∧
        (faceLoop env m first fuel e s = stepEdges env m l s ∨
          faceLoop env m first fuel e s = Exit.fuel) := by
  intro fuelW
  induction fuelW with
  | zero => intro e l h; simp [qhHull.walkLoop] at h
  | succ fuelW ih =>
    intro e l hw fuel s
    rw [qhHull.walkLoop] at hw
    cases fuel with
    | zero =>
      have hpos : 0 < l.length := by
        by_cases hn : (m.halfEdge e).next = first
        · rw [if_pos hn] at hw
          injection hw with hw
          rw [← hw]
          simp
        · rw [if_neg hn] at hw
          cases hw2 : m.walkLoop first fuelW (m.halfEdge e).next with
          | none => simp [hw2] at hw
          | some l1 =>
            simp only [hw2, Option.map_some', Option.some.injEq] at hw
            rw [← hw]
            simp
      exact ⟨fun hle => absurd hle (by omega), Or.inr rfl⟩
    | succ fuel =>
      by_cases hn : (m.halfEdge e).next = first
      · rw [if_pos hn] at hw
        injection hw with hw
        subst hw
        have heq : faceLoop env m first (fuel + 1) e s = stepEdges env m [e] s := by
          rw [faceLoop, stepEdges]
          cases hstep : edgeStep env m s e with
          | done t => simp only [if_pos hn, stepEdges]
          | returned t => rfl
          | assertion => rfl
          | fuel => rfl
        exact ⟨fun _ => heq, Or.inl heq⟩
      · rw [if_neg hn] at hw
        cases hw2 : m.walkLoop first fuelW (m.halfEdge e).next with
        | none => simp [hw2] at hw
        | some l1 =>
          simp only [hw2, Option.map_some', Option.some.injEq] at hw
          subst hw
          rw [faceLoop, stepEdges]
          cases hstep : edgeStep env m s e with
          | done t =>
            simp only [if_neg hn]
            obtain ⟨h1, h2⟩ := ih _ _ hw2 fuel t
            refine ⟨fun hle => h1 ?_, h2⟩
            rw [List.length_cons] at hle
            omega
          | returned t => exact ⟨fun _ => rfl, Or.inl rfl⟩
          | assertion => exact ⟨fun _ => rfl, Or.inl rfl⟩
          | fuel => exact ⟨fun _ => rfl, Or.inl rfl⟩

theorem flattenFaces_safe {env : Env} {m : qhHull} {fuel fuelW : Nat}
    (hV : env.B3_MAX_HULL_VERTICES ≤ 256) (hE : env.B3_MAX_HULL_EDGES ≤ 256) :
    ∀ (faces : List qhFace) (loops done : List (List Nat)) (s : FlatState),
      m.boundariesOf fuelW faces = some loops →
      FlatInv m done [] s → CapInv env s → (done.flatten ++ loops.flatten).Nodup →
      (∀ e ∈ loops.flatten,
        (m.halfEdge (m.halfEdge e).twin).twin = e ∧ (m.halfEdge e).twin ≠ e) →
      done.length + faces.length ≤ env.B3_MAX_HULL_FACES →
      flattenFaces env m fuel faces s ≠ Exit.assertion ∧
      (fuelW ≤ fuel → flattenFaces env m fuel faces s ≠ Exit.fuel) ∧
      (∀ s1, flattenFaces env m fuel faces s = Exit.done s1 → CapInv env s1) := by
  intro faces
  induction faces with
  | nil =>
    intro loops done s _ _ hc _ _ _
    refine ⟨by simp [flattenFaces], fun _ => by simp [flattenFaces], ?_⟩
    intro s1 hs
    simp only [flattenFaces] at hs
    injection hs with hs
    rw [← hs]
    exact hc
  | cons face rest ih =>
    intro loops done s hb h hc hnd htw hF
    rw [qhHull.boundariesOf] at hb
    cases hw : m.walkLoop face.edge fuelW face.edge with
    | none => simp [hw] at hb
    | some l =>
      cases hbr : m.boundariesOf fuelW rest with
      | none => simp [hw, hbr] at hb
      | some ls =>
        simp only [hw, hbr, Option.some.injEq] at hb
        subst hb
        have hlne : l ≠ [] := by
          intro hnil
          have := walkLoop_ne_nil _ _ _ hw
          rw [hnil] at this
          simp at this
        have hnd1 : (done.flatten ++ [] ++ l).Nodup := by
          simp only [List.flatten_cons, ← List.append_assoc] at hnd
          simpa using (List.nodup_append.1 hnd).1
        obtain ⟨hBeq, hBor⟩ := @faceLoop_eq_stepEdges env m face.edge _ _ _ hw fuel s
        rw [List.length_cons] at hF
        have hmain : faceLoop env m face.edge fuel face.edge s = stepEdges env m l s →
            flattenFaces env m fuel (face :: rest) s ≠ Exit.assertion ∧
            (fuelW ≤ fuel → flattenFaces env m fuel (face :: rest) s ≠ Exit.fuel) ∧
            (∀ s1, flattenFaces env m fuel (face :: rest) s = Exit.done s1 →
              CapInv env s1) := by
          intro heq
          rw [flattenFaces, heq]
          rcases stepEdges_safe hV hE l [] s h hc hnd1 (fun e he => htw e (by simp [he])) with
            ⟨t1, ht1, hinv1, hc1⟩ | ⟨t1, ht1⟩
          · rw [List.nil_append] at hinv1
            have hfc : t1.hull.faceCount < env.B3_MAX_HULL_FACES := by
              rw [hinv1.edge.face_count]
              omega
            have hnfh : 0 < t1.nfh := by
              show 0 < t1.fhs.length
              rw [hinv1.edge.fhs_eq, List.length_map]
              exact List.length_pos.2 hlne
            have hemit : emitFace env face t1 = Exit.done (emitted face t1) := by
              simp only [emitFace, if_pos hfc, if_pos hnfh]
              rfl
            simp only [ht1, hemit]
            have ht2 := FlatInv_emitted face hinv1 hlne (by simpa using hnd1)
            have hc2 : CapInv env (emitted face t1) := ⟨hc1.vertex, hc1.edge⟩
            exact ih ls (done ++ [l]) _ hbr ht2 hc2
              (by simpa [List.append_assoc] using hnd)
              (fun e he => htw e (by simp [he]))
              (by rw [List.length_append, List.length_singleton]; omega)
          · simp only [ht1]
            exact ⟨by simp, fun _ => by simp, fun s1 hs => by simp at hs⟩
        rcases hBor with heq | hfuel
        · exact hmain heq
        · by_cases hle : fuelW ≤ fuel
          · exact hmain (hBeq (le_trans (walkLoop_length _ _ _ hw) hle))
          · rw [flattenFaces, hfuel]
            exact ⟨by simp, fun h1 => absurd h1 hle, fun s1 hs => by simp at hs⟩
theorem boundariesOf_take {m : qhHull} {fuelW : Nat} :
    ∀ (faces : List qhFace) (loops : List (List Nat)) (k : Nat),
      m.boundariesOf fuelW faces = some loops →
      m.boundariesOf fuelW (faces.take k) = some (loops.take k) := by
  intro faces
  induction faces with
  | nil =>
    intro loops k hb
    simp only [qhHull.boundariesOf, Option.some.injEq] at hb
    subst hb
    simp [qhHull.boundariesOf]
  | cons face rest ih =>
    intro loops k hb
    rw [qhHull.boundariesOf] at hb
    cases hw : m.walkLoop face.edge fuelW face.edge with
    | none => simp [hw] at hb
    | some l =>
      cases hbr : m.boundariesOf fuelW rest with
      | none => simp [hw, hbr] at hb
      | some ls =>
        simp only [hw, hbr, Option.some.injEq] at hb
        subst hb
        cases k with
        | zero => simp [qhHull.boundariesOf]
        | succ k =>
          rw [List.take_succ_cons, List.take_succ_cons, qhHull.boundariesOf, hw, ih ls k hbr]

/-- C18: on a well-formed construction mesh whose live face list has `count` equal to its
length and passes the face guard of `b3QHull::Set` (`count <= B3_MAX_HULL_FACES`), no assertion
of the flattening pass fails, whatever the number of loop rounds allowed: not the one of
`b3PIMap::Add` (`count < N`), nor `nfh < B3_MAX_HULL_EDGES` at a push into `fhs`, nor
`face == B3_NULL_HULL_FEATURE` on second sight, nor `faceCount < B3_MAX_HULL_FACES` and
`nfh > 0` when a face is emitted.  With enough rounds for the longest face loop the pass ends,
by completing or by one of its `return`s.  After any number `k` of faces converted,
`vs.count == vertexCount <= B3_MAX_HULL_VERTICES`, `es.count == edgeCount`, which is zero or
below `B3_MAX_HULL_EDGES`, `faceCount` is at most `B3_MAX_HULL_FACES` and `fhs` is empty.
The capacities are byte-sized. -/
theorem C18_flatten_safe (env : Env) (m : qhHull) (fuelW : Nat) (hull : b3QHull)
    (loops : List (List Nat)) (hbyte : env.ByteSized)
    (hb : m.boundaries fuelW = some loops) (hwf : m.WellFormed loops)
    (hcount : m.GetFaceList.count = m.GetFaceList.faces.length)
    (hguard : ¬ (m.GetFaceList.count > env.B3_MAX_HULL_FACES)) (fuel : Nat) :
    flatten env m fuel hull ≠ Exit.assertion ∧
    (fuelW ≤ fuel →
      (∃ s, flatten env m fuel hull = Exit.done s) ∨
      (∃ s, flatten env m fuel hull = Exit.returned s)) ∧
    (∀ k s, flattenFaces env m fuel (m.GetFaceList.faces.take k) (flattenInit hull) =
        Exit.done s →
      s.vs.count = s.hull.vertexCount ∧ s.hull.vertexCount ≤ env.B3_MAX_HULL_VERTICES ∧
      s.es.count = s.hull.edgeCount ∧
      (s.hull.edgeCount = 0 ∨ s.hull.edgeCount < env.B3_MAX_HULL_EDGES) ∧
      s.hull.faceCount ≤ env.B3_MAX_HULL_FACES ∧ s.nfh = 0) := by
  have hlen : m.GetFaceList.faces.length ≤ env.B3_MAX_HULL_FACES := by omega
  have hinit : CapInv env (flattenInit hull) := ⟨Nat.zero_le _, Or.inl rfl⟩
  obtain ⟨h1, h2, -⟩ := @flattenFaces_safe env m fuel fuelW hbyte.1 hbyte.2
    m.GetFaceList.faces loops [] (flattenInit hull) hb (FlatInv_init m hull) hinit
    (by simpa using hwf.1) hwf.2 (by simpa using hlen)
  refine ⟨h1, ?_, ?_⟩
  · intro hle
    have h3 := h2 hle
    cases hr : flatten env m fuel hull with
    | done s => exact Or.inl ⟨s, rfl⟩
    | returned s => exact Or.inr ⟨s, rfl⟩
    | assertion => exact absurd hr h1
    | fuel => exact absurd hr h3
  · intro k s hs
    have hbk := boundariesOf_take _ _ k hb
    have hsplit : loops.flatten = (loops.take k).flatten ++ (loops.drop k).flatten := by
      rw [← List.flatten_append, List.take_append_drop]
    have hndk : (loops.take k).flatten.Nodup := by
      have := hwf.1
      rw [hsplit] at this
      exact (List.nodup_append.1 this).1
    have htwk : ∀ e ∈ (loops.take k).flatten,
        (m.halfEdge (m.halfEdge e).twin).twin = e ∧ (m.halfEdge e).twin ≠ e := by
      intro e he
      apply hwf.2
      rw [hsplit]
      exact List.mem_append_left _ he
    have hlenk : (m.GetFaceList.faces.take k).length ≤ env.B3_MAX_HULL_FACES :=
      le_trans (by rw [List.length_take]; exact Nat.min_le_right _ _) hlen
    have hinv := FlatInv_flattenFaces hbyte.1 hbyte.2 _ _ [] _ s hbk (FlatInv_init m hull)
      (by simpa using hndk) htwk hs
    obtain ⟨-, -, hcap⟩ := @flattenFaces_safe env m fuel fuelW hbyte.1 hbyte.2
      (m.GetFaceList.faces.take k) (loops.take k) [] (flattenInit hull) hbk
      (FlatInv_init m hull) hinit (by simpa using hndk) htwk (by simpa using hlenk)
    have hc := hcap s hs
    rw [List.nil_append] at hinv
    refine ⟨?_, hc.vertex, ?_, hc.edge, ?_, ?_⟩
    · rw [count_eq_pointers, hinv.vert.vs_count]
    · rw [count_eq_pointers, hinv.edge.es_count]
    · rw [hinv.edge.face_count]
      have := (boundariesOf_getElem _ _ hbk).1
      omega
    · show s.fhs.length = 0
      rw [hinv.edge.fhs_eq]
      rfl

/-- C18 on the tetrahedron: the pass fails no assertion with two loop rounds allowed, and with
ten it completes or returns. -/
theorem C18_flatten_safe_witness :
    flatten tetraEnv tetra 2 usedHull ≠ Exit.assertion ∧
    ((∃ s, flatten tetraEnv tetra 10 usedHull = Exit.done s) ∨
      (∃ s, flatten tetraEnv tetra 10 usedHull = Exit.returned s)) :=
  ⟨(C18_flatten_safe tetraEnv tetra 10 usedHull tetraLoops tetraEnv_byteSized tetra_boundaries
      tetra_wellFormed (by decide) (by decide) 2).1,
   (C18_flatten_safe tetraEnv tetra 10 usedHull tetraLoops tetraEnv_byteSized tetra_boundaries
      tetra_wellFormed (by decide) (by decide) 10).2.1 (Nat.le_refl _)⟩

/-! ## C17: a mesh that fills the half-edge capacity -/

theorem isUniqueF_eq_true (fp : Float32) (env : Env) (ps : List b3Vec3) (p : b3Vec3) :
    isUniqueF fp env ps p = true ↔ ∀ q ∈ ps, kTolSqF fp env ≤ fp.b3DistanceSquared p q := by
  simp [isUniqueF, kTolSqF]

theorem isUniqueF_eq_false (fp : Float32) (env : Env) (ps : List b3Vec3) (p : b3Vec3) :
    isUniqueF fp env ps p = false ↔ ∃ q ∈ ps, fp.b3DistanceSquared p q < kTolSqF fp env := by
  simp [isUniqueF, kTolSqF]

theorem removeCoincidentF_exact (env : Env) (input ps : List b3Vec3) :
    removeCoincidentF Float32.exact env input ps = removeCoincident env input ps := by
  induction input generalizing ps with
  | nil => rfl
  | cons p rest ih =>
    simp only [removeCoincidentF, removeCoincident]
    have : isUniqueF Float32.exact env ps p = isUnique env ps p := rfl
    rw [this, ih, ih]

theorem uniquePointsF_exact (env : Env) (points : List b3Vec3) :
    uniquePointsF Float32.exact env points = uniquePoints env points :=
  removeCoincidentF_exact env _ _

theorem removeCoincidentF_append (fp : Float32) (env : Env) (a b ps : List b3Vec3) :
    removeCoincidentF fp env (a ++ b) ps =
      removeCoincidentF fp env b (removeCoincidentF fp env a ps) := by
  induction a generalizing ps with
  | nil => rfl
  | cons p a ih =>
    simp only [List.cons_append, removeCoincidentF]
    by_cases hu : isUniqueF fp env ps p = true
    · rw [if_pos hu, if_pos hu]
      exact ih _
    · rw [if_neg hu, if_neg hu]
      exact ih _

theorem removeCoincidentF_take_succ (fp : Float32) (env : Env) (points : List b3Vec3) (i : Nat)
    (hi : i < points.length) :
    removeCoincidentF fp env (points.take (i + 1)) [] =
      if acceptedAtF fp env points i then
        removeCoincidentF fp env (points.take i) [] ++ [points.getD i b3Vec3.zero]
      else removeCoincidentF fp env (points.take i) [] := by
  have h : points.take (i + 1) = points.take i ++ [points.getD i b3Vec3.zero] := by
    rw [List.take_succ, List.getD_eq_getElem?_getD, List.getElem?_eq_getElem hi]
    rfl
  rw [h, removeCoincidentF_append]
  simp only [removeCoincidentF]
  rfl

theorem removeCoincidentF_take_eq (fp : Float32) (env : Env) (points : List b3Vec3) (i : Nat)
    (hi : i ≤ points.length) :
    removeCoincidentF fp env (points.take i) [] =
      ((List.range i).filter (acceptedAtF fp env points)).map
        (fun j => points.getD j b3Vec3.zero) := by
  induction i with
  | zero => rfl
  | succ i ih =>
    rw [removeCoincidentF_take_succ fp env points i (by omega), ih (by omega), List.range_succ,
      List.filter_append]
    cases h : acceptedAtF fp env points i <;> simp [h]

theorem removeCoincidentF_pairwise (fp : Float32) (env : Env) (input ps : List b3Vec3)
    (h : ps.Pairwise (fun a b => kTolSqF fp env ≤ fp.b3DistanceSquared b a)) :
    (removeCoincidentF fp env input ps).Pairwise
      (fun a b => kTolSqF fp env ≤ fp.b3DistanceSquared b a) := by
  induction input generalizing ps with
  | nil => exact h
  | cons p rest ih =>
    simp only [removeCoincidentF]
    by_cases hu : isUniqueF fp env ps p = true
    · rw [if_pos hu]
      apply ih
      rw [List.pairwise_append]
      refine ⟨h, List.pairwise_singleton _ _, ?_⟩
      intro a ha b hb
      rw [List.mem_singleton] at hb
      subst hb
      exact (isUniqueF_eq_true fp env ps b).1 hu a ha
    · rw [if_neg hu]
      exact ih ps h

theorem removeCoincidentF_sublist (fp : Float32) (env : Env) (input ps : List b3Vec3) :
    ∃ t, removeCoincidentF fp env input ps = ps ++ t ∧ t.Sublist input := by
  induction input generalizing ps with
  | nil => exact ⟨[], by simp [removeCoincidentF]⟩
  | cons p rest ih =>
    simp only [removeCoincidentF]
    by_cases hu : isUniqueF fp env ps p = true
    · rw [if_pos hu]
      obtain ⟨t, ht, hs⟩ := ih (ps ++ [p])
      exact ⟨p :: t, by simp [ht], hs.cons₂ p⟩
    · rw [if_neg hu]
      obtain ⟨t, ht, hs⟩ := ih ps
      exact ⟨t, ht, hs.cons p⟩

theorem f32_accepted : uniquePointsF Float32.ieee f32Env f32Points = f32Points := by decide!

/-- C8 as stated fails on the code's `float32` arithmetic. With `B3_LINEAR_SLOP = 0.005f` and
four input points of binary32 coordinates, the filter accepts all four: for the second point
the sum of squares computed in binary32 equals the computed `kTol * kTol`, so the test `<` is
false; but the exact squared distance of the second point to the first is below the exact
`(0.5*B3_LINEAR_SLOP)^2`, so the accepted points are not pairwise that far apart. -/
theorem C8_dedup_postcondition_counterexample :
    (4 ≤ f32Points.length ∧ f32Points.length ≤ f32Env.B3_MAX_HULL_VERTICES) ∧
    (roundF32 (5 / 1000) = f32Env.B3_LINEAR_SLOP ∧
      ∀ p ∈ f32Points, roundF32 p.x = p.x ∧ roundF32 p.y = p.y ∧ roundF32 p.z = p.z) ∧
    uniquePointsF Float32.ieee f32Env f32Points = f32Points ∧
    (Float32.ieee.b3DistanceSquared (f32Points.getD 1 b3Vec3.zero)
        (f32Points.getD 0 b3Vec3.zero) = kTolSqF Float32.ieee f32Env ∧
      b3DistanceSquared (f32Points.getD 1 b3Vec3.zero) (f32Points.getD 0 b3Vec3.zero) <
        ((1 / 2 : ℚ) * f32Env.B3_LINEAR_SLOP) ^ 2) ∧
    ¬ (∀ (env : Env) (points : List b3Vec3),
        4 ≤ points.length → points.length ≤ env.B3_MAX_HULL_VERTICES →
        (uniquePointsF Float32.ieee env points).Pairwise
          (fun a b => ((1 / 2 : ℚ) * env.B3_LINEAR_SLOP) ^ 2 ≤ b3DistanceSquared a b)) := by
  refine ⟨⟨by decide, by decide⟩, ⟨by decide!, by decide!⟩, f32_accepted,
    ⟨by decide!, by decide!⟩, ?_⟩
  intro h
  have hp := h f32Env f32Points (by decide) (by decide)
  rw [f32_accepted] at hp
  have h01 := List.rel_of_pairwise_cons hp (List.mem_cons_self _ _)
  revert h01
  decide!

/-- C8, amended: for an input of `n` points, `4 ≤ n ≤ B3_MAX_HULL_VERTICES`, and whatever the
`float32` product and `b3DistanceSquared` compute, the accepted list `ps` is a subsequence of
the input (the input points of accepted index, in input order) that starts with the first input
point; for every accepted point the computed `b3DistanceSquared` to each point accepted before
it is not below the computed `kTol * kTol`; for every rejected input point the computed
`b3DistanceSquared` to some accepted point of smaller index is below the computed
`kTol * kTol`; and `psCount ≤ n`. -/
theorem C8_dedup_computed (fp : Float32) (env : Env) (points : List b3Vec3)
    (h4 : 4 ≤ points.length) (hmax : points.length ≤ env.B3_MAX_HULL_VERTICES) :
    (uniquePointsF fp env points).Sublist points ∧
    uniquePointsF fp env points =
      ((List.range points.length).filter (acceptedAtF fp env points)).map
        (fun i => points.getD i b3Vec3.zero) ∧
    (uniquePointsF fp env points).head? = points.head? ∧
    (uniquePointsF fp env points).Pairwise
      (fun a b => kTolSqF fp env ≤ fp.b3DistanceSquared b a) ∧
    (∀ i, i < points.length → acceptedAtF fp env points i = false →
      ∃ j, j < i ∧ acceptedAtF fp env points j = true ∧
        fp.b3DistanceSquared (points.getD i b3Vec3.zero) (points.getD j b3Vec3.zero) <
          kTolSqF fp env) ∧
    (uniquePointsF fp env points).length ≤ points.length := by
  have hu : uniquePointsF fp env points = removeCoincidentF fp env points [] := by
    unfold uniquePointsF
    rw [Nat.min_eq_left hmax, List.take_length]
  rw [hu]
  obtain ⟨t, ht, hs⟩ := removeCoincidentF_sublist fp env points []
  have hsub : (removeCoincidentF fp env points []).Sublist points := by
    rw [ht]; simpa using hs
  refine ⟨hsub, ?_, ?_, removeCoincidentF_pairwise fp env points [] List.Pairwise.nil, ?_,
    hsub.length_le⟩
  · have := removeCoincidentF_take_eq fp env points points.length le_rfl
    rwa [List.take_length] at this
  · cases points with
    | nil => simp at h4
    | cons p rest =>
      have hu1 : isUniqueF fp env [] p = true := by simp [isUniqueF]
      obtain ⟨t, ht, -⟩ := removeCoincidentF_sublist fp env rest ([] ++ [p])
      simp only [removeCoincidentF, hu1, if_true, ht]
      rfl
  · intro i hi hrej
    obtain ⟨q, hq, hd⟩ := (isUniqueF_eq_false fp env _ _).1 hrej
    rw [removeCoincidentF_take_eq fp env points i hi.le] at hq
    obtain ⟨j, hj, rfl⟩ := List.mem_map.1 hq
    obtain ⟨hj1, hj2⟩ := List.mem_filter.1 hj
    exact ⟨j, List.mem_range.1 hj1, hj2, hd⟩

/-- C8, amended, in binary32 on the four points of the counterexample: the accepted points
are a subsequence of the input, and each is, as computed, not nearer than the computed
tolerance to those accepted before it. -/
theorem C8_dedup_computed_witness :
    (4 ≤ f32Points.length ∧ f32Points.length ≤ f32Env.B3_MAX_HULL_VERTICES) ∧
    (uniquePointsF Float32.ieee f32Env f32Points).Sublist f32Points ∧
    (uniquePointsF Float32.ieee f32Env f32Points).Pairwise
      (fun a b => kTolSqF Float32.ieee f32Env ≤ Float32.ieee.b3DistanceSquared b a) :=
  ⟨⟨by decide, by decide⟩,
   (C8_dedup_computed Float32.ieee f32Env f32Points (by decide) (by decide)).1,
   (C8_dedup_computed Float32.ieee f32Env f32Points (by decide) (by decide)).2.2.2.1⟩

end Bounce
